import Mathlib

set_option maxRecDepth 16384

/-!
Verification development for the liveraid union filesystem core.

Each C subsystem relevant to the verified claims is shallowly embedded:
pure logic is translated to executable Lean functions over `Nat`, machine
`uint32_t` arithmetic is modelled as `Nat` with explicit reduction
`% 2^32` wherever the C program performs an addition that can wrap, and
effectful code (file reads, socket writes) is modelled by passing the
environment explicitly and by returning event traces.
-/

namespace LiveRaid

/-! ## Position allocator (src/alloc.c)

`lr_pos_allocator` holds the bump high-water mark `next_free` and the
sorted free-extent array, modelled as a list. All fields are `uint32_t`
in C; arithmetic that C performs modulo 2^32 is written with `u32add`. -/

def U32 : Nat := 4294967296

def u32add (x y : Nat) : Nat := (x + y) % U32

structure lr_extent where
  start : Nat
  count : Nat
deriving DecidableEq, Repr

structure lr_pos_allocator where
  next_free : Nat
  extents : List lr_extent
deriving DecidableEq, Repr

/-- `alloc_init`: zero-initialised allocator. -/
def alloc_init : lr_pos_allocator := { next_free := 0, extents := [] }

/-- First-fit scan of `alloc_positions` (the `for (i = 0; i < ext_count; i++)`
loop): take `count` positions from the first extent large enough, shrinking
or removing it. Returns `none` when no extent fits. -/
def allocFromExtents (count : Nat) : List lr_extent → Option (Nat × List lr_extent)
  | [] => none
  | e :: rest =>
    if count ≤ e.count then
      let shrunk : lr_extent := { start := u32add e.start count, count := e.count - count }
      some (e.start, if shrunk.count = 0 then rest else shrunk :: rest)
    else
      match allocFromExtents count rest with
      | some (s, rest') => some (s, e :: rest')
      | none => none

/-- `alloc_positions` from src/alloc.c: `count = 0` probes `next_free`;
otherwise first-fit over the free extents, falling back to bump allocation;
a bump that would overflow the 32-bit namespace returns `UINT32_MAX`
(= `U32 - 1`) and leaves the allocator unchanged. -/
def alloc_positions (a : lr_pos_allocator) (count : Nat) : Nat × lr_pos_allocator :=
  if count = 0 then
    (a.next_free, a)
  else
    match allocFromExtents count a.extents with
    | some (s, exts) => (s, { a with extents := exts })
    | none =>
      if U32 - 1 - a.next_free < count then
        (U32 - 1, a)
      else
        (a.next_free, { a with next_free := a.next_free + count })

/-- The trailing-extent reclamation at the end of `free_positions`: if the
last extent abuts `next_free`, drop it and lower the watermark. -/
def reclaimTail (a : lr_pos_allocator) : lr_pos_allocator :=
  match a.extents.getLast? with
  | some last =>
    if u32add last.start last.count = a.next_free then
      { next_free := last.start, extents := a.extents.dropLast }
    else a
  | none => a

/-- The insert-and-merge phase of `free_positions` (lines 59-96 of
src/alloc.c): find the sorted insertion point `i`, merge with the left
neighbour when `left.start + left.count == start`, with the right
neighbour when `start + count == right.start`, combining both merges
into one bridging extent when both apply. -/
def insertMergeExtents (l : List lr_extent) (start count : Nat) : List lr_extent :=
  let i := l.findIdx (fun e => start < e.start)
  let prevE : Option lr_extent := if i = 0 then none else l[i-1]?
  let nextE : Option lr_extent := l[i]?
  match prevE, nextE with
  | some p, some n =>
    if u32add p.start p.count = start ∧ u32add start count = n.start then
      l.take (i-1) ++ { start := p.start, count := u32add p.count (u32add count n.count) } :: l.drop (i+1)
    else if u32add p.start p.count = start then
      l.take (i-1) ++ { start := p.start, count := u32add p.count count } :: l.drop i
    else if u32add start count = n.start then
      l.take i ++ { start := start, count := u32add count n.count } :: l.drop (i+1)
    else
      l.take i ++ { start := start, count := count } :: l.drop i
  | some p, none =>
    if u32add p.start p.count = start then
      l.take (i-1) ++ [{ start := p.start, count := u32add p.count count }]
    else
      l.take i ++ [{ start := start, count := count }]
  | none, some n =>
    if u32add start count = n.start then
      { start := start, count := u32add count n.count } :: l.drop (i+1)
    else
      { start := start, count := count } :: l.drop i
  | none, none => [{ start := start, count := count }]

/-- `free_positions` from src/alloc.c: no-op on `count = 0`; otherwise
insert `[start, start+count)` into the sorted extent list, merging with
touching neighbours, then reclaim the trailing extent if it abuts the
watermark. (The out-of-memory path of the C code, which drops the range,
is not modelled: list construction cannot fail.) -/
def free_positions (a : lr_pos_allocator) (start count : Nat) : lr_pos_allocator :=
  if count = 0 then a
  else reclaimTail { a with extents := insertMergeExtents a.extents start count }

end LiveRaid

namespace LiveRaid

/-! ### Characterisation of the insert-and-merge phase -/

theorem findIdx_insert_split (pre suf : List lr_extent) (start : Nat)
    (hpre : ∀ e ∈ pre, ¬ start < e.start)
    (hsuf : ∀ n ∈ suf.head?, start < n.start) :
    (pre ++ suf).findIdx (fun e => decide (start < e.start)) = pre.length := by
  rw [List.findIdx_append]
  have h1 : pre.findIdx (fun e => decide (start < e.start)) = pre.length :=
    List.findIdx_eq_length.2 (by intro x hx; simpa using hpre x hx)
  rw [h1]
  simp only [lt_irrefl, if_false]
  cases suf with
  | nil => simp
  | cons n rest =>
    have hn := hsuf n rfl
    simp [List.findIdx_cons, hn]

theorem insertMerge_nil (start count : Nat) :
    insertMergeExtents [] start count = [{ start := start, count := count }] := rfl

theorem insertMerge_nextOnly (n : lr_extent) (rest : List lr_extent) (start count : Nat)
    (hn : start < n.start) :
    insertMergeExtents (n :: rest) start count =
      if u32add start count = n.start then
        { start := start, count := u32add count n.count } :: rest
      else
        { start := start, count := count } :: n :: rest := by
  have hidx : (n :: rest).findIdx (fun e => decide (start < e.start)) = 0 := by
    simp [List.findIdx_cons, hn]
  unfold insertMergeExtents
  rw [hidx]
  by_cases h : u32add start count = n.start <;> simp [h]

theorem insertMerge_prevOnly (pre : List lr_extent) (p : lr_extent) (start count : Nat)
    (hpre : ∀ e ∈ pre, ¬ start < e.start) (hp : ¬ start < p.start) :
    insertMergeExtents (pre ++ [p]) start count =
      if u32add p.start p.count = start then
        pre ++ [{ start := p.start, count := u32add p.count count }]
      else
        pre ++ [p, { start := start, count := count }] := by
  have hpre' : ∀ e ∈ pre ++ [p], ¬ start < e.start := by
    intro e he
    rcases List.mem_append.1 he with h | h
    · exact hpre e h
    · simpa [List.mem_singleton.1 h] using hp
  have hidx := findIdx_insert_split (pre ++ [p]) [] start hpre' (by intro n hn; simp at hn)
  rw [List.append_nil] at hidx
  have hlen : (pre ++ [p]).length = pre.length + 1 := by simp
  rw [hlen] at hidx
  have hprev : (pre ++ [p])[pre.length + 1 - 1]? = some p := by
    simp
  have hnext : (pre ++ [p])[pre.length + 1]? = none := by
    simp
  have htake1 : (pre ++ [p]).take (pre.length + 1 - 1) = pre := by
    simpa using List.take_left pre [p]
  have htake2 : (pre ++ [p]).take (pre.length + 1) = pre ++ [p] := by
    simp
  by_cases h : u32add p.start p.count = start <;>
    simp [insertMergeExtents, hidx, hprev, hnext, htake1, htake2, h]

theorem insertMerge_both (pre : List lr_extent) (p n : lr_extent) (rest : List lr_extent)
    (start count : Nat)
    (hpre : ∀ e ∈ pre, ¬ start < e.start) (hp : ¬ start < p.start) (hn : start < n.start) :
    insertMergeExtents (pre ++ p :: n :: rest) start count =
      if u32add p.start p.count = start ∧ u32add start count = n.start then
        pre ++ { start := p.start, count := u32add p.count (u32add count n.count) } :: rest
      else if u32add p.start p.count = start then
        pre ++ { start := p.start, count := u32add p.count count } :: n :: rest
      else if u32add start count = n.start then
        pre ++ p :: { start := start, count := u32add count n.count } :: rest
      else
        pre ++ p :: { start := start, count := count } :: n :: rest := by
  have hpre' : ∀ e ∈ pre ++ [p], ¬ start < e.start := by
    intro e he
    rcases List.mem_append.1 he with h | h
    · exact hpre e h
    · simpa [List.mem_singleton.1 h] using hp
  have hsplit : pre ++ p :: n :: rest = (pre ++ [p]) ++ n :: rest := by simp
  have hidx : (pre ++ p :: n :: rest).findIdx (fun e => decide (start < e.start))
      = pre.length + 1 := by
    rw [hsplit]
    have := findIdx_insert_split (pre ++ [p]) (n :: rest) start hpre'
      (by intro m hm; simp at hm; simpa [hm] using hn)
    simpa using this
  have hprev : (pre ++ p :: n :: rest)[pre.length + 1 - 1]? = some p := by
    simp only [Nat.add_sub_cancel]
    rw [List.getElem?_append_right (le_refl pre.length)]
    simp
  have hnext : (pre ++ p :: n :: rest)[pre.length + 1]? = some n := by
    rw [List.getElem?_append_right (Nat.le_succ_of_le (le_refl pre.length))]
    simp
  have htake1 : (pre ++ p :: n :: rest).take (pre.length + 1 - 1) = pre := by
    simpa using List.take_left pre (p :: n :: rest)
  have htake2 : (pre ++ p :: n :: rest).take (pre.length + 1) = pre ++ [p] := by
    rw [hsplit]
    simpa using List.take_left (pre ++ [p]) (n :: rest)
  have hdrop1 : (pre ++ p :: n :: rest).drop (pre.length + 1) = n :: rest := by
    rw [hsplit]
    simpa using List.drop_left (pre ++ [p]) (n :: rest)
  have hdrop2 : (pre ++ p :: n :: rest).drop (pre.length + 1 + 1) = rest := by
    rw [← List.drop_drop, hdrop1]
    rfl
  have hgetp : ∀ hh : pre.length < (pre ++ p :: n :: rest).length,
      (pre ++ p :: n :: rest)[pre.length] = p := by
    intro hh
    rw [List.getElem_append_right (le_refl _)]
    simp
  by_cases h1 : u32add p.start p.count = start <;>
    by_cases h2 : u32add start count = n.start <;>
      simp [insertMergeExtents, hidx, hprev, hnext, hgetp, h1, h2, htake1, htake2, hdrop1, hdrop2]

end LiveRaid

namespace LiveRaid

/-! ### Allocator invariants (spec section 8, "Allocator invariants") -/

/-- One-past-the-end of an extent's range. -/
def extEnd (e : lr_extent) : Nat := e.start + e.count

/-- Extents are mutually separated: strictly sorted by start and neither
overlapping nor touching. -/
def extSep (e f : lr_extent) : Prop := extEnd e < f.start

/-- The allocator invariant: extents pairwise separated (hence sorted
strictly by start), all counts positive, every extent strictly below the
watermark (`start + count ≤ next_free` and never equal, the eager
absorption property), and the watermark inside the 32-bit namespace. -/
def AllocInv (a : lr_pos_allocator) : Prop :=
  a.extents.Pairwise extSep ∧
  (∀ e ∈ a.extents, 0 < e.count ∧ extEnd e < a.next_free) ∧
  a.next_free < U32

/-- Coverage of a position by some extent of a list. -/
def coveredBy (l : List lr_extent) (p : Nat) : Prop :=
  ∃ e ∈ l, e.start ≤ p ∧ p < extEnd e

/-- Position `p` is free: covered by a free extent or at/above the watermark. -/
def posIsFree (a : lr_pos_allocator) (p : Nat) : Prop :=
  coveredBy a.extents p ∨ a.next_free ≤ p

/-- One operation of an allocate/free trace. -/
inductive AllocOp where
  | alloc (count : Nat)
  | free (start count : Nat)
deriving DecidableEq, Repr

/-- Run one trace operation, tracking the outstanding allocated ranges.
A `free` is only legal for a range previously returned by `alloc` and not
yet freed (the claim's hypothesis); an `alloc` that fails with the
namespace-exhausted sentinel hands out no range. -/
def stepTrace (st : lr_pos_allocator × List (Nat × Nat)) (op : AllocOp) :
    Option (lr_pos_allocator × List (Nat × Nat)) :=
  match op with
  | .alloc c =>
    let r := alloc_positions st.1 c
    if c = 0 then some (r.2, st.2)
    else if r.1 = U32 - 1 ∧ r.2 = st.1 then some (r.2, st.2)
    else some (r.2, (r.1, c) :: st.2)
  | .free s c =>
    if (s, c) ∈ st.2 then some (free_positions st.1 s c, st.2.erase (s, c)) else none

/-- Run a trace from a fresh allocator. -/
def runTrace (ops : List AllocOp) : Option (lr_pos_allocator × List (Nat × Nat)) :=
  ops.foldlM stepTrace (alloc_init, [])

/-- Disjointness of two outstanding ranges. -/
def rdisj (r1 r2 : Nat × Nat) : Prop := r1.1 + r1.2 ≤ r2.1 ∨ r2.1 + r2.2 ≤ r1.1

/-- No position of the range `r` is free in `a`. -/
def rangeFreeOf (a : lr_pos_allocator) (r : Nat × Nat) : Prop :=
  ∀ p, r.1 ≤ p → p < r.1 + r.2 → ¬ posIsFree a p

/-- Induction invariant for traces: allocator invariant plus health of the
outstanding allocated ranges. -/
def TraceInv (st : lr_pos_allocator × List (Nat × Nat)) : Prop :=
  AllocInv st.1 ∧ (∀ r ∈ st.2, 0 < r.2 ∧ rangeFreeOf st.1 r) ∧ st.2.Pairwise rdisj

theorem u32add_eq {x y : Nat} (h : x + y < U32) : u32add x y = x + y :=
  Nat.mod_eq_of_lt h

end LiveRaid

namespace LiveRaid

theorem allocFromExtents_spec {nf c : Nat} (hc : 0 < c) :
    ∀ (l : List lr_extent) (s : Nat) (l' : List lr_extent),
    allocFromExtents c l = some (s, l') →
    l.Pairwise extSep →
    (∀ e ∈ l, 0 < e.count ∧ extEnd e < nf) →
    nf < U32 →
    l'.Pairwise extSep ∧
    (∀ e ∈ l', 0 < e.count ∧ extEnd e < nf) ∧
    (∃ e ∈ l, e.start = s ∧ s + c ≤ extEnd e) ∧
    (∀ f ∈ l', ∃ g ∈ l, g.start ≤ f.start ∧ extEnd f ≤ extEnd g) ∧
    (∀ p, s ≤ p → p < s + c → ¬ coveredBy l' p) := by
  intro l
  induction l with
  | nil => intro s l' h; simp [allocFromExtents] at h
  | cons e rest ih =>
    intro s l' h hpw hbnd hnf
    have hpw_rest : rest.Pairwise extSep := (List.pairwise_cons.1 hpw).2
    have hsep_e : ∀ f ∈ rest, extSep e f := (List.pairwise_cons.1 hpw).1
    have hbnd_rest : ∀ f ∈ rest, 0 < f.count ∧ extEnd f < nf := by
      intro f hf; exact hbnd f (List.mem_cons_of_mem _ hf)
    have hbnd_e := hbnd e (List.mem_cons_self _ _)
    by_cases hfit : c ≤ e.count
    · -- taken from the head extent
      have hmod : u32add e.start c = e.start + c := by
        apply u32add_eq
        have : e.start + c ≤ extEnd e := by
          unfold extEnd; omega
        have := hbnd_e.2
        omega
      simp only [allocFromExtents, hfit, if_true] at h
      by_cases hzero : e.count - c = 0
      · -- extent exactly consumed, removed from the list
        simp only [hzero, if_pos rfl] at h
        injection h with h1
        injection h1 with hs hl
        subst hs; subst hl
        refine ⟨hpw_rest, hbnd_rest, ⟨e, List.mem_cons_self _ _, rfl, by unfold extEnd; omega⟩,
          ?_, ?_⟩
        · intro f hf
          exact ⟨f, List.mem_cons_of_mem _ hf, le_refl _, le_refl _⟩
        · intro p hp1 hp2 hcov
          rcases hcov with ⟨f, hf, hfp1, hfp2⟩
          have := hsep_e f hf
          unfold extSep extEnd at this
          unfold extEnd at hfp2
          omega
      · -- extent shrunk in place
        simp only [hzero, if_neg hzero] at h
        injection h with h1
        injection h1 with hs hl
        subst hs; subst hl
        have hshr_end : extEnd { start := u32add e.start c, count := e.count - c } = extEnd e := by
          show u32add e.start c + (e.count - c) = e.start + e.count
          rw [hmod]
          omega
        refine ⟨?_, ?_, ⟨e, List.mem_cons_self _ _, rfl, by unfold extEnd; omega⟩, ?_, ?_⟩
        · refine List.pairwise_cons.2 ⟨?_, hpw_rest⟩
          intro f hf
          have := hsep_e f hf
          unfold extSep at this ⊢
          rw [hshr_end]
          exact this
        · intro f hf
          rcases List.mem_cons.1 hf with rfl | hf'
          · exact ⟨by show 0 < e.count - c; omega, by rw [hshr_end]; exact hbnd_e.2⟩
          · exact hbnd_rest f hf'
        · intro f hf
          rcases List.mem_cons.1 hf with rfl | hf'
          · refine ⟨e, List.mem_cons_self _ _, ?_, by rw [hshr_end]⟩
            simp [hmod]
          · exact ⟨f, List.mem_cons_of_mem _ hf', le_refl _, le_refl _⟩
        · intro p hp1 hp2 hcov
          rcases hcov with ⟨f, hf, hfp1, hfp2⟩
          rcases List.mem_cons.1 hf with rfl | hf'
          · simp only [hmod] at hfp1
            omega
          · have := hsep_e f hf'
            unfold extSep extEnd at this
            unfold extEnd at hfp2
            omega
    · -- head too small: recurse on the tail
      simp only [allocFromExtents, hfit, if_neg hfit] at h
      rcases hrec : allocFromExtents c rest with _ | ⟨s', rest'⟩
      · rw [hrec] at h; exact absurd h (by simp)
      · rw [hrec] at h
        injection h with h1
        injection h1 with hs hl
        subst hs; subst hl
        obtain ⟨h1, h2, h3, h4, h5⟩ := ih s' rest' hrec hpw_rest hbnd_rest hnf
        refine ⟨?_, ?_, ?_, ?_, ?_⟩
        · refine List.pairwise_cons.2 ⟨?_, h1⟩
          intro f hf
          obtain ⟨g, hg, hg1, hg2⟩ := h4 f hf
          have := hsep_e g hg
          unfold extSep at this ⊢
          omega
        · intro f hf
          rcases List.mem_cons.1 hf with rfl | hf'
          · exact hbnd_e
          · exact h2 f hf'
        · obtain ⟨g, hg, hg1, hg2⟩ := h3
          exact ⟨g, List.mem_cons_of_mem _ hg, hg1, hg2⟩
        · intro f hf
          rcases List.mem_cons.1 hf with rfl | hf'
          · exact ⟨f, List.mem_cons_self _ _, le_refl _, le_refl _⟩
          · obtain ⟨g, hg, hg1, hg2⟩ := h4 f hf'
            exact ⟨g, List.mem_cons_of_mem _ hg, hg1, hg2⟩
        · intro p hp1 hp2 hcov
          rcases hcov with ⟨f, hf, hfp1, hfp2⟩
          rcases List.mem_cons.1 hf with rfl | hf'
          · -- p would lie in the skipped head extent; but s' comes from an
            -- extent after it, contradiction with separation
            obtain ⟨g, hg, hg1, hg2⟩ := h3
            have := hsep_e g hg
            unfold extSep extEnd at this
            unfold extEnd at hfp2
            omega
          · exact h5 p hp1 hp2 ⟨f, hf', hfp1, hfp2⟩

end LiveRaid

namespace LiveRaid

theorem reclaimTail_spec (b : lr_pos_allocator)
    (hpw : b.extents.Pairwise extSep)
    (hbnd : ∀ e ∈ b.extents, 0 < e.count ∧ extEnd e ≤ b.next_free)
    (hnf : b.next_free < U32) :
    AllocInv (reclaimTail b) ∧
    (reclaimTail b).next_free ≤ b.next_free ∧
    (∀ p, posIsFree (reclaimTail b) p → posIsFree b p) := by
  rcases hlast : b.extents.getLast? with _ | last
  · -- empty extent list
    have hnil : b.extents = [] := by
      cases hx : b.extents with
      | nil => rfl
      | cons x xs => rw [hx] at hlast; simp [List.getLast?_concat] at hlast
    have : reclaimTail b = b := by unfold reclaimTail; rw [hlast]
    rw [this]
    refine ⟨⟨by rw [hnil]; exact List.Pairwise.nil, by rw [hnil]; simp, hnf⟩, le_refl _, ?_⟩
    intro p hp; exact hp
  · obtain ⟨l₀, hdecomp⟩ := (List.getLast?_eq_some_iff).1 hlast
    have hdrop : b.extents.dropLast = l₀ := by
      rw [hdecomp]; simp
    have hbnd_last := hbnd last (by rw [hdecomp]; simp)
    have hmod : u32add last.start last.count = last.start + last.count :=
      u32add_eq (by have := hbnd_last.2; unfold extEnd at this; omega)
    have hsep_last : ∀ e ∈ l₀, extSep e last := by
      intro e he
      have := (List.pairwise_append.1 (by rw [← hdecomp]; exact hpw)).2.2
      exact this e he last (by simp)
    have hpw₀ : l₀.Pairwise extSep := by
      have := (List.pairwise_append.1 (by rw [← hdecomp]; exact hpw)).1
      exact this
    by_cases habut : u32add last.start last.count = b.next_free
    · -- trailing extent reclaimed into the watermark
      have hval : reclaimTail b = { next_free := last.start, extents := b.extents.dropLast } := by
        simp only [reclaimTail, hlast, if_pos habut]
      rw [hval]
      refine ⟨⟨by rw [hdrop]; exact hpw₀, ?_, ?_⟩, ?_, ?_⟩
      · intro e he
        rw [hdrop] at he
        have hs := hsep_last e he
        unfold extSep at hs
        exact ⟨(hbnd e (by rw [hdecomp]; exact List.mem_append_left _ he)).1, hs⟩
      · -- last.start < U32
        show last.start < U32
        have := hbnd_last.2
        unfold extEnd at this
        omega
      · show last.start ≤ b.next_free
        rw [hmod] at habut
        unfold extEnd at hbnd_last
        omega
      · intro p hp
        rcases hp with ⟨e, he, he1, he2⟩ | hge
        · rw [hdrop] at he
          exact Or.inl ⟨e, by rw [hdecomp]; exact List.mem_append_left _ he, he1, he2⟩
        · -- p at or above last.start: inside the last extent or above old watermark
          show posIsFree b p
          simp only at hge
          rw [hmod] at habut
          by_cases hcase : p < extEnd last
          · exact Or.inl ⟨last, by rw [hdecomp]; simp, hge, hcase⟩
          · unfold extEnd at hcase
            right
            omega
    · -- no reclamation
      have hval : reclaimTail b = b := by
        simp only [reclaimTail, hlast, if_neg habut]
      rw [hval]
      refine ⟨⟨hpw, ?_, hnf⟩, le_refl _, fun p hp => hp⟩
      intro e he
      refine ⟨(hbnd e he).1, ?_⟩
      rw [hdecomp] at he
      rcases List.mem_append.1 he with he' | he'
      · have hs := hsep_last e he'
        unfold extSep at hs
        have := hbnd_last.2
        unfold extEnd at this ⊢
        unfold extEnd at hs
        have : last.start ≤ extEnd last := by unfold extEnd; omega
        unfold extEnd at this
        omega
      · have : e = last := by simpa using he'
        subst this
        have h1 := hbnd_last.2
        rw [hmod] at habut
        unfold extEnd at h1 ⊢
        omega

end LiveRaid

namespace LiveRaid

theorem free_finish (a : lr_pos_allocator) (s c : Nat) (hc : ¬ c = 0) (L : List lr_extent)
    (hL : insertMergeExtents a.extents s c = L)
    (hpwL : L.Pairwise extSep)
    (hbndL : ∀ e ∈ L, 0 < e.count ∧ extEnd e ≤ a.next_free)
    (hnf : a.next_free < U32)
    (hcovL : ∀ p, coveredBy L p → coveredBy a.extents p ∨ (s ≤ p ∧ p < s + c)) :
    AllocInv (free_positions a s c) ∧
    (∀ p, posIsFree (free_positions a s c) p → posIsFree a p ∨ (s ≤ p ∧ p < s + c)) := by
  have hfp : free_positions a s c = reclaimTail { next_free := a.next_free, extents := L } := by
    unfold free_positions
    rw [if_neg hc, hL]
  obtain ⟨h1, h2, h3⟩ := reclaimTail_spec ⟨a.next_free, L⟩ hpwL hbndL hnf
  rw [hfp]
  refine ⟨h1, ?_⟩
  intro p hp
  rcases h3 p hp with hcov | hge
  · rcases hcovL p hcov with hcov' | hin
    · exact Or.inl (Or.inl hcov')
    · exact Or.inr hin
  · exact Or.inl (Or.inr hge)

theorem free_positions_spec (a : lr_pos_allocator) (s c : Nat)
    (hinv : AllocInv a) (hc : 0 < c)
    (hdisj : ∀ e ∈ a.extents, extEnd e ≤ s ∨ s + c ≤ e.start)
    (hend : s + c ≤ a.next_free) :
    AllocInv (free_positions a s c) ∧
    (∀ p, posIsFree (free_positions a s c) p → posIsFree a p ∨ (s ≤ p ∧ p < s + c)) := by
  obtain ⟨hpw, hbnd, hnf⟩ := hinv
  have hc0 : ¬ c = 0 := by omega
  have hsU : s + c < U32 := by omega
  -- split the extent list at the insertion point
  set pre := a.extents.takeWhile (fun e => decide (e.start ≤ s)) with hpre_def
  set suf := a.extents.dropWhile (fun e => decide (e.start ≤ s)) with hsuf_def
  have hsplit : pre ++ suf = a.extents := List.takeWhile_append_dropWhile _ _
  have hpre_mem : ∀ e ∈ pre, e ∈ a.extents := by
    intro e he; rw [← hsplit]; exact List.mem_append_left _ he
  have hsuf_mem : ∀ e ∈ suf, e ∈ a.extents := by
    intro e he; rw [← hsplit]; exact List.mem_append_right _ he
  have hpre_le : ∀ e ∈ pre, e.start ≤ s := by
    intro e he
    have := List.mem_takeWhile_imp he
    simpa using this
  have hpre_end : ∀ e ∈ pre, extEnd e ≤ s := by
    intro e he
    rcases hdisj e (hpre_mem e he) with h | h
    · exact h
    · have := hpre_le e he; omega
  have hpw_suf : suf.Pairwise extSep := hpw.sublist (List.dropWhile_sublist _)
  have hpw_pre : pre.Pairwise extSep := hpw.sublist (List.takeWhile_sublist _)
  have hsuf_gt : ∀ e ∈ suf, s < e.start := by
    intro e he
    have hhead := List.head?_dropWhile_not (fun e => decide (e.start ≤ s)) a.extents
    rw [← hsuf_def] at hhead
    cases hx : suf with
    | nil => rw [hx] at he; simp at he
    | cons n tail =>
      rw [hx] at hhead
      simp only [List.head?_cons] at hhead
      have hn : s < n.start := by simpa using hhead
      rw [hx] at he
      rcases List.mem_cons.1 he with rfl | he'
      · exact hn
      · have hsep : extSep n e := by
          rw [hx] at hpw_suf
          exact (List.pairwise_cons.1 hpw_suf).1 e he'
        unfold extSep extEnd at hsep
        omega
  have hsuf_start : ∀ e ∈ suf, s + c ≤ e.start := by
    intro e he
    rcases hdisj e (hsuf_mem e he) with h | h
    · have h1 := hsuf_gt e he
      unfold extEnd at h
      omega
    · exact h
  have hcross : ∀ x ∈ pre, ∀ y ∈ suf, extSep x y := by
    have := (List.pairwise_append.1 (by rw [hsplit]; exact hpw)).2.2
    exact this
  -- case analysis on the shape of the split
  rcases List.eq_nil_or_concat pre with hpre_nil | ⟨pre₀, p, hpre_eq⟩
  · cases hsuf_eq : suf with
    | nil =>
      -- empty allocator list
      have hl : a.extents = [] := by rw [← hsplit, hpre_nil, hsuf_eq]; rfl
      refine free_finish a s c hc0 [{ start := s, count := c }] ?_ ?_ ?_ hnf ?_
      · rw [hl]; exact insertMerge_nil s c
      · simp
      · intro e he
        rcases List.mem_singleton.1 he with rfl
        exact ⟨hc, by unfold extEnd; simpa using hend⟩
      · intro p hp
        rcases hp with ⟨e, he, he1, he2⟩
        rcases List.mem_singleton.1 he with rfl
        simp only [extEnd] at he2
        right
        exact ⟨he1, by simpa using he2⟩
    | cons n tail =>
      have hl : a.extents = n :: tail := by rw [← hsplit, hpre_nil, hsuf_eq]; rfl
      have hn_gt : s < n.start := hsuf_gt n (by rw [hsuf_eq]; simp)
      have hn_ge : s + c ≤ n.start := hsuf_start n (by rw [hsuf_eq]; simp)
      have hn_bnd := hbnd n (by rw [hl]; simp)
      have htail_pw : (n :: tail).Pairwise extSep := by rw [← hsuf_eq]; exact hpw_suf
      have hadd : u32add s c = s + c := u32add_eq hsU
      by_cases hmn : u32add s c = n.start
      · -- merge with right neighbour
        have hns : n.start = s + c := by rw [← hmn, hadd]
        have hcnt : u32add c n.count = c + n.count := by
          apply u32add_eq
          have := hn_bnd.2
          unfold extEnd at this
          omega
        refine free_finish a s c hc0 ({ start := s, count := c + n.count } :: tail) ?_ ?_ ?_ hnf ?_
        · rw [hl, insertMerge_nextOnly n tail s c hn_gt, if_pos hmn, hcnt]
        · refine List.pairwise_cons.2 ⟨?_, (List.pairwise_cons.1 htail_pw).2⟩
          intro f hf
          have := (List.pairwise_cons.1 htail_pw).1 f hf
          simp only [extSep, extEnd] at this ⊢
          omega
        · intro e he
          rcases List.mem_cons.1 he with rfl | he2
          · have := hn_bnd.2
            simp only [extEnd] at this ⊢
            exact ⟨by omega, by omega⟩
          · have := hbnd e (by rw [hl]; exact List.mem_cons_of_mem _ he2)
            exact ⟨this.1, le_of_lt this.2⟩
        · intro q hq
          rcases hq with ⟨e, he, he1, he2⟩
          rcases List.mem_cons.1 he with rfl | he3
          · simp only [extEnd] at he2
            simp only at he1
            by_cases hqc : q < s + c
            · exact Or.inr ⟨he1, hqc⟩
            · left
              refine ⟨n, by rw [hl]; simp, by omega, ?_⟩
              simp only [extEnd]
              omega
          · exact Or.inl ⟨e, by rw [hl]; exact List.mem_cons_of_mem _ he3, he1, he2⟩
      · -- plain insert before n
        have hlt : s + c < n.start := by
          rcases Nat.lt_or_ge (s + c) n.start with h | h
          · exact h
          · exact absurd (by rw [hadd]; omega) hmn
        refine free_finish a s c hc0 ({ start := s, count := c } :: n :: tail) ?_ ?_ ?_ hnf ?_
        · rw [hl, insertMerge_nextOnly n tail s c hn_gt, if_neg hmn]
        · refine List.pairwise_cons.2 ⟨?_, htail_pw⟩
          intro f hf
          rcases List.mem_cons.1 hf with rfl | hf'
          · simp only [extSep, extEnd]
            omega
          · have := (List.pairwise_cons.1 htail_pw).1 f hf'
            simp only [extSep, extEnd] at this ⊢
            omega
        · intro e he
          rcases List.mem_cons.1 he with rfl | he'
          · exact ⟨hc, by simp only [extEnd]; omega⟩
          · have := hbnd e (by rw [hl]; exact he')
            exact ⟨this.1, le_of_lt this.2⟩
        · intro q hq
          rcases hq with ⟨e, he, he1, he2⟩
          rcases List.mem_cons.1 he with rfl | he'
          · simp only [extEnd] at he2
            exact Or.inr ⟨he1, he2⟩
          · exact Or.inl ⟨e, by rw [hl]; exact he', he1, he2⟩
  · -- pre ends with extent p
    rw [List.concat_eq_append] at hpre_eq
    have hp_le : p.start ≤ s := hpre_le p (by rw [hpre_eq]; simp)
    have hp_end : extEnd p ≤ s := hpre_end p (by rw [hpre_eq]; simp)
    have hp_bnd := hbnd p (hpre_mem p (by rw [hpre_eq]; simp))
    have hpre₀_le : ∀ e ∈ pre₀, ¬ s < e.start := by
      intro e he
      have := hpre_le e (by rw [hpre_eq]; exact List.mem_append_left _ he)
      omega
    have hp_nlt : ¬ s < p.start := by omega
    have hpw_pre₀ : pre₀.Pairwise extSep := hpw_pre.sublist (by rw [hpre_eq]; simp)
    have hpre₀_sep_p : ∀ e ∈ pre₀, extSep e p := by
      intro e he
      have := (List.pairwise_append.1 (by rw [← hpre_eq]; exact hpw_pre)).2.2
      exact this e he p (by simp)
    have hmodp : u32add p.start p.count = extEnd p := by
      apply u32add_eq
      unfold extEnd at hp_end
      omega
    cases hsuf_eq : suf with
    | nil =>
      have hl : a.extents = pre₀ ++ [p] := by rw [← hsplit, hpre_eq, hsuf_eq]; simp
      by_cases hmp : u32add p.start p.count = s
      · -- merge with left neighbour only
        have hps : extEnd p = s := by rw [← hmodp, hmp]
        have hpe : p.start + p.count = s := by unfold extEnd at hps; exact hps
        have hcnt : u32add p.count c = p.count + c := by
          apply u32add_eq
          omega
        refine free_finish a s c hc0 (pre₀ ++ [{ start := p.start, count := p.count + c }]) ?_ ?_ ?_ hnf ?_
        · rw [hl, insertMerge_prevOnly pre₀ p s c hpre₀_le hp_nlt, if_pos hmp, hcnt]
        · refine List.pairwise_append.2 ⟨hpw_pre₀, List.pairwise_singleton _ _, ?_⟩
          intro x hx y hy
          rcases List.mem_singleton.1 hy with rfl
          have := hpre₀_sep_p x hx
          unfold extSep at this ⊢
          exact this
        · intro e he
          rcases List.mem_append.1 he with he2 | he2
          · have := hbnd e (by rw [hl]; exact List.mem_append_left _ he2)
            exact ⟨this.1, le_of_lt this.2⟩
          · rcases List.mem_singleton.1 he2 with rfl
            refine ⟨by simp only; omega, ?_⟩
            simp only [extEnd]
            omega
        · intro q hq
          rcases hq with ⟨e, he, he1, he2⟩
          rcases List.mem_append.1 he with hma | hma
          · exact Or.inl ⟨e, by rw [hl]; exact List.mem_append_left _ hma, he1, he2⟩
          · rcases List.mem_singleton.1 hma with rfl
            simp only [extEnd] at he2
            simp only at he1
            by_cases hqs : q < s
            · left
              refine ⟨p, by rw [hl]; simp, he1, ?_⟩
              simp only [extEnd]
              omega
            · right
              omega
      · -- no merge: append a fresh extent at the end
        have hps : extEnd p < s := by
          rw [← hmodp] at hp_end
          rcases Nat.lt_or_ge (u32add p.start p.count) s with h | h
          · rw [← hmodp]; exact h
          · exact absurd (by omega) hmp
        refine free_finish a s c hc0 (pre₀ ++ [p, { start := s, count := c }]) ?_ ?_ ?_ hnf ?_
        · rw [hl, insertMerge_prevOnly pre₀ p s c hpre₀_le hp_nlt, if_neg hmp]
        · refine List.pairwise_append.2 ⟨hpw_pre₀, ?_, ?_⟩
          · refine List.pairwise_cons.2 ⟨?_, List.pairwise_singleton _ _⟩
            intro f hf
            rcases List.mem_singleton.1 hf with rfl
            simp only [extSep]
            exact hps
          · intro x hx y hy
            rcases List.mem_cons.1 hy with rfl | hy2
            · exact hpre₀_sep_p x hx
            · rcases List.mem_singleton.1 hy2 with rfl
              have := hpre₀_sep_p x hx
              simp only [extSep, extEnd] at this ⊢
              unfold extEnd at hps
              omega
        · intro e he
          rcases List.mem_append.1 he with he2 | he2
          · have := hbnd e (by rw [hl]; exact List.mem_append_left _ he2)
            exact ⟨this.1, le_of_lt this.2⟩
          · rcases List.mem_cons.1 he2 with rfl | he3
            · have := hbnd e (by rw [hl]; simp)
              exact ⟨this.1, le_of_lt this.2⟩
            · rcases List.mem_singleton.1 he3 with rfl
              exact ⟨hc, by simp only [extEnd]; omega⟩
        · intro q hq
          rcases hq with ⟨e, he, he1, he2⟩
          rcases List.mem_append.1 he with hma | hma
          · exact Or.inl ⟨e, by rw [hl]; exact List.mem_append_left _ hma, he1, he2⟩
          · rcases List.mem_cons.1 hma with rfl | hmb
            · exact Or.inl ⟨e, by rw [hl]; simp, he1, he2⟩
            · rcases List.mem_singleton.1 hmb with rfl
              simp only [extEnd] at he2
              exact Or.inr ⟨he1, he2⟩
    | cons n tail =>
      have hl : a.extents = pre₀ ++ p :: n :: tail := by
        rw [← hsplit, hpre_eq, hsuf_eq]; simp
      have hn_gt : s < n.start := hsuf_gt n (by rw [hsuf_eq]; simp)
      have hn_ge : s + c ≤ n.start := hsuf_start n (by rw [hsuf_eq]; simp)
      have hn_bnd := hbnd n (by rw [hl]; simp)
      have htail_pw : (n :: tail).Pairwise extSep := by rw [← hsuf_eq]; exact hpw_suf
      have hadd : u32add s c = s + c := u32add_eq hsU
      have hcross₀ : ∀ x ∈ pre₀, ∀ y ∈ n :: tail, extSep x y := by
        intro x hx y hy
        exact hcross x (by rw [hpre_eq]; exact List.mem_append_left _ hx) y (by rw [hsuf_eq]; exact hy)
      have hpcross : ∀ y ∈ n :: tail, extSep p y := by
        intro y hy
        exact hcross p (by rw [hpre_eq]; simp) y (by rw [hsuf_eq]; exact hy)
      have hnn := hn_bnd.2
      have hnn2 : extEnd n = n.start + n.count := rfl
      have him := insertMerge_both pre₀ p n tail s c hpre₀_le hp_nlt hn_gt
      by_cases hmp : u32add p.start p.count = s <;> by_cases hmn : u32add s c = n.start
      · -- bridge both neighbours
        have hps : extEnd p = s := by rw [← hmodp, hmp]
        have hpe : p.start + p.count = s := hps
        have hns : n.start = s + c := by rw [← hmn, hadd]
        have hcnt2 : u32add c n.count = c + n.count := by
          apply u32add_eq
          omega
        have hcnt : u32add p.count (u32add c n.count) = p.count + (c + n.count) := by
          rw [hcnt2]
          apply u32add_eq
          omega
        rw [if_pos ⟨hmp, hmn⟩, hcnt] at him
        refine free_finish a s c hc0
          (pre₀ ++ { start := p.start, count := p.count + (c + n.count) } :: tail)
          (by rw [hl]; exact him) ?_ ?_ hnf ?_
        · refine List.pairwise_append.2 ⟨hpw_pre₀, ?_, ?_⟩
          · refine List.pairwise_cons.2 ⟨?_, (List.pairwise_cons.1 htail_pw).2⟩
            intro f hf
            have := (List.pairwise_cons.1 htail_pw).1 f hf
            simp only [extSep, extEnd] at this ⊢
            omega
          · intro x hx y hy
            rcases List.mem_cons.1 hy with rfl | hy2
            · have := hpre₀_sep_p x hx
              simp only [extSep, extEnd] at this ⊢
              omega
            · exact hcross₀ x hx y (List.mem_cons_of_mem _ hy2)
        · intro e he
          rcases List.mem_append.1 he with he2 | he2
          · have := hbnd e (by rw [hl]; exact List.mem_append_left _ he2)
            exact ⟨this.1, le_of_lt this.2⟩
          · rcases List.mem_cons.1 he2 with rfl | he3
            · refine ⟨by simp only; omega, ?_⟩
              simp only [extEnd]
              omega
            · have := hbnd e (by rw [hl]; simp [he3])
              exact ⟨this.1, le_of_lt this.2⟩
        · intro q hq
          rcases hq with ⟨e, he, he1, he2⟩
          rcases List.mem_append.1 he with hma | hma
          · exact Or.inl ⟨e, by rw [hl]; exact List.mem_append_left _ hma, he1, he2⟩
          · rcases List.mem_cons.1 hma with rfl | hmb
            · simp only [extEnd] at he2
              simp only at he1
              by_cases hq1 : q < s
              · left
                refine ⟨p, by rw [hl]; simp, he1, ?_⟩
                simp only [extEnd]
                omega
              · by_cases hq2 : q < s + c
                · exact Or.inr ⟨by omega, hq2⟩
                · left
                  refine ⟨n, by rw [hl]; simp, by omega, ?_⟩
                  simp only [extEnd]
                  omega
            · exact Or.inl ⟨e, by rw [hl]; simp [hmb], he1, he2⟩
      · -- merge left only
        have hps : extEnd p = s := by rw [← hmodp, hmp]
        have hpe : p.start + p.count = s := hps
        have hlt : s + c < n.start := by
          rcases Nat.lt_or_ge (s + c) n.start with h | h
          · exact h
          · exact absurd (by rw [hadd]; omega) hmn
        have hcnt : u32add p.count c = p.count + c := by
          apply u32add_eq
          omega
        rw [if_neg (by tauto), if_pos hmp, hcnt] at him
        refine free_finish a s c hc0
          (pre₀ ++ { start := p.start, count := p.count + c } :: n :: tail)
          (by rw [hl]; exact him) ?_ ?_ hnf ?_
        · refine List.pairwise_append.2 ⟨hpw_pre₀, ?_, ?_⟩
          · refine List.pairwise_cons.2 ⟨?_, htail_pw⟩
            intro f hf
            rcases List.mem_cons.1 hf with rfl | hf2
            · simp only [extSep, extEnd]
              omega
            · have := (List.pairwise_cons.1 htail_pw).1 f hf2
              simp only [extSep, extEnd] at this ⊢
              omega
          · intro x hx y hy
            rcases List.mem_cons.1 hy with rfl | hy2
            · have := hpre₀_sep_p x hx
              simp only [extSep, extEnd] at this ⊢
              omega
            · exact hcross₀ x hx y hy2
        · intro e he
          rcases List.mem_append.1 he with he2 | he2
          · have := hbnd e (by rw [hl]; exact List.mem_append_left _ he2)
            exact ⟨this.1, le_of_lt this.2⟩
          · rcases List.mem_cons.1 he2 with rfl | he3
            · refine ⟨by simp only; omega, ?_⟩
              simp only [extEnd]
              omega
            · have := hbnd e (by rw [hl]; simp [he3])
              exact ⟨this.1, le_of_lt this.2⟩
        · intro q hq
          rcases hq with ⟨e, he, he1, he2⟩
          rcases List.mem_append.1 he with hma | hma
          · exact Or.inl ⟨e, by rw [hl]; exact List.mem_append_left _ hma, he1, he2⟩
          · rcases List.mem_cons.1 hma with rfl | hmb
            · simp only [extEnd] at he2
              simp only at he1
              by_cases hq1 : q < s
              · left
                refine ⟨p, by rw [hl]; simp, he1, ?_⟩
                simp only [extEnd]
                omega
              · right
                omega
            · exact Or.inl ⟨e, by rw [hl]; simp [hmb], he1, he2⟩
      · -- merge right only
        have hns : n.start = s + c := by rw [← hmn, hadd]
        have hps : extEnd p < s := by
          rw [← hmodp] at hp_end
          rcases Nat.lt_or_ge (u32add p.start p.count) s with h | h
          · rw [← hmodp]; exact h
          · exact absurd (by omega) hmp
        have hpe : p.start + p.count < s := hps
        have hcnt : u32add c n.count = c + n.count := by
          apply u32add_eq
          omega
        rw [if_neg (by tauto), if_neg hmp, if_pos hmn, hcnt] at him
        refine free_finish a s c hc0
          (pre₀ ++ p :: { start := s, count := c + n.count } :: tail)
          (by rw [hl]; exact him) ?_ ?_ hnf ?_
        · refine List.pairwise_append.2 ⟨hpw_pre₀, ?_, ?_⟩
          · refine List.pairwise_cons.2 ⟨?_, ?_⟩
            · intro f hf
              rcases List.mem_cons.1 hf with rfl | hf2
              · simp only [extSep, extEnd]
                omega
              · have := hpcross f (List.mem_cons_of_mem _ hf2)
                unfold extSep at this ⊢
                exact this
            · refine List.pairwise_cons.2 ⟨?_, (List.pairwise_cons.1 htail_pw).2⟩
              intro f hf
              have := (List.pairwise_cons.1 htail_pw).1 f hf
              simp only [extSep, extEnd] at this ⊢
              omega
          · intro x hx y hy
            rcases List.mem_cons.1 hy with rfl | hy2
            · exact hpre₀_sep_p x hx
            · rcases List.mem_cons.1 hy2 with rfl | hy3
              · have := hpre₀_sep_p x hx
                simp only [extSep, extEnd] at this ⊢
                omega
              · exact hcross₀ x hx y (List.mem_cons_of_mem _ hy3)
        · intro e he
          rcases List.mem_append.1 he with he2 | he2
          · have := hbnd e (by rw [hl]; exact List.mem_append_left _ he2)
            exact ⟨this.1, le_of_lt this.2⟩
          · rcases List.mem_cons.1 he2 with rfl | he3
            · have := hbnd e (by rw [hl]; simp)
              exact ⟨this.1, le_of_lt this.2⟩
            · rcases List.mem_cons.1 he3 with rfl | he4
              · refine ⟨by simp only; omega, ?_⟩
                simp only [extEnd]
                omega
              · have := hbnd e (by rw [hl]; simp [he4])
                exact ⟨this.1, le_of_lt this.2⟩
        · intro q hq
          rcases hq with ⟨e, he, he1, he2⟩
          rcases List.mem_append.1 he with hma | hma
          · exact Or.inl ⟨e, by rw [hl]; exact List.mem_append_left _ hma, he1, he2⟩
          · rcases List.mem_cons.1 hma with rfl | hmb
            · exact Or.inl ⟨e, by rw [hl]; simp, he1, he2⟩
            · rcases List.mem_cons.1 hmb with rfl | hmc
              · simp only [extEnd] at he2
                simp only at he1
                by_cases hq2 : q < s + c
                · exact Or.inr ⟨by omega, hq2⟩
                · left
                  refine ⟨n, by rw [hl]; simp, by omega, ?_⟩
                  simp only [extEnd]
                  omega
              · exact Or.inl ⟨e, by rw [hl]; simp [hmc], he1, he2⟩
      · -- no merge at all
        have hps : extEnd p < s := by
          rw [← hmodp] at hp_end
          rcases Nat.lt_or_ge (u32add p.start p.count) s with h | h
          · rw [← hmodp]; exact h
          · exact absurd (by omega) hmp
        have hpe : p.start + p.count < s := hps
        have hlt : s + c < n.start := by
          rcases Nat.lt_or_ge (s + c) n.start with h | h
          · exact h
          · exact absurd (by rw [hadd]; omega) hmn
        rw [if_neg (by tauto), if_neg hmp, if_neg hmn] at him
        refine free_finish a s c hc0
          (pre₀ ++ p :: { start := s, count := c } :: n :: tail)
          (by rw [hl]; exact him) ?_ ?_ hnf ?_
        · refine List.pairwise_append.2 ⟨hpw_pre₀, ?_, ?_⟩
          · refine List.pairwise_cons.2 ⟨?_, ?_⟩
            · intro f hf
              rcases List.mem_cons.1 hf with rfl | hf2
              · simp only [extSep, extEnd]
                omega
              · exact hpcross f hf2
            · refine List.pairwise_cons.2 ⟨?_, htail_pw⟩
              intro f hf
              rcases List.mem_cons.1 hf with rfl | hf2
              · simp only [extSep, extEnd]
                omega
              · have := (List.pairwise_cons.1 htail_pw).1 f hf2
                simp only [extSep, extEnd] at this ⊢
                omega
          · intro x hx y hy
            rcases List.mem_cons.1 hy with rfl | hy2
            · exact hpre₀_sep_p x hx
            · rcases List.mem_cons.1 hy2 with rfl | hy3
              · have := hpre₀_sep_p x hx
                simp only [extSep, extEnd] at this ⊢
                omega
              · exact hcross₀ x hx y hy3
        · intro e he
          rcases List.mem_append.1 he with he2 | he2
          · have := hbnd e (by rw [hl]; exact List.mem_append_left _ he2)
            exact ⟨this.1, le_of_lt this.2⟩
          · rcases List.mem_cons.1 he2 with rfl | he3
            · have := hbnd e (by rw [hl]; simp)
              exact ⟨this.1, le_of_lt this.2⟩
            · rcases List.mem_cons.1 he3 with rfl | he4
              · exact ⟨hc, by simp only [extEnd]; omega⟩
              · have := hbnd e (by rw [hl]; simp [he4])
                exact ⟨this.1, le_of_lt this.2⟩
        · intro q hq
          rcases hq with ⟨e, he, he1, he2⟩
          rcases List.mem_append.1 he with hma | hma
          · exact Or.inl ⟨e, by rw [hl]; exact List.mem_append_left _ hma, he1, he2⟩
          · rcases List.mem_cons.1 hma with rfl | hmb
            · exact Or.inl ⟨e, by rw [hl]; simp, he1, he2⟩
            · rcases List.mem_cons.1 hmb with rfl | hmc
              · simp only [extEnd] at he2
                simp only at he1
                exact Or.inr ⟨he1, he2⟩
              · exact Or.inl ⟨e, by rw [hl]; simp [hmc], he1, he2⟩

end LiveRaid

namespace LiveRaid

theorem rdisj_symm {r1 r2 : Nat × Nat} (h : rdisj r1 r2) : rdisj r2 r1 := Or.symm h

theorem pairwise_rdisj_of_mem {l : List (Nat × Nat)} (hpw : l.Pairwise rdisj)
    {r : Nat × Nat} (hr : r ∈ l) : ∀ rr ∈ l.erase r, rdisj r rr := by
  induction l with
  | nil => simp
  | cons x xs ih =>
    obtain ⟨hx, hxs⟩ := List.pairwise_cons.1 hpw
    by_cases hxr : x = r
    · subst hxr
      rw [List.erase_cons_head]
      exact hx
    · rw [List.erase_cons_tail (by simpa using hxr)]
      intro rr hrr
      rcases List.mem_cons.1 hrr with rfl | hrr'
      · exact rdisj_symm (hx r (by
          rcases List.mem_cons.1 hr with rfl | h'
          · exact absurd rfl hxr
          · exact h'))
      · exact ih hxs (by
          rcases List.mem_cons.1 hr with rfl | h'
          · exact absurd rfl hxr
          · exact h') rr hrr'

theorem stepTrace_inv {st st' : lr_pos_allocator × List (Nat × Nat)} (op : AllocOp)
    (h : stepTrace st op = some st') (hinv : TraceInv st) : TraceInv st' := by
  obtain ⟨⟨hpw, hbnd, hnf⟩, hout, hpwout⟩ := hinv
  cases op with
  | alloc c =>
    by_cases hc : c = 0
    · subst hc
      simp only [stepTrace, if_pos rfl] at h
      have hr : alloc_positions st.1 0 = (st.1.next_free, st.1) := by
        unfold alloc_positions; simp
      rw [hr] at h
      injection h with h'
      subst h'
      exact ⟨⟨hpw, hbnd, hnf⟩, hout, hpwout⟩
    · simp only [stepTrace, if_neg hc] at h
      by_cases hsent : (alloc_positions st.1 c).1 = U32 - 1 ∧ (alloc_positions st.1 c).2 = st.1
      · rw [if_pos hsent] at h
        injection h with h'
        subst h'
        rw [hsent.2]
        exact ⟨⟨hpw, hbnd, hnf⟩, hout, hpwout⟩
      · rw [if_neg hsent] at h
        injection h with h'
        subst h'
        rcases hfe : allocFromExtents c st.1.extents with _ | ⟨s, exts⟩
        · -- bump allocation
          have hguard : ¬ (U32 - 1 - st.1.next_free < c) := by
            intro hg
            apply hsent
            unfold alloc_positions
            rw [if_neg hc, hfe, if_pos hg]
            exact ⟨rfl, rfl⟩
          have hr : alloc_positions st.1 c =
              (st.1.next_free, { st.1 with next_free := st.1.next_free + c }) := by
            unfold alloc_positions
            rw [if_neg hc, hfe, if_neg hguard]
          rw [hr]
          show TraceInv ({ next_free := st.1.next_free + c, extents := st.1.extents },
            (st.1.next_free, c) :: st.2)
          have hnf' : st.1.next_free + c < U32 := by
            have : U32 - 1 - st.1.next_free ≥ c := by omega
            omega
          refine ⟨⟨hpw, ?_, hnf'⟩, ?_, ?_⟩
          · intro e he
            have := hbnd e he
            exact ⟨this.1, by show extEnd e < st.1.next_free + c; omega⟩
          · intro r hr'
            rcases List.mem_cons.1 hr' with rfl | hr''
            · refine ⟨by omega, ?_⟩
              intro p hp1 hp2 hfree
              rcases hfree with ⟨e, he, he1, he2⟩ | hge
              · have := (hbnd e he).2
                simp only at hp1
                omega
              · simp only at hp1 hp2 hge
                omega
            · obtain ⟨h1, h2⟩ := hout r hr''
              refine ⟨h1, ?_⟩
              intro p hp1 hp2 hfree
              apply h2 p hp1 hp2
              rcases hfree with hcov | hge
              · exact Or.inl hcov
              · exact Or.inr (by simp only at hge ⊢; omega)
          · refine List.pairwise_cons.2 ⟨?_, hpwout⟩
            intro r hr'
            obtain ⟨h1, h2⟩ := hout r hr'
            right
            show r.1 + r.2 ≤ st.1.next_free
            by_contra hgt
            push_neg at hgt
            apply h2 (r.1 + r.2 - 1) (by omega) (by omega)
            by_cases hcase : st.1.next_free ≤ r.1 + r.2 - 1
            · exact Or.inr hcase
            · omega
        · -- first-fit allocation from a free extent
          have hr : alloc_positions st.1 c = (s, { st.1 with extents := exts }) := by
            unfold alloc_positions
            rw [if_neg hc, hfe]
          rw [hr]
          show TraceInv ({ next_free := st.1.next_free, extents := exts }, (s, c) :: st.2)
          obtain ⟨hpw', hbnd', ⟨ew, hew, hews, hewe⟩, hcont, hnotcov⟩ :=
            allocFromExtents_spec (Nat.pos_of_ne_zero hc) st.1.extents s exts hfe hpw hbnd hnf
          have hrangecov : ∀ p, s ≤ p → p < s + c → coveredBy st.1.extents p := by
            intro p hp1 hp2
            exact ⟨ew, hew, by omega, by unfold extEnd at hewe ⊢; omega⟩
          refine ⟨⟨hpw', hbnd', hnf⟩, ?_, ?_⟩
          · intro r hr'
            rcases List.mem_cons.1 hr' with rfl | hr''
            · refine ⟨Nat.pos_of_ne_zero hc, ?_⟩
              intro p hp1 hp2 hfree
              rcases hfree with hcov | hge
              · exact hnotcov p hp1 hp2 hcov
              · have := (hbnd ew hew).2
                simp only at hp1 hp2 hge
                unfold extEnd at hewe this
                omega
            · obtain ⟨h1, h2⟩ := hout r hr''
              refine ⟨h1, ?_⟩
              intro p hp1 hp2 hfree
              apply h2 p hp1 hp2
              rcases hfree with ⟨f, hf, hf1, hf2⟩ | hge
              · obtain ⟨g, hg, hg1, hg2⟩ := hcont f hf
                exact Or.inl ⟨g, hg, by omega, by unfold extEnd at hf2 hg2 ⊢; omega⟩
              · exact Or.inr hge
          · refine List.pairwise_cons.2 ⟨?_, hpwout⟩
            intro r hr'
            obtain ⟨h1, h2⟩ := hout r hr'
            show rdisj (s, c) r
            by_contra hnd
            unfold rdisj at hnd
            push_neg at hnd
            simp only at hnd
            obtain ⟨hn1, hn2⟩ := hnd
            have hp := hrangecov (max s r.1) (le_max_left _ _) (by omega)
            exact h2 (max s r.1) (le_max_right _ _) (by omega) (Or.inl hp)
  | free s c =>
    by_cases hmem : (s, c) ∈ st.2
    · simp only [stepTrace, if_pos hmem] at h
      injection h with h'
      subst h'
      obtain ⟨hcpos, hcfree⟩ := hout (s, c) hmem
      simp only at hcpos
      have hend : s + c ≤ st.1.next_free := by
        by_contra hgt
        push_neg at hgt
        apply hcfree (s + c - 1) (by simp only; omega) (by simp only; omega)
        by_cases hcase : st.1.next_free ≤ s + c - 1
        · exact Or.inr hcase
        · omega
      have hdisj : ∀ e ∈ st.1.extents, extEnd e ≤ s ∨ s + c ≤ e.start := by
        intro e he
        by_contra hnd
        push_neg at hnd
        obtain ⟨hn1, hn2⟩ := hnd
        have hepos := (hbnd e he).1
        apply hcfree (max s e.start) (by simp only; omega) (by simp only; unfold extEnd at hn1; omega)
        exact Or.inl ⟨e, he, le_max_right _ _, by unfold extEnd at hn1 ⊢; omega⟩
      obtain ⟨hinv', hsub⟩ := free_positions_spec st.1 s c ⟨hpw, hbnd, hnf⟩ hcpos hdisj hend
      refine ⟨hinv', ?_, hpwout.sublist (List.erase_sublist _ _)⟩
      intro r hr'
      have hrmem : r ∈ st.2 := List.mem_of_mem_erase hr'
      obtain ⟨h1, h2⟩ := hout r hrmem
      refine ⟨h1, ?_⟩
      intro p hp1 hp2 hfree
      rcases hsub p hfree with hold | hin
      · exact h2 p hp1 hp2 hold
      · have hd := pairwise_rdisj_of_mem hpwout hmem r hr'
        unfold rdisj at hd
        simp only at hd
        omega
    · simp [stepTrace, if_neg hmem] at h

theorem foldTrace_inv (ops : List AllocOp) :
    ∀ st st', TraceInv st → ops.foldlM stepTrace st = some st' → TraceInv st' := by
  induction ops with
  | nil =>
    intro st st' hinv h
    simp only [List.foldlM] at h
    injection h with h'
    subst h'
    exact hinv
  | cons op rest ih =>
    intro st st' hinv h
    rcases hstep : stepTrace st op with _ | st1
    · rw [List.foldlM_cons, hstep] at h
      simp at h
    · rw [List.foldlM_cons, hstep] at h
      exact ih st1 st' (stepTrace_inv op hstep hinv) h

theorem traceInv_init : TraceInv (alloc_init, []) := by
  refine ⟨⟨List.Pairwise.nil, by simp [alloc_init], by norm_num [alloc_init, U32]⟩, by simp, List.Pairwise.nil⟩

end LiveRaid

namespace LiveRaid

/-- C3: For every trace of allocate and free operations starting from a fresh
allocator, where each free returns a range previously returned by allocate and
not already freed: the free-extent list stays sorted strictly by start with no
two extents overlapping or touching (`extSep` pairwise), every extent satisfies
`start + count ≤ next_free` (indeed strictly, so no extent ever abuts the
watermark after an operation completes), and whenever a merge leaves the
trailing extent with `start + count` equal to `next_free`, `free_positions`'s
reclamation step removes that extent and lowers `next_free` to its start. -/
theorem c3_allocator_invariants (ops : List AllocOp) (a : lr_pos_allocator)
    (out : List (Nat × Nat)) (h : runTrace ops = some (a, out)) :
    a.extents.Pairwise extSep ∧
    (∀ e ∈ a.extents, e.start + e.count ≤ a.next_free) ∧
    (∀ e ∈ a.extents, e.start + e.count ≠ a.next_free) ∧
    (∀ b : lr_pos_allocator, ∀ last : lr_extent, b.extents.getLast? = some last →
      u32add last.start last.count = b.next_free →
      reclaimTail b = { next_free := last.start, extents := b.extents.dropLast }) := by
  have hinv := foldTrace_inv ops (alloc_init, []) (a, out) traceInv_init h
  obtain ⟨⟨hpw, hbnd, hnf⟩, -, -⟩ := hinv
  refine ⟨hpw, ?_, ?_, ?_⟩
  · intro e he
    have h2 : extEnd e < a.next_free := (hbnd e he).2
    unfold extEnd at h2
    omega
  · intro e he
    have h2 : extEnd e < a.next_free := (hbnd e he).2
    unfold extEnd at h2
    omega
  · intro b last hlast habut
    simp only [reclaimTail, hlast, if_pos habut]

theorem c3_allocator_invariants_witness :
    runTrace [AllocOp.alloc 3, AllocOp.alloc 3, AllocOp.alloc 3,
        AllocOp.free 0 3, AllocOp.free 6 3, AllocOp.free 3 3] =
      some ({ next_free := 0, extents := [] }, []) ∧
    ({ next_free := 0, extents := [] } : lr_pos_allocator).extents.Pairwise extSep ∧
    (∀ e ∈ ({ next_free := 0, extents := [] } : lr_pos_allocator).extents,
      e.start + e.count ≤ ({ next_free := 0, extents := [] } : lr_pos_allocator).next_free) :=
  ⟨by decide,
    (c3_allocator_invariants [AllocOp.alloc 3, AllocOp.alloc 3, AllocOp.alloc 3,
      AllocOp.free 0 3, AllocOp.free 6 3, AllocOp.free 3 3]
      { next_free := 0, extents := [] } [] (by decide)).1,
    (c3_allocator_invariants [AllocOp.alloc 3, AllocOp.alloc 3, AllocOp.alloc 3,
      AllocOp.free 0 3, AllocOp.free 6 3, AllocOp.free 3 3]
      { next_free := 0, extents := [] } [] (by decide)).2.1⟩

/-- C8: `alloc_positions a 0` returns the current watermark and leaves the
allocator unchanged; on a fresh allocator the probe returns 0 with
`next_free` still 0, and a subsequent `alloc_positions _ 5` returns 0
leaving `next_free = 5`. -/
theorem c8_alloc_zero_probe :
    (∀ a : lr_pos_allocator, alloc_positions a 0 = (a.next_free, a)) ∧
    alloc_positions alloc_init 0 = (0, alloc_init) ∧
    alloc_positions (alloc_positions alloc_init 0).2 5 =
      (0, { next_free := 5, extents := [] }) := by
  refine ⟨fun a => ?_, by decide, by decide⟩
  unfold alloc_positions
  simp

/-- C4: The concrete coalescing trace `alloc 9 = 0`, `free(0,3)`,
`free(6,3)` (abuts the watermark, reclaims to 6), `free(3,3)` (bridges the
extent `[0,3)` and the watermark) empties the allocator with
`next_free = 0`; and in general the insert-and-merge phase of `free`
merges with the left neighbour when `left.start + left.count == start`,
with the right neighbour when `start + count == right.start`, and both
merges combine into one bridging extent. -/
theorem c4_free_coalescing :
    ((alloc_positions alloc_init 9).1 = 0 ∧
     (alloc_positions alloc_init 9).2 = { next_free := 9, extents := [] } ∧
     free_positions (alloc_positions alloc_init 9).2 0 3 =
       { next_free := 9, extents := [{ start := 0, count := 3 }] } ∧
     free_positions (free_positions (alloc_positions alloc_init 9).2 0 3) 6 3 =
       { next_free := 6, extents := [{ start := 0, count := 3 }] } ∧
     free_positions (free_positions (free_positions (alloc_positions alloc_init 9).2 0 3) 6 3) 3 3 =
       { next_free := 0, extents := [] }) ∧
    (∀ (pre rest : List lr_extent) (p n : lr_extent) (s c : Nat),
      (∀ e ∈ pre, e.start ≤ s) → p.start ≤ s → s < n.start →
      u32add p.start p.count = s → u32add s c = n.start →
      insertMergeExtents (pre ++ p :: n :: rest) s c =
        pre ++ { start := p.start, count := u32add p.count (u32add c n.count) } :: rest) ∧
    (∀ (pre rest : List lr_extent) (p : lr_extent) (s c : Nat),
      (∀ e ∈ pre, e.start ≤ s) → p.start ≤ s →
      (∀ n ∈ rest.head?, s < n.start ∧ u32add s c ≠ n.start) →
      u32add p.start p.count = s →
      insertMergeExtents (pre ++ p :: rest) s c =
        pre ++ { start := p.start, count := u32add p.count c } :: rest) ∧
    (∀ (pre rest : List lr_extent) (n : lr_extent) (s c : Nat),
      (∀ e ∈ pre, e.start ≤ s) →
      (∀ q ∈ pre.getLast?, u32add q.start q.count ≠ s) →
      s < n.start → u32add s c = n.start →
      insertMergeExtents (pre ++ n :: rest) s c =
        pre ++ { start := s, count := u32add c n.count } :: rest) := by
  refine ⟨⟨by decide, by decide, by decide, by decide, by decide⟩, ?_, ?_, ?_⟩
  · intro pre rest p n s c hpre hp hn hmp hmn
    rw [insertMerge_both pre p n rest s c (fun e he => by have := hpre e he; omega)
      (by omega) hn, if_pos ⟨hmp, hmn⟩]
  · intro pre rest p s c hpre hp hrest hmp
    cases rest with
    | nil =>
      rw [insertMerge_prevOnly pre p s c (fun e he => by have := hpre e he; omega) (by omega),
        if_pos hmp]
    | cons n tail =>
      obtain ⟨hn, hmn⟩ := hrest n rfl
      rw [insertMerge_both pre p n tail s c (fun e he => by have := hpre e he; omega)
        (by omega) hn, if_neg (by tauto), if_pos hmp]
  · intro pre rest n s c hpre hlast hn hmn
    rcases List.eq_nil_or_concat pre with rfl | ⟨pre₀, q, hpre_eq⟩
    · rw [List.nil_append, insertMerge_nextOnly n rest s c hn, if_pos hmn]
      rfl
    · rw [List.concat_eq_append] at hpre_eq
      subst hpre_eq
      have hq : u32add q.start q.count ≠ s := hlast q (by simp)
      have hq_le : q.start ≤ s := hpre q (by simp)
      rw [show pre₀ ++ [q] ++ n :: rest = pre₀ ++ q :: n :: rest by simp]
      rw [insertMerge_both pre₀ q n rest s c
        (fun e he => by have := hpre e (List.mem_append_left _ he); omega)
        (by omega) hn, if_neg (by tauto), if_neg hq, if_pos hmn]
      simp

theorem c4_free_coalescing_witness :
    ((∀ e ∈ ([] : List lr_extent), e.start ≤ 3) ∧
      (⟨0, 3⟩ : lr_extent).start ≤ 3 ∧ 3 < (⟨6, 3⟩ : lr_extent).start ∧
      u32add (⟨0, 3⟩ : lr_extent).start (⟨0, 3⟩ : lr_extent).count = 3 ∧
      u32add 3 3 = (⟨6, 3⟩ : lr_extent).start) ∧
    insertMergeExtents ([] ++ (⟨0, 3⟩ : lr_extent) :: (⟨6, 3⟩ : lr_extent) :: []) 3 3 =
      [] ++ { start := 0, count := u32add 3 (u32add 3 3) } :: [] :=
  ⟨⟨by decide, by decide, by decide, by decide, by decide⟩,
    (c4_free_coalescing.2.1 [] [] ⟨0, 3⟩ ⟨6, 3⟩ 3 3 (by decide) (by decide) (by decide)
      (by decide) (by decide))⟩

end LiveRaid

namespace LiveRaid

/-! ## GF(2^8) arithmetic

Modelled from the spec: the ISA-L Galois-field primitives
(`gf_mul`/`gf_inv`, `gf_gen_cauchy1_matrix`, `ec_init_tables`,
`ec_encode_data`, `gf_invert_matrix`) used by src/parity.c are an external
library, not part of this repository. Section 4.4 of the spec describes
them as arithmetic "over GF(2^8)" with byte row indices; the concrete
field is the standard one used by that library: bytes under xor as
addition and carry-less multiplication reduced by the polynomial
x^8 + x^4 + x^3 + x^2 + 1 (0x11d). -/

/-- Multiplication by x in GF(2^8): shift left and reduce by 0x11d (= 285). -/
def xtime (a : Nat) : Nat := if a.testBit 7 then ((a <<< 1) ^^^ 285) else (a <<< 1)

/-- Multiplication by x^i. -/
def xtpow (i : Nat) (b : Nat) : Nat := xtime^[i] b

/-- GF(2^8) multiplication of bytes: sum (xor) over the set bits of `a`
of the shifted copies of `b`. -/
def gfMulNat (a b : Nat) : Nat :=
  (List.range 8).foldr (fun i acc => (if a.testBit i then xtpow i b else 0) ^^^ acc) 0

def gfSq (a : Nat) : Nat := gfMulNat a a

/-- GF(2^8) inverse as a^254 (Fermat), by square-and-multiply. -/
def gfInvNat (a : Nat) : Nat :=
  let x3 := gfMulNat (gfSq a) a
  let x7 := gfMulNat (gfSq x3) a
  let x15 := gfMulNat (gfSq x7) a
  let x31 := gfMulNat (gfSq x15) a
  let x63 := gfMulNat (gfSq x31) a
  let x127 := gfMulNat (gfSq x63) a
  gfSq x127

/-- Index of the highest set bit of a byte (0 for 0). -/
def topBitIdx (a : Nat) : Nat :=
  if a.testBit 7 then 7 else if a.testBit 6 then 6 else if a.testBit 5 then 5
  else if a.testBit 4 then 4 else if a.testBit 3 then 3 else if a.testBit 2 then 2
  else if a.testBit 1 then 1 else 0

/-- The field GF(2^8) of bytes. -/
structure GF where
  val : Nat
  lt : val < 256
deriving DecidableEq

theorem shiftLeft_one_xor (a b : Nat) : (a ^^^ b) <<< 1 = (a <<< 1) ^^^ (b <<< 1) := by
  apply Nat.eq_of_testBit_eq
  intro i
  simp only [Nat.testBit_shiftLeft, Nat.testBit_xor]
  by_cases hi : 1 ≤ i <;> simp [hi, Bool.and_xor_distrib_left]

theorem xor_four (x1 y1 x2 y2 : Nat) :
    (x1 ^^^ y1) ^^^ (x2 ^^^ y2) = (x1 ^^^ x2) ^^^ (y1 ^^^ y2) := by
  rw [Nat.xor_assoc, Nat.xor_assoc]
  congr 1
  rw [← Nat.xor_assoc, ← Nat.xor_assoc]
  congr 1
  exact Nat.xor_comm _ _

theorem xtime_eq (a : Nat) :
    xtime a = (a <<< 1) ^^^ (if a.testBit 7 then 285 else 0) := by
  unfold xtime
  cases h : a.testBit 7 <;> simp

theorem if_xor_bool (p q : Bool) (t : Nat) :
    (if (p ^^ q) then t else 0) = (if p then t else 0) ^^^ (if q then t else 0) := by
  cases p <;> cases q <;> simp

theorem xtime_xor (a b : Nat) : xtime (a ^^^ b) = xtime a ^^^ xtime b := by
  rw [xtime_eq, xtime_eq, xtime_eq, Nat.testBit_xor, shiftLeft_one_xor, if_xor_bool, xor_four]

theorem xtime_lt : ∀ a < 256, xtime a < 256 := by decide

theorem xtpow_xor (i a b : Nat) : xtpow i (a ^^^ b) = xtpow i a ^^^ xtpow i b := by
  induction i generalizing a b with
  | zero => rfl
  | succ n ih =>
    unfold xtpow at ih ⊢
    rw [Function.iterate_succ_apply', Function.iterate_succ_apply',
      Function.iterate_succ_apply', ih, xtime_xor]

theorem xtpow_lt (i : Nat) : ∀ b < 256, xtpow i b < 256 := by
  induction i with
  | zero => intro b hb; exact hb
  | succ n ih =>
    intro b hb
    unfold xtpow
    rw [Function.iterate_succ_apply']
    exact xtime_lt _ (ih b hb)

theorem foldr_xor_congr (l : List Nat) (t t1 t2 : Nat → Nat)
    (h : ∀ i ∈ l, t i = t1 i ^^^ t2 i) :
    l.foldr (fun i acc => t i ^^^ acc) 0 =
      (l.foldr (fun i acc => t1 i ^^^ acc) 0) ^^^ (l.foldr (fun i acc => t2 i ^^^ acc) 0) := by
  induction l with
  | nil => simp
  | cons x xs ih =>
    simp only [List.foldr_cons]
    rw [h x (List.mem_cons_self _ _), ih (fun i hi => h i (List.mem_cons_of_mem _ hi)), xor_four]

theorem foldr_xor_lt (l : List Nat) (t : Nat → Nat) (ht : ∀ i ∈ l, t i < 256) :
    l.foldr (fun i acc => t i ^^^ acc) 0 < 256 := by
  induction l with
  | nil => norm_num
  | cons x xs ih =>
    simp only [List.foldr_cons]
    have h1 : t x < 2 ^ 8 := ht x (List.mem_cons_self _ _)
    have h2 : xs.foldr (fun i acc => t i ^^^ acc) 0 < 2 ^ 8 :=
      ih fun i hi => ht i (List.mem_cons_of_mem _ hi)
    exact Nat.xor_lt_two_pow h1 h2

theorem gfMulNat_lt (a : Nat) : ∀ b < 256, gfMulNat a b < 256 := by
  intro b hb
  unfold gfMulNat
  apply foldr_xor_lt
  intro i _
  by_cases h : a.testBit i
  · simpa [h] using xtpow_lt i b hb
  · simp [h]

theorem gfMulNat_xor_right (a b1 b2 : Nat) :
    gfMulNat a (b1 ^^^ b2) = gfMulNat a b1 ^^^ gfMulNat a b2 := by
  unfold gfMulNat
  apply foldr_xor_congr
  intro i _
  by_cases h : a.testBit i <;> simp [h, xtpow_xor]

theorem gfMulNat_xor_left (a1 a2 b : Nat) :
    gfMulNat (a1 ^^^ a2) b = gfMulNat a1 b ^^^ gfMulNat a2 b := by
  unfold gfMulNat
  apply foldr_xor_congr
  intro i _
  rw [Nat.testBit_xor, if_xor_bool]

theorem topBit_facts : ∀ a < 256, a ≠ 0 →
    a ^^^ 2 ^ topBitIdx a < a ∧ topBitIdx a < 8 ∧ 2 ^ topBitIdx a < 256 := by decide

theorem byte_ext (f g : Nat → Nat)
    (hf : ∀ x y, x < 256 → y < 256 → f (x ^^^ y) = f x ^^^ f y)
    (hg : ∀ x y, x < 256 → y < 256 → g (x ^^^ y) = g x ^^^ g y)
    (hbasis : ∀ i < 8, f (2 ^ i) = g (2 ^ i)) :
    ∀ a, a < 256 → f a = g a := by
  intro a
  induction a using Nat.strong_induction_on with
  | _ a ih =>
    intro ha
    by_cases hz : a = 0
    · subst hz
      have hfz : f 0 = 0 := by
        have := hf 0 0 (by norm_num) (by norm_num)
        rw [Nat.zero_xor, Nat.xor_self] at this
        exact this
      have hgz : g 0 = 0 := by
        have := hg 0 0 (by norm_num) (by norm_num)
        rw [Nat.zero_xor, Nat.xor_self] at this
        exact this
      rw [hfz, hgz]
    · obtain ⟨hlt, hi8, hpow⟩ := topBit_facts a ha hz
      have hsplit : 2 ^ topBitIdx a ^^^ (a ^^^ 2 ^ topBitIdx a) = a := by
        rw [Nat.xor_comm a, ← Nat.xor_assoc, Nat.xor_self, Nat.zero_xor]
      have ha' : a ^^^ 2 ^ topBitIdx a < 256 := lt_trans hlt ha
      calc f a = f (2 ^ topBitIdx a ^^^ (a ^^^ 2 ^ topBitIdx a)) := by rw [hsplit]
        _ = f (2 ^ topBitIdx a) ^^^ f (a ^^^ 2 ^ topBitIdx a) := hf _ _ hpow ha'
        _ = g (2 ^ topBitIdx a) ^^^ g (a ^^^ 2 ^ topBitIdx a) := by
            rw [hbasis _ hi8, ih _ hlt ha']
        _ = g (2 ^ topBitIdx a ^^^ (a ^^^ 2 ^ topBitIdx a)) := (hg _ _ hpow ha').symm
        _ = g a := by rw [hsplit]

theorem gf_comm_basis : ∀ i < 8, ∀ j < 8,
    gfMulNat (2 ^ i) (2 ^ j) = gfMulNat (2 ^ j) (2 ^ i) := by decide

theorem gf_assoc_basis : ∀ i < 8, ∀ j < 8, ∀ k < 8,
    gfMulNat (gfMulNat (2 ^ i) (2 ^ j)) (2 ^ k) =
      gfMulNat (2 ^ i) (gfMulNat (2 ^ j) (2 ^ k)) := by decide

theorem gf_one_mul : ∀ a < 256, gfMulNat 1 a = a ∧ gfMulNat a 1 = a := by decide

theorem gf_mul_inv : ∀ a < 256, a ≠ 0 → gfMulNat a (gfInvNat a) = 1 := by decide

theorem gfMulNat_comm_basis_all : ∀ i < 8, ∀ b < 256,
    gfMulNat (2 ^ i) b = gfMulNat b (2 ^ i) := by
  intro i hi
  exact byte_ext (fun b => gfMulNat (2 ^ i) b) (fun b => gfMulNat b (2 ^ i))
    (fun x y _ _ => gfMulNat_xor_right _ x y)
    (fun x y _ _ => gfMulNat_xor_left x y _)
    (fun j hj => gf_comm_basis i hi j hj)

theorem gfMulNat_comm : ∀ a < 256, ∀ b < 256, gfMulNat a b = gfMulNat b a := by
  intro a ha b hb
  exact byte_ext (fun a => gfMulNat a b) (fun a => gfMulNat b a)
    (fun x y _ _ => gfMulNat_xor_left x y b)
    (fun x y _ _ => gfMulNat_xor_right b x y)
    (fun i hi => by simpa using gfMulNat_comm_basis_all i hi b hb) a ha

theorem gf_assoc_lvl3 : ∀ i < 8, ∀ j < 8, ∀ c < 256,
    gfMulNat (gfMulNat (2 ^ i) (2 ^ j)) c = gfMulNat (2 ^ i) (gfMulNat (2 ^ j) c) := by
  intro i hi j hj
  exact byte_ext _ _
    (fun x y _ _ => gfMulNat_xor_right _ x y)
    (fun x y _ _ => by
      show gfMulNat (2 ^ i) (gfMulNat (2 ^ j) (x ^^^ y)) = _
      rw [gfMulNat_xor_right, gfMulNat_xor_right])
    (fun k hk => gf_assoc_basis i hi j hj k hk)

theorem gf_assoc_lvl2 : ∀ i < 8, ∀ c < 256, ∀ b < 256,
    gfMulNat (gfMulNat (2 ^ i) b) c = gfMulNat (2 ^ i) (gfMulNat b c) := by
  intro i hi c hc
  exact byte_ext (fun b => gfMulNat (gfMulNat (2 ^ i) b) c)
    (fun b => gfMulNat (2 ^ i) (gfMulNat b c))
    (fun x y _ _ => by
      show gfMulNat (gfMulNat (2 ^ i) (x ^^^ y)) c = _
      rw [gfMulNat_xor_right, gfMulNat_xor_left])
    (fun x y _ _ => by
      show gfMulNat (2 ^ i) (gfMulNat (x ^^^ y) c) = _
      rw [gfMulNat_xor_left, gfMulNat_xor_right])
    (fun j hj => gf_assoc_lvl3 i hi j hj c hc)

theorem gfMulNat_assoc : ∀ a < 256, ∀ b < 256, ∀ c < 256,
    gfMulNat (gfMulNat a b) c = gfMulNat a (gfMulNat b c) := by
  intro a ha b hb c hc
  exact byte_ext (fun a => gfMulNat (gfMulNat a b) c) (fun a => gfMulNat a (gfMulNat b c))
    (fun x y _ _ => by
      show gfMulNat (gfMulNat (x ^^^ y) b) c = _
      rw [gfMulNat_xor_left, gfMulNat_xor_left])
    (fun x y _ _ => gfMulNat_xor_left x y _)
    (fun i hi => gf_assoc_lvl2 i hi c hc b hb) a ha

theorem gfInvNat_lt : ∀ a < 256, gfInvNat a < 256 := by
  intro a ha
  unfold gfInvNat gfSq
  apply gfMulNat_lt
  repeat' apply gfMulNat_lt
  all_goals exact ha

end LiveRaid

namespace LiveRaid

theorem xor_lt_256 {x y : Nat} (hx : x < 256) (hy : y < 256) : x ^^^ y < 256 := by
  have h : (256 : Nat) = 2 ^ 8 := by norm_num
  rw [h] at hx hy ⊢
  exact Nat.xor_lt_two_pow hx hy

theorem GF.ext {a b : GF} (h : a.val = b.val) : a = b := by
  cases a
  cases b
  simpa using h

instance : Zero GF := ⟨⟨0, by norm_num⟩⟩

instance : One GF := ⟨⟨1, by norm_num⟩⟩

instance : Add GF := ⟨fun a b => ⟨a.val ^^^ b.val, xor_lt_256 a.lt b.lt⟩⟩

instance : Neg GF := ⟨fun a => a⟩

instance : Mul GF := ⟨fun a b => ⟨gfMulNat a.val b.val, gfMulNat_lt _ _ b.lt⟩⟩

instance : Inv GF := ⟨fun a => ⟨gfInvNat a.val, gfInvNat_lt _ a.lt⟩⟩

theorem GF.zero_val : (0 : GF).val = 0 := rfl

theorem GF.one_val : (1 : GF).val = 1 := rfl

theorem GF.add_val (a b : GF) : (a + b).val = a.val ^^^ b.val := rfl

theorem GF.mul_val (a b : GF) : (a * b).val = gfMulNat a.val b.val := rfl

theorem GF.inv_val (a : GF) : a⁻¹.val = gfInvNat a.val := rfl

theorem GF.neg_val (a : GF) : (-a).val = a.val := rfl

instance : Field GF := Field.ofMinimalAxioms GF
  (fun a b c => GF.ext (Nat.xor_assoc a.val b.val c.val))
  (fun a => GF.ext (Nat.zero_xor a.val))
  (fun a => GF.ext (Nat.xor_self a.val))
  (fun a b c => GF.ext (gfMulNat_assoc a.val a.lt b.val b.lt c.val c.lt))
  (fun a b => GF.ext (gfMulNat_comm a.val a.lt b.val b.lt))
  (fun a => GF.ext ((gf_one_mul a.val a.lt).1))
  (fun a ha => GF.ext (gf_mul_inv a.val a.lt (fun h => ha (GF.ext h))))
  (GF.ext (by decide))
  (fun a b c => GF.ext (gfMulNat_xor_right a.val b.val c.val))
  ⟨0, 1, by decide⟩

end LiveRaid

namespace LiveRaid

/-! ## Parity engine (src/parity.c)

Blocks are vectors of GF(2^8) bytes of length `bs` (one position of one
drive). The environment of one parity position is, per data drive, what
`state_find_file_at_pos` plus the `open`/`pread` of the backing file
yield: no file covering the position (contributes a zero block and is
not a failure), a readable block (short reads already zero-padded, as in
the C code), or an unreadable file (failed `open` or failed `pread`). -/

inductive BlockRead (bs : Nat) where
  | noFile
  | content (b : Fin bs → GF)
  | unreadable

/-- Byte (< 256) as a GF(2^8) element. -/
def gfOfByte (x : Nat) : GF := ⟨x % 256, Nat.mod_lt _ (by norm_num)⟩

/-- Modelled from the spec: ISA-L's `gf_gen_cauchy1_matrix` (absent from
src/, described in spec section 4.4 and the comment in src/config.h):
the first `k` rows are identity, row `i ≥ k` has entries
`gf_inv(i ^ j)`, i.e. the inverse of the field sum of the distinct row
and column bytes. -/
def gf_gen_cauchy1_matrix (m k : Nat) : Matrix (Fin m) (Fin k) GF :=
  Matrix.of fun i j =>
    if (i : Nat) < k then (if (i : Nat) = (j : Nat) then 1 else 0)
    else (gfOfByte ((i : Nat) ^^^ (j : Nat)))⁻¹

/-- Modelled from the spec: ISA-L's `ec_encode_data` with tables built by
`ec_init_tables` from a coefficient matrix `g` computes, for each output
row, the GF(2^8) linear combination of the source blocks, byte position
by byte position. -/
def ec_encode_data {k rows bs : Nat} (g : Matrix (Fin rows) (Fin k) GF)
    (src : Fin k → Fin bs → GF) : Fin rows → Fin bs → GF :=
  fun l t => ∑ j, g l j * src j t

/-- The `np × nd` parity submatrix (rows `nd ..  nd+np-1` of the encode
matrix), the rows from which `parity_open` builds its tables. -/
def parityRows {nd np : Nat} (enc : Matrix (Fin (nd + np)) (Fin nd) GF) :
    Matrix (Fin np) (Fin nd) GF :=
  Matrix.of fun p j => enc ⟨nd + (p : Nat), by omega⟩ j

/-- The block a data drive contributes to `parity_update_position`:
missing files and unreadable backing files are substituted by a zero
block (lines 163-183 of src/parity.c). -/
def dataSlot {bs : Nat} (r : BlockRead bs) : Fin bs → GF :=
  match r with
  | .noFile => fun _ => 0
  | .content b => b
  | .unreadable => fun _ => 0

structure UpdateResult (np bs : Nat) where
  writes : List (Fin np × (Fin bs → GF))
  rc : Int

/-- `parity_update_position` from src/parity.c: fill the data slots
(zero for missing or unreadable blocks), encode the parity rows, write
every parity block (write errors are ignored by the C code), return 0.
With no parity configured it returns 0 without writing. -/
def parity_update_position (nd np bs : Nat) (enc : Matrix (Fin (nd + np)) (Fin nd) GF)
    (world : Fin nd → BlockRead bs) : UpdateResult np bs :=
  if np = 0 then { writes := [], rc := 0 }
  else
    let v : Fin nd → Fin bs → GF := fun d => dataSlot (world d)
    let par := ec_encode_data (parityRows enc) v
    { writes := (List.finRange np).map (fun p => (p, par p)), rc := 0 }

/-- Discriminator for the read outcome that counts as a failure in
`parity_recover_block` (an `open`/`pread` error on a covering file). -/
def BlockRead.isUnreadable {bs : Nat} : BlockRead bs → Bool
  | .unreadable => true
  | _ => false

/-- One step of the failure-detection loop of `parity_recover_block`
(lines 226-264 of src/parity.c), processing drive `d`: the requested
drive is skipped (it is already failure number 0), a missing file or an
unreadable file contributes a zero block, an unreadable drive is
inserted into the sorted failure list, bailing out (rc -1) when the
list already holds `np` failures. -/
def detectStep {nd bs : Nat} (np : Nat) (drive : Fin nd)
    (world : Fin nd → BlockRead bs)
    (st : List (Fin nd) × (Fin nd → Fin bs → GF)) (d : Fin nd) :
    Option (List (Fin nd) × (Fin nd → Fin bs → GF)) :=
  if d = drive then some st
  else
    match world d with
    | .noFile => some (st.1, Function.update st.2 d (fun _ => 0))
    | .content b => some (st.1, Function.update st.2 d b)
    | .unreadable =>
      if np ≤ st.1.length then none
      else some (st.1.orderedInsert (· ≤ ·) d, Function.update st.2 d (fun _ => 0))

/-- The failure-detection loop of `parity_recover_block` (lines 219-264
of src/parity.c): the requested drive is failure number 0; every other
drive is read via `detectStep`. Returns the sorted failure list and the
data-slot vector, or `none` when more than `np` drives have failed. -/
def detectFailures {nd bs : Nat} (np : Nat) (drive : Fin nd)
    (world : Fin nd → BlockRead bs) :
    Option (List (Fin nd) × (Fin nd → Fin bs → GF)) :=
  (List.finRange nd).foldlM (detectStep np drive world)
    ([drive], Function.update (fun _ _ => 0) drive (fun _ => 0))

/-- Modelled from the spec: ISA-L's `gf_invert_matrix` inverts a square
matrix over GF(2^8), failing exactly on singular input (spec section
4.4: "invert it in GF(2^8)", "Matrix-inversion failure (singular
submatrix) fails `Unrecoverable`"). -/
def gfMatInv {n : Nat} (M : Matrix (Fin n) (Fin n) GF) :
    Option (Matrix (Fin n) (Fin n) GF) :=
  if h : M.det = 0 then none else some (M.det⁻¹ • M.adjugate)

/-- The surviving data drives (`j`, `nsrcs` loop, lines 269-274 of
src/parity.c): every drive whose read did not fail, in drive order. -/
def survDataOf {nd : Nat} (failed : List (Fin nd)) : List (Fin nd) :=
  (List.finRange nd).filter (fun d => decide (d ∉ failed))

/-- The encode-matrix rows backing the decode matrix (lines 269-279 of
src/parity.c): the surviving data rows in order, then the `nf` lowest
parity rows. -/
def survRowsOf {nd : Nat} (failed : List (Fin nd)) : List Nat :=
  (survDataOf failed).map (fun d => d.val) ++
    (List.range failed.length).map (fun p => nd + p)

/-- The `nd × nd` decode matrix `b` of `parity_recover_block` (lines
269-279 of src/parity.c): row `r` of the encode matrix row named by
`survRowsOf` (out-of-range names, which never occur, give zero). -/
def decMatrixOf {nd np : Nat} (enc : Matrix (Fin (nd + np)) (Fin nd) GF)
    (failed : List (Fin nd)) : Matrix (Fin nd) (Fin nd) GF :=
  Matrix.of fun r c =>
    if h : (survRowsOf failed).getD r 0 < nd + np
    then enc ⟨(survRowsOf failed).getD r 0, h⟩ c else 0

/-- The surviving source blocks (`recover_srcs`, lines 281-306 of
src/parity.c): the surviving data drives' blocks in order, then the
`nf` lowest parity blocks; a failed parity read yields a zero block. -/
def srcVecOf {nd np bs : Nat} (failed : List (Fin nd))
    (v : Fin nd → Fin bs → GF) (parityRead : Fin np → Option (Fin bs → GF)) :
    Fin nd → Fin bs → GF :=
  fun r =>
    if hr : (r : Nat) < (survDataOf failed).length
    then v ((survDataOf failed).get ⟨(r : Nat), hr⟩)
    else if hp : (survRowsOf failed).getD r 0 - nd < np
      then (parityRead ⟨(survRowsOf failed).getD r 0 - nd, hp⟩).getD (fun _ => 0)
      else fun _ => 0

/-- `parity_recover_block` from src/parity.c: detect failures, read the
`nf` lowest parity levels (a failed parity read yields a zero block),
build the decode matrix from the surviving rows (non-failed data rows in
order, then the first `nf` parity rows), invert it, and produce the
requested drive's block as that drive's row of the inverse applied to
the surviving blocks. (The C code reconstructs every failed drive's
block the same way and copies out the requested one; only the requested
block is observable through `out_buf`.) -/
def parity_recover_block (nd np bs : Nat) (enc : Matrix (Fin (nd + np)) (Fin nd) GF)
    (world : Fin nd → BlockRead bs) (parityRead : Fin np → Option (Fin bs → GF))
    (drive : Fin nd) : Option (Fin bs → GF) :=
  if np = 0 then none
  else
    match detectFailures np drive world with
    | none => none
    | some (failed, v) =>
      match gfMatInv (decMatrixOf enc failed) with
      | none => none
      | some inv =>
        some (fun t => ∑ r, inv drive r * srcVecOf failed v parityRead r t)

end LiveRaid

namespace LiveRaid

/-- C9: During `parity_update_position`, a data drive whose file covers
the position but whose backing file cannot be opened or read contributes
an all-zero block: the result is identical to encoding with that drive's
block replaced by zeroes, all `np` parity blocks are computed and
written, and the function returns success (0) with no error surfaced. -/
theorem c9_update_unreadable_zero (nd np bs : Nat) (hnp : 0 < np)
    (enc : Matrix (Fin (nd + np)) (Fin nd) GF) (world : Fin nd → BlockRead bs) (d0 : Fin nd)
    (h : world d0 = BlockRead.unreadable) :
    parity_update_position nd np bs enc world =
      parity_update_position nd np bs enc
        (Function.update world d0 (BlockRead.content (fun _ => 0))) ∧
    (parity_update_position nd np bs enc world).rc = 0 ∧
    (parity_update_position nd np bs enc world).writes =
      (List.finRange np).map (fun p => (p, ec_encode_data (parityRows enc)
        (fun d => dataSlot (world d)) p)) ∧
    (parity_update_position nd np bs enc world).writes.length = np := by
  have hnp0 : ¬ np = 0 := by omega
  have hv : (fun d => dataSlot (world d)) =
      (fun d => dataSlot ((Function.update world d0 (BlockRead.content (fun _ => 0))) d)) := by
    funext d
    by_cases hd : d = d0
    · subst hd
      rw [h, Function.update_same]
      rfl
    · rw [Function.update_noteq hd]
  refine ⟨?_, ?_, ?_, ?_⟩
  · unfold parity_update_position
    rw [if_neg hnp0, if_neg hnp0, hv]
  · unfold parity_update_position
    rw [if_neg hnp0]
  · unfold parity_update_position
    rw [if_neg hnp0]
  · unfold parity_update_position
    rw [if_neg hnp0]
    simp

theorem c9_update_unreadable_zero_witness :
    0 < 1 ∧
    (fun _ : Fin 1 => (BlockRead.unreadable : BlockRead 1)) 0 = BlockRead.unreadable ∧
    parity_update_position 1 1 1 (gf_gen_cauchy1_matrix 2 1)
        (fun _ => BlockRead.unreadable) =
      parity_update_position 1 1 1 (gf_gen_cauchy1_matrix 2 1)
        (Function.update (fun _ => BlockRead.unreadable) 0
          (BlockRead.content (fun _ => 0))) :=
  ⟨by decide, rfl,
    (c9_update_unreadable_zero 1 1 1 (by decide) (gf_gen_cauchy1_matrix 2 1)
      (fun _ => BlockRead.unreadable) 0 rfl).1⟩

end LiveRaid

namespace LiveRaid

/-! ## The parity law (claim C1)

`gf_gen_cauchy1_matrix` concatenates an identity block with a Cauchy
block: entry `(i, j)` of the parity part is `(gfOfByte (i ^^^ j))⁻¹`,
and since byte-wise xor is addition in GF(2^8), that is the classic
Cauchy entry `1 / (x_i + y_j)` for the distinct points `x_i = ι i`
(`i ≥ nd`) and `y_j = ι j` (`j < nd`). Every square submatrix formed
from surviving rows is invertible; we prove it through the polynomial
kernel argument below and derive the round-trip law
encode-erase-recover = identity. -/

theorem GF.add_self (a : GF) : a + a = 0 := by
  refine GF.ext ?_
  rw [GF.add_val, Nat.xor_self, GF.zero_val]

theorem gfOfByte_val (x : Nat) (hx : x < 256) : (gfOfByte x).val = x := by
  simp [gfOfByte, Nat.mod_eq_of_lt hx]

theorem gfOfByte_inj (x y : Nat) (hx : x < 256) (hy : y < 256)
    (h : gfOfByte x = gfOfByte y) : x = y := by
  have hv := congrArg GF.val h
  rwa [gfOfByte_val x hx, gfOfByte_val y hy] at hv

theorem gfOfByte_add (x y : Nat) (hx : x < 256) (hy : y < 256) :
    gfOfByte x + gfOfByte y = gfOfByte (x ^^^ y) := by
  refine GF.ext ?_
  rw [GF.add_val, gfOfByte_val x hx, gfOfByte_val y hy,
    gfOfByte_val _ (xor_lt_256 hx hy)]

theorem cauchy1_data_row (nd np : Nat) (i : Fin (nd + np)) (j : Fin nd)
    (h : (i : Nat) < nd) :
    gf_gen_cauchy1_matrix (nd + np) nd i j = if i.val = j.val then 1 else 0 := by
  unfold gf_gen_cauchy1_matrix
  rw [Matrix.of_apply, if_pos h]

theorem cauchy1_parity_row (nd np : Nat) (i : Fin (nd + np)) (j : Fin nd)
    (h : nd ≤ (i : Nat)) :
    gf_gen_cauchy1_matrix (nd + np) nd i j = (gfOfByte (i.val ^^^ j.val))⁻¹ := by
  unfold gf_gen_cauchy1_matrix
  rw [Matrix.of_apply, if_neg (Nat.not_lt.mpr h)]

theorem sort_orderedInsert {α : Type} [LinearOrder α] [DecidableEq α] (G : Finset α) (x : α)
    (hx : x ∉ G) :
    (G.sort (· ≤ ·)).orderedInsert (· ≤ ·) x = (insert x G).sort (· ≤ ·) := by
  have hnd : (x :: G.sort (· ≤ ·)).Nodup := by
    refine List.Nodup.cons ?_ (Finset.sort_nodup _ _)
    simpa [Finset.mem_sort] using hx
  have hperm : ((G.sort (· ≤ ·)).orderedInsert (· ≤ ·) x).Perm
      ((insert x G).sort (· ≤ ·)) := by
    refine (List.perm_orderedInsert _ x _).trans ?_
    rw [List.perm_ext_iff_of_nodup hnd (Finset.sort_nodup _ _)]
    intro a
    simp [Finset.mem_sort, Finset.mem_insert]
  exact List.eq_of_perm_of_sorted hperm
    ((Finset.sort_sorted _ _).orderedInsert x _) (Finset.sort_sorted _ _)

theorem foldlM_cons_step {σ α : Type} (f : σ → α → Option σ) (x : α) (L : List α)
    (s t : σ) (h : f s x = some t) :
    List.foldlM f s (x :: L) = List.foldlM f t L := by
  rw [List.foldlM_cons, h]
  rfl

theorem vstep_ext {nd bs : Nat} (x drive : Fin nd) (L : List (Fin nd))
    (hxL : x ∉ L) (hxdrive : ¬ x = drive)
    (world : Fin nd → BlockRead bs) (v : Fin nd → Fin bs → GF) (w0 : Fin bs → GF)
    (hw0 : dataSlot (world x) = w0) :
    (fun d => if d ∈ L ∧ d ≠ drive then dataSlot (world d) else Function.update v x w0 d)
      = fun d => if d ∈ x :: L ∧ d ≠ drive then dataSlot (world d) else v d := by
  funext d
  by_cases hdL : d ∈ L ∧ d ≠ drive
  · rw [if_pos hdL, if_pos ⟨List.mem_cons_of_mem x hdL.1, hdL.2⟩]
  · rw [if_neg hdL]
    by_cases hdx : d = x
    · subst hdx
      rw [Function.update_same, if_pos ⟨List.mem_cons_self d L, hxdrive⟩, hw0]
    · rw [Function.update_noteq hdx]
      rw [if_neg ?_]
      rintro ⟨hmem, hne⟩
      rcases List.mem_cons.mp hmem with h | h
      · exact hdx h
      · exact hdL ⟨h, hne⟩

def failSetOf {nd bs : Nat} (world : Fin nd → BlockRead bs) (drive : Fin nd) :
    Finset (Fin nd) :=
  insert drive (Finset.univ.filter (fun d => (world d).isUnreadable = true))

theorem detect_go {nd bs : Nat} (np : Nat) (drive : Fin nd)
    (world : Fin nd → BlockRead bs)
    (hcard : (failSetOf world drive).card ≤ np) :
    ∀ (L : List (Fin nd)), L.Nodup →
    ∀ (G : Finset (Fin nd)) (v : Fin nd → Fin bs → GF),
      drive ∈ G → G ⊆ failSetOf world drive →
      (∀ d ∈ L, d ≠ drive → (world d).isUnreadable = true → d ∉ G) →
      L.foldlM (detectStep np drive world) (G.sort (· ≤ ·), v) =
        some ((G ∪ (L.filter
            (fun d => decide (d ≠ drive) && (world d).isUnreadable)).toFinset).sort (· ≤ ·),
          fun d => if d ∈ L ∧ d ≠ drive then dataSlot (world d) else v d) := by
  intro L
  induction L with
  | nil =>
    intro _ G v _ _ _
    simp only [List.foldlM_nil, List.filter_nil, List.toFinset_nil,
      Finset.union_empty, List.not_mem_nil, false_and, if_false]
    rfl
  | cons x L ih =>
    intro hnd G v hdr hsub hnew
    obtain ⟨hxL, hndL⟩ := List.nodup_cons.mp hnd
    by_cases hxdrive : x = drive
    · subst hxdrive
      have hstep : detectStep np x world (Finset.sort (· ≤ ·) G, v) x =
          some (Finset.sort (· ≤ ·) G, v) := by
        simp [detectStep]
      refine Eq.trans (foldlM_cons_step _ x L _ _ hstep) ?_
      refine Eq.trans (ih hndL G v hdr hsub
        (fun d hd => hnew d (List.mem_cons_of_mem x hd))) (congrArg some ?_)
      refine Prod.ext ?_ (funext fun d => ?_)
      · show Finset.sort _ _ = Finset.sort _ _
        refine congrArg _ (congrArg _ (congrArg _ ?_))
        rw [List.filter_cons]
        simp
      · by_cases hdd : d = x
        · subst hdd
          simp
        · simp [List.mem_cons, hdd]
    · cases hwx : world x with
      | noFile =>
        have hstep : detectStep np drive world (Finset.sort (· ≤ ·) G, v) x =
            some (Finset.sort (· ≤ ·) G, Function.update v x (fun _ => 0)) := by
          simp [detectStep, hxdrive, hwx]
        refine Eq.trans (foldlM_cons_step _ x L _ _ hstep) ?_
        refine Eq.trans (ih hndL G (Function.update v x (fun _ => 0)) hdr hsub
          (fun d hd => hnew d (List.mem_cons_of_mem x hd))) (congrArg some ?_)
        refine Prod.ext ?_ ?_
        · show Finset.sort _ _ = Finset.sort _ _
          refine congrArg _ (congrArg _ (congrArg _ ?_))
          rw [List.filter_cons]
          simp [hwx, BlockRead.isUnreadable]
        · exact vstep_ext x drive L hxL hxdrive world v _ (by rw [hwx]; rfl)
      | content b =>
        have hstep : detectStep np drive world (Finset.sort (· ≤ ·) G, v) x =
            some (Finset.sort (· ≤ ·) G, Function.update v x b) := by
          simp [detectStep, hxdrive, hwx]
        refine Eq.trans (foldlM_cons_step _ x L _ _ hstep) ?_
        refine Eq.trans (ih hndL G (Function.update v x b) hdr hsub
          (fun d hd => hnew d (List.mem_cons_of_mem x hd))) (congrArg some ?_)
        refine Prod.ext ?_ ?_
        · show Finset.sort _ _ = Finset.sort _ _
          refine congrArg _ (congrArg _ (congrArg _ ?_))
          rw [List.filter_cons]
          simp [hwx, BlockRead.isUnreadable]
        · exact vstep_ext x drive L hxL hxdrive world v _ (by rw [hwx]; rfl)
      | unreadable =>
        have hxG : x ∉ G :=
          hnew x (List.mem_cons_self x L) hxdrive (by rw [hwx]; rfl)
        have hxFS : x ∈ failSetOf world drive := by
          refine Finset.mem_insert_of_mem ?_
          refine Finset.mem_filter.mpr ⟨Finset.mem_univ x, ?_⟩
          rw [hwx]
          rfl
        have hGlt : G.card < (failSetOf world drive).card := by
          refine Finset.card_lt_card ?_
          exact ⟨hsub, fun hsup => hxG (hsup hxFS)⟩
        have hlen : ¬ np ≤ (Finset.sort (· ≤ ·) G).length := by
          rw [Finset.length_sort]
          exact Nat.not_le.mpr (Nat.lt_of_lt_of_le hGlt hcard)
        have hstep0 : detectStep np drive world (Finset.sort (· ≤ ·) G, v) x =
            some ((Finset.sort (· ≤ ·) G).orderedInsert (· ≤ ·) x,
              Function.update v x (fun _ => 0)) := by
          simp only [detectStep, if_neg hxdrive, hwx, if_neg hlen]
        have hstep : detectStep np drive world (Finset.sort (· ≤ ·) G, v) x =
            some (Finset.sort (· ≤ ·) (insert x G),
              Function.update v x (fun _ => 0)) := by
          rw [hstep0, sort_orderedInsert G x hxG]
        have hnew2 : ∀ d ∈ L, d ≠ drive → (world d).isUnreadable = true →
            d ∉ insert x G := by
          intro d hd hne hunr
          rw [Finset.mem_insert]
          rintro (h | h)
          · exact hxL (h ▸ hd)
          · exact hnew d (List.mem_cons_of_mem x hd) hne hunr h
        refine Eq.trans (foldlM_cons_step _ x L _ _ hstep) ?_
        refine Eq.trans (ih hndL (insert x G) (Function.update v x (fun _ => 0))
          (Finset.mem_insert_of_mem hdr)
          (Finset.insert_subset hxFS hsub) hnew2) (congrArg some ?_)
        refine Prod.ext ?_ ?_
        · show Finset.sort _ _ = Finset.sort _ _
          refine congrArg _ ?_
          have hfil : (x :: L).filter (fun d => decide (d ≠ drive) && (world d).isUnreadable) =
              x :: L.filter (fun d => decide (d ≠ drive) && (world d).isUnreadable) := by
            rw [List.filter_cons_of_pos]
            simp [hwx, hxdrive, BlockRead.isUnreadable]
          rw [hfil, List.toFinset_cons, Finset.insert_union, Finset.union_insert]
        · exact vstep_ext x drive L hxL hxdrive world v _ (by rw [hwx]; rfl)

theorem detectFailures_eq {nd bs : Nat} (np : Nat) (drive : Fin nd)
    (world : Fin nd → BlockRead bs)
    (hcard : (failSetOf world drive).card ≤ np) :
    detectFailures np drive world =
      some ((failSetOf world drive).sort (· ≤ ·),
        fun d => if d = drive then (fun _ => 0) else dataSlot (world d)) := by
  have hbase : ([drive], Function.update (fun _ _ => (0 : GF)) drive (fun _ => 0)) =
      ((({drive} : Finset (Fin nd)).sort (· ≤ ·)),
        fun (_ : Fin nd) (_ : Fin bs) => (0 : GF)) := by
    rw [Prod.mk.injEq]
    refine ⟨?_, ?_⟩
    · rw [Finset.sort_singleton]
    · funext d t
      by_cases h : d = drive
      · subst h
        rw [Function.update_same]
      · rw [Function.update_noteq h]
  rw [detectFailures, hbase]
  rw [detect_go np drive world hcard (List.finRange nd) (List.nodup_finRange nd)
    {drive} (fun _ _ => 0) (Finset.mem_singleton_self drive)
    (Finset.singleton_subset_iff.mpr (Finset.mem_insert_self drive _))
    (fun d _ hne _ hmem => hne (Finset.mem_singleton.mp hmem))]
  refine congrArg some ?_
  rw [Prod.mk.injEq]
  refine ⟨?_, ?_⟩
  · refine congrArg _ ?_
    ext a
    simp only [Finset.mem_union, Finset.mem_singleton, List.mem_toFinset,
      List.mem_filter, List.mem_finRange, true_and, Bool.and_eq_true,
      decide_eq_true_eq, failSetOf, Finset.mem_insert, Finset.mem_filter,
      Finset.mem_univ]
    by_cases h : a = drive
    · simp [h]
    · simp [h]
  · funext d
    by_cases h : d = drive
    · subst h
      simp
    · simp [h]

theorem delta_row_sum {n : Nat} (d0 : Fin n) (g : Fin n → GF) :
    (∑ c, (if d0.val = c.val then (1 : GF) else 0) * g c) = g d0 := by
  have hterm : ∀ c : Fin n,
      (if d0.val = c.val then (1 : GF) else 0) * g c
        = if c = d0 then g c else 0 := by
    intro c
    by_cases h : c = d0
    · subst h
      simp
    · rw [if_neg (fun hh => h (Fin.ext hh.symm)), if_neg h, zero_mul]
  rw [Finset.sum_congr rfl (fun c _ => hterm c),
    Finset.sum_ite_eq' Finset.univ d0 g, if_pos (Finset.mem_univ d0)]

theorem survDataOf_mem {nd : Nat} (failed : List (Fin nd)) (d : Fin nd) :
    d ∈ survDataOf failed ↔ d ∉ failed := by
  simp [survDataOf]

theorem survDataOf_nodup {nd : Nat} (failed : List (Fin nd)) :
    (survDataOf failed).Nodup :=
  (List.nodup_finRange nd).filter _

theorem length_eq_card_of_mem_iff {nd : Nat} (E : Finset (Fin nd))
    (F : List (Fin nd)) (hmem : ∀ d, d ∈ F ↔ d ∈ E) (hnodupF : F.Nodup) :
    F.length = E.card := by
  have hperm : List.Perm F (E.sort (· ≤ ·)) := by
    rw [List.perm_ext_iff_of_nodup hnodupF (Finset.sort_nodup _ _)]
    intro a
    rw [hmem a, Finset.mem_sort]
  rw [hperm.length_eq, Finset.length_sort]

theorem survDataOf_length {nd : Nat} (E : Finset (Fin nd)) (F : List (Fin nd))
    (hmem : ∀ d, d ∈ F ↔ d ∈ E) (hnodupF : F.Nodup) :
    (survDataOf F).length + E.card = nd := by
  have hsplit : (List.finRange nd).length =
      ((List.finRange nd).filter (fun d => decide (d ∉ F))).length +
      ((List.finRange nd).filter (fun x => !decide (x ∉ F))).length :=
    List.length_eq_length_filter_add _
  have hpermF : List.Perm ((List.finRange nd).filter (fun x => !decide (x ∉ F))) F := by
    rw [List.perm_ext_iff_of_nodup (List.Nodup.filter _ (List.nodup_finRange nd)) hnodupF]
    intro a
    simp
  have hlenF : F.length = E.card := length_eq_card_of_mem_iff E F hmem hnodupF
  have hfin : (List.finRange nd).length = nd := List.length_finRange nd
  have := hpermF.length_eq
  unfold survDataOf
  omega

theorem survRowsOf_getD_lt {nd : Nat} (F : List (Fin nd)) (i : Nat)
    (hi : i < (survDataOf F).length) :
    (survRowsOf F).getD i 0 = ((survDataOf F).get ⟨i, hi⟩ : Nat) := by
  unfold survRowsOf
  rw [List.getD_eq_getElem?_getD]
  rw [List.getElem?_append_left (by rw [List.length_map]; exact hi)]
  rw [List.getElem?_map]
  rw [List.getElem?_eq_getElem hi]
  rfl

theorem survRowsOf_getD_ge {nd : Nat} (F : List (Fin nd)) (i : Nat)
    (hi : ¬ i < (survDataOf F).length)
    (hlen : i - (survDataOf F).length < F.length) :
    (survRowsOf F).getD i 0 = nd + (i - (survDataOf F).length) := by
  unfold survRowsOf
  rw [List.getD_eq_getElem?_getD]
  rw [List.getElem?_append_right (by rw [List.length_map]; omega)]
  rw [List.length_map]
  rw [List.getElem?_map]
  rw [List.getElem?_eq_getElem (by rw [List.length_range]; exact hlen)]
  simp

theorem cauchy_block_kernel {K : Type} [Field K] (hchar : ∀ a : K, a + a = 0)
    {n : Type} [DecidableEq n]
    (E : Finset n) (β : n → K) (hβ : Set.InjOn β E)
    {nf : Nat} (hcard : E.card = nf)
    (α : Fin nf → K) (hα : Function.Injective α)
    (hαβ : ∀ (p : Fin nf), ∀ c ∈ E, α p + β c ≠ 0)
    (w : n → K)
    (hrows : ∀ p : Fin nf, ∑ c ∈ E, (α p + β c)⁻¹ * w c = 0) :
    ∀ c ∈ E, w c = 0 := by
  classical
  set P : Polynomial K :=
    ∑ c ∈ E, Polynomial.C (w c) * ∏ k ∈ E.erase c, (Polynomial.X + Polynomial.C (β k)) with hP
  have hev : ∀ x : K, P.eval x = ∑ c ∈ E, w c * ∏ k ∈ E.erase c, (x + β k) := by
    intro x
    simp [hP, Polynomial.eval_finset_sum, Polynomial.eval_prod]
  -- P vanishes at every α p
  have hroot : ∀ p : Fin nf, P.eval (α p) = 0 := by
    intro p
    rw [hev]
    have h1 : ∀ c ∈ E, w c * ∏ k ∈ E.erase c, (α p + β k)
        = (∏ k ∈ E, (α p + β k)) * ((α p + β c)⁻¹ * w c) := by
      intro c hc
      rw [← Finset.mul_prod_erase E (fun k => α p + β k) hc]
      have hne := hαβ p c hc
      field_simp
      ring
    rw [Finset.sum_congr rfl h1, ← Finset.mul_sum, hrows p, mul_zero]
  -- degree bound
  rcases E.eq_empty_or_nonempty with hE | hE
  · intro c hc; rw [hE] at hc; exact absurd hc (Finset.not_mem_empty c)
  have hnf1 : 1 ≤ nf := by
    rw [← hcard]
    exact Finset.card_pos.mpr hE
  have hdeg : P.natDegree ≤ nf - 1 := by
    rw [hP]
    refine Polynomial.natDegree_sum_le_of_forall_le _ _ ?_
    intro c hc
    have hple := Polynomial.natDegree_prod_le (E.erase c)
      (fun k => Polynomial.X + Polynomial.C (β k))
    have hsum : ∑ k ∈ E.erase c, (Polynomial.X + Polynomial.C (β k)).natDegree
        = (E.erase c).card := by
      rw [Finset.sum_congr rfl (fun k _ => Polynomial.natDegree_X_add_C (β k))]
      simp
    refine le_trans (Polynomial.natDegree_mul_le) ?_
    rw [Polynomial.natDegree_C]
    simp only [hsum] at hple
    refine le_trans (by simpa using hple) ?_
    rw [Finset.card_erase_of_mem hc, hcard]
  -- P has nf distinct roots, so P = 0
  have hP0 : P = 0 := by
    refine Polynomial.eq_zero_of_natDegree_lt_card_of_eval_eq_zero' P
      (Finset.image α Finset.univ) ?_ ?_
    · intro i hi
      rcases Finset.mem_image.mp hi with ⟨p, _, rfl⟩
      exact hroot p
    · rw [Finset.card_image_of_injective _ hα, Finset.card_univ, Fintype.card_fin]
      omega
  -- evaluate P at β c₀ for c₀ ∈ E
  intro c₀ hc₀
  have h0 : (0 : K) = w c₀ * ∏ k ∈ E.erase c₀, (β c₀ + β k) := by
    have := hev (β c₀)
    rw [hP0] at this
    simp only [Polynomial.eval_zero] at this
    rw [Finset.sum_eq_single_of_mem c₀ hc₀ ?_] at this
    · exact this
    · intro c hc hne
      have hc₀e : c₀ ∈ E.erase c := Finset.mem_erase.mpr ⟨fun h => hne h.symm, hc₀⟩
      rw [Finset.prod_eq_zero hc₀e (hchar (β c₀)), mul_zero]
  have hprod : (∏ k ∈ E.erase c₀, (β c₀ + β k)) ≠ 0 := by
    rw [Finset.prod_ne_zero_iff]
    intro k hk
    rcases Finset.mem_erase.mp hk with ⟨hkne, hkE⟩
    intro hzero
    have : β c₀ = β k := by
      have h1 : -(β k) = β c₀ := neg_eq_of_add_eq_zero_left hzero
      have h2 : -(β k) = β k := neg_eq_of_add_eq_zero_left (hchar (β k))
      rw [← h1, h2]
    exact hkne (hβ hkE hc₀ this.symm)
  rcases mul_eq_zero.mp h0.symm with h | h
  · exact h
  · exact absurd h hprod

theorem decMatrix_row_data {nd np : Nat} (enc : Matrix (Fin (nd + np)) (Fin nd) GF)
    (F : List (Fin nd)) (r : Fin nd) (hr : r.val < (survDataOf F).length)
    (c : Fin nd) :
    decMatrixOf enc F r c =
      enc ⟨((survDataOf F).get ⟨r.val, hr⟩ : Nat),
        Nat.lt_of_lt_of_le ((survDataOf F).get ⟨r.val, hr⟩).isLt
          (Nat.le_add_right nd np)⟩ c := by
  unfold decMatrixOf
  rw [Matrix.of_apply]
  rw [dif_pos ((survRowsOf_getD_lt F r.val hr) ▸
    (Nat.lt_of_lt_of_le ((survDataOf F).get ⟨r.val, hr⟩).isLt (Nat.le_add_right nd np)))]
  congr 1
  exact Fin.ext (survRowsOf_getD_lt F r.val hr)

theorem decMatrix_row_parity {nd np : Nat} (enc : Matrix (Fin (nd + np)) (Fin nd) GF)
    (F : List (Fin nd)) (r : Fin nd) (hr : ¬ r.val < (survDataOf F).length)
    (hlen : r.val - (survDataOf F).length < F.length) (hFnp : F.length ≤ np)
    (c : Fin nd) :
    decMatrixOf enc F r c =
      enc ⟨nd + (r.val - (survDataOf F).length), by omega⟩ c := by
  unfold decMatrixOf
  rw [Matrix.of_apply]
  rw [dif_pos ((survRowsOf_getD_ge F r.val hr hlen) ▸ (show nd + (r.val - (survDataOf F).length) < nd + np by omega))]
  congr 1
  exact Fin.ext (survRowsOf_getD_ge F r.val hr hlen)

theorem decMatrix_det_ne_zero
    (hchar : ∀ a : GF, a + a = 0)
    (ι : Nat → GF)
    (hι_inj : ∀ x y, x < 256 → y < 256 → ι x = ι y → x = y)
    (hι_add : ∀ x y, x < 256 → y < 256 → ι x + ι y = ι (x ^^^ y))
    {nd np : Nat} (hbytes : nd + np ≤ 256)
    (enc : Matrix (Fin (nd + np)) (Fin nd) GF)
    (henc_data : ∀ (i : Fin (nd + np)) (j : Fin nd), (i : Nat) < nd →
      enc i j = if i.val = j.val then 1 else 0)
    (henc_par : ∀ (i : Fin (nd + np)) (j : Fin nd), nd ≤ (i : Nat) →
      enc i j = (ι (i.val ^^^ j.val))⁻¹)
    (E : Finset (Fin nd)) (F : List (Fin nd))
    (hmem : ∀ d, d ∈ F ↔ d ∈ E) (hnodupF : F.Nodup)
    (hFnp : F.length ≤ np) :
    (decMatrixOf enc F).det ≠ 0 := by
  intro hdet
  obtain ⟨w, hw0, hwv⟩ := Matrix.exists_mulVec_eq_zero_iff.mpr hdet
  have hlen : (survDataOf F).length + E.card = nd := survDataOf_length E F hmem hnodupF
  have hFcard : F.length = E.card := length_eq_card_of_mem_iff E F hmem hnodupF
  have hrow0 : ∀ r : Fin nd, (∑ c, decMatrixOf enc F r c * w c) = 0 := by
    intro r
    have := congrFun hwv r
    simpa [Matrix.mulVec, Matrix.dotProduct] using this
  -- surviving data rows force w to vanish off E
  have hstep1 : ∀ d : Fin nd, d ∉ E → w d = 0 := by
    intro d hdE
    have hdF : d ∈ survDataOf F := (survDataOf_mem F d).mpr (fun h => hdE ((hmem d).mp h))
    obtain ⟨⟨i, hi⟩, hgeti⟩ := List.mem_iff_get.mp hdF
    have hind : i < nd := by omega
    have hr0 := hrow0 ⟨i, hind⟩
    rw [Finset.sum_congr rfl (fun c _ => by
      rw [decMatrix_row_data enc F ⟨i, hind⟩ hi c,
        henc_data _ c (((survDataOf F).get ⟨i, hi⟩).isLt)])] at hr0
    rw [delta_row_sum ((survDataOf F).get ⟨i, hi⟩) w] at hr0
    rw [hgeti] at hr0
    exact hr0
  -- parity rows give the Cauchy relations on E
  have hstep2 : ∀ q : Fin F.length,
      (∑ c ∈ E, (ι (nd + q.val) + ι c.val)⁻¹ * w c) = 0 := by
    intro q
    have hq := q.isLt
    have hind : (survDataOf F).length + q.val < nd := by omega
    have hr0 := hrow0 ⟨(survDataOf F).length + q.val, hind⟩
    have hnlt : ¬ ((survDataOf F).length + q.val) < (survDataOf F).length := by omega
    have hsub : (survDataOf F).length + q.val - (survDataOf F).length = q.val := by omega
    rw [Finset.sum_congr rfl (fun c _ => by
      rw [decMatrix_row_parity enc F ⟨(survDataOf F).length + q.val, hind⟩ hnlt
        (by omega) hFnp c,
        henc_par _ c (by simp [hsub])])] at hr0
    simp only [hsub] at hr0
    have huniv : (∑ c ∈ E, (ι ((nd + q.val) ^^^ c.val))⁻¹ * w c)
        = ∑ c, (ι ((nd + q.val) ^^^ c.val))⁻¹ * w c := by
      refine Finset.sum_subset (Finset.subset_univ E) ?_
      intro c _ hcE
      rw [hstep1 c hcE, mul_zero]
    rw [Finset.sum_congr rfl (fun c hc => by
      rw [hι_add (nd + q.val) c.val (by omega) (by omega)])]
    rw [huniv]
    exact hr0
  -- kernel argument
  have hker : ∀ c ∈ E, w c = 0 := by
    refine cauchy_block_kernel hchar E (fun c => ι c.val) ?_ hFcard.symm
      (fun q => ι (nd + q.val)) ?_ ?_ w ?_
    · intro a ha b hb hab
      exact Fin.ext (hι_inj a.val b.val (by omega) (by omega) hab)
    · intro q1 q2 h
      have := hι_inj (nd + q1.val) (nd + q2.val) (by omega) (by omega) h
      exact Fin.ext (by omega)
    · intro q c hc h0
      have hn : -(ι c.val) = ι (nd + q.val) := neg_eq_of_add_eq_zero_left h0
      have hn2 : -(ι c.val) = ι c.val := neg_eq_of_add_eq_zero_left (hchar (ι c.val))
      have h1 : ι c.val = ι (nd + q.val) := hn2.symm.trans hn
      have := hι_inj c.val (nd + q.val) (by omega) (by omega) h1
      omega
    · exact hstep2
  refine hw0 ?_
  funext d
  by_cases hd : d ∈ E
  · exact hker d hd
  · exact hstep1 d hd

theorem parity_recover_correct
    (hchar : ∀ a : GF, a + a = 0)
    (ι : Nat → GF)
    (hι_inj : ∀ x y, x < 256 → y < 256 → ι x = ι y → x = y)
    (hι_add : ∀ x y, x < 256 → y < 256 → ι x + ι y = ι (x ^^^ y))
    (nd np bs : Nat) (hnp : 0 < np) (hbytes : nd + np ≤ 256)
    (enc : Matrix (Fin (nd + np)) (Fin nd) GF)
    (henc_data : ∀ (i : Fin (nd + np)) (j : Fin nd), (i : Nat) < nd →
      enc i j = if i.val = j.val then 1 else 0)
    (henc_par : ∀ (i : Fin (nd + np)) (j : Fin nd), nd ≤ (i : Nat) →
      enc i j = (ι (i.val ^^^ j.val))⁻¹)
    (data : Fin nd → Fin bs → GF)
    (E : Finset (Fin nd)) (hEcard : E.card ≤ np)
    (f : Fin nd) (hf : f ∈ E)
    (parityRead : Fin np → Option (Fin bs → GF))
    (hpr : ∀ p : Fin np, parityRead p =
      some (fun t => ∑ j, enc ⟨nd + p.val, Nat.add_lt_add_left p.isLt nd⟩ j * data j t)) :
    parity_recover_block nd np bs enc
      (fun d => if d ∈ E then BlockRead.unreadable else BlockRead.content (data d))
      parityRead f = some (data f) := by
  have hfs : failSetOf
      (fun d => if d ∈ E then BlockRead.unreadable else BlockRead.content (data d)) f = E := by
    ext a
    simp only [failSetOf, Finset.mem_insert, Finset.mem_filter, Finset.mem_univ, true_and]
    constructor
    · rintro (rfl | hunr)
      · exact hf
      · by_cases haE : a ∈ E
        · exact haE
        · exfalso
          revert hunr
          simp [haE, BlockRead.isUnreadable]
    · intro haE
      right
      simp [haE, BlockRead.isUnreadable]
  have hcard2 : (failSetOf
      (fun d => if d ∈ E then BlockRead.unreadable else BlockRead.content (data d)) f).card ≤ np := by
    rw [hfs]
    exact hEcard
  have hdF := detectFailures_eq np f
    (fun d => if d ∈ E then BlockRead.unreadable else BlockRead.content (data d)) hcard2
  rw [hfs] at hdF
  have hmemF : ∀ d, d ∈ E.sort (· ≤ ·) ↔ d ∈ E := fun d => Finset.mem_sort _
  have hndF : (E.sort (· ≤ ·)).Nodup := Finset.sort_nodup _ _
  have hlenF : (E.sort (· ≤ ·)).length = E.card := Finset.length_sort _
  have hlenS : (survDataOf (E.sort (· ≤ ·))).length + E.card = nd :=
    survDataOf_length E _ hmemF hndF
  have hdet : (decMatrixOf enc (E.sort (· ≤ ·))).det ≠ 0 :=
    decMatrix_det_ne_zero hchar ι hι_inj hι_add hbytes enc henc_data henc_par
      E _ hmemF hndF (by omega)
  have hInv : gfMatInv (decMatrixOf enc (E.sort (· ≤ ·))) =
      some ((decMatrixOf enc (E.sort (· ≤ ·))).det⁻¹ •
        (decMatrixOf enc (E.sort (· ≤ ·))).adjugate) := by
    unfold gfMatInv
    rw [dif_neg hdet]
  have hImul : ((decMatrixOf enc (E.sort (· ≤ ·))).det⁻¹ •
      (decMatrixOf enc (E.sort (· ≤ ·))).adjugate) * decMatrixOf enc (E.sort (· ≤ ·)) = 1 := by
    rw [Matrix.smul_mul, Matrix.adjugate_mul, smul_smul, inv_mul_cancel₀ hdet, one_smul]
  have h2 : parity_recover_block nd np bs enc
      (fun d => if d ∈ E then BlockRead.unreadable else BlockRead.content (data d))
      parityRead f =
      (match gfMatInv (decMatrixOf enc (E.sort (· ≤ ·))) with
       | none => none
       | some inv => some (fun t => ∑ r, inv f r *
           srcVecOf (E.sort (· ≤ ·))
             (fun d => if d = f then (fun _ => 0)
               else dataSlot (if d ∈ E then BlockRead.unreadable else BlockRead.content (data d)))
             parityRead r t)) := by
    unfold parity_recover_block
    rw [if_neg (by omega), hdF]
  have h3 : (match gfMatInv (decMatrixOf enc (E.sort (· ≤ ·))) with
       | none => none
       | some inv => some (fun t => ∑ r, inv f r *
           srcVecOf (E.sort (· ≤ ·))
             (fun d => if d = f then (fun _ => 0)
               else dataSlot (if d ∈ E then BlockRead.unreadable else BlockRead.content (data d)))
             parityRead r t)) =
      some (fun t => ∑ r, ((decMatrixOf enc (E.sort (· ≤ ·))).det⁻¹ •
          (decMatrixOf enc (E.sort (· ≤ ·))).adjugate) f r *
        srcVecOf (E.sort (· ≤ ·))
          (fun d => if d = f then (fun _ => 0)
            else dataSlot (if d ∈ E then BlockRead.unreadable else BlockRead.content (data d)))
          parityRead r t) := by
    rw [hInv]
  have hsrc : ∀ t : Fin bs, (fun r => srcVecOf (E.sort (· ≤ ·))
      (fun d => if d = f then (fun _ => 0)
        else dataSlot (if d ∈ E then BlockRead.unreadable else BlockRead.content (data d)))
      parityRead r t) =
      (decMatrixOf enc (E.sort (· ≤ ·))).mulVec (fun c => data c t) := by
    intro t
    funext r
    by_cases hr : r.val < (survDataOf (E.sort (· ≤ ·))).length
    · have hgmem : (survDataOf (E.sort (· ≤ ·))).get ⟨r.val, hr⟩ ∉ E := by
        intro hcon
        have hin : (survDataOf (E.sort (· ≤ ·))).get ⟨r.val, hr⟩ ∈
            survDataOf (E.sort (· ≤ ·)) := List.get_mem _ r.val hr
        exact ((survDataOf_mem _ _).mp hin) ((hmemF _).mpr hcon)
      have hgne : ¬ ((survDataOf (E.sort (· ≤ ·))).get ⟨r.val, hr⟩ = f) := by
        intro hcon
        exact hgmem (hcon ▸ hf)
      have hLHS : srcVecOf (E.sort (· ≤ ·))
          (fun d => if d = f then (fun _ => 0)
            else dataSlot (if d ∈ E then BlockRead.unreadable else BlockRead.content (data d)))
          parityRead r t = data ((survDataOf (E.sort (· ≤ ·))).get ⟨r.val, hr⟩) t := by
        unfold srcVecOf
        rw [dif_pos hr]
        simp only [if_neg hgne, if_neg hgmem]
        rfl
      rw [hLHS]
      show data ((survDataOf (E.sort (· ≤ ·))).get ⟨r.val, hr⟩) t
          = ∑ c, decMatrixOf enc (E.sort (· ≤ ·)) r c * data c t
      refine Eq.trans (delta_row_sum ((survDataOf (E.sort (· ≤ ·))).get ⟨r.val, hr⟩)
        (fun c => data c t)).symm ?_
      refine Finset.sum_congr rfl (fun c _ => ?_)
      rw [decMatrix_row_data enc _ r hr c,
        henc_data _ c (((survDataOf (E.sort (· ≤ ·))).get ⟨r.val, hr⟩).isLt)]
    · have hq : r.val - (survDataOf (E.sort (· ≤ ·))).length < (E.sort (· ≤ ·)).length := by
        have := r.isLt
        omega
    
      have hgetd : (survRowsOf (E.sort (· ≤ ·))).getD r.val 0 =
          nd + (r.val - (survDataOf (E.sort (· ≤ ·))).length) :=
        survRowsOf_getD_ge _ r.val hr hq
      have hpnp : (survRowsOf (E.sort (· ≤ ·))).getD r.val 0 - nd < np := by
        rw [hgetd]
        omega
      have hLHS : srcVecOf (E.sort (· ≤ ·))
          (fun d => if d = f then (fun _ => 0)
            else dataSlot (if d ∈ E then BlockRead.unreadable else BlockRead.content (data d)))
          parityRead r t =
          ∑ j, enc ⟨nd + (r.val - (survDataOf (E.sort (· ≤ ·))).length),
            by omega⟩ j * data j t := by
        unfold srcVecOf
        rw [dif_neg hr, dif_pos hpnp, hpr, Option.getD_some]
        refine Finset.sum_congr rfl (fun j _ => ?_)
        refine congrArg (fun z => enc z j * data j t) (Fin.ext ?_)
        simp only [Fin.val_mk]
        rw [hgetd]
        omega
      rw [hLHS]
      show (∑ j, enc ⟨nd + (r.val - (survDataOf (E.sort (· ≤ ·))).length),
          by omega⟩ j * data j t)
          = ∑ c, decMatrixOf enc (E.sort (· ≤ ·)) r c * data c t
      refine Finset.sum_congr rfl (fun c _ => ?_)
      rw [decMatrix_row_parity enc _ r hr hq (by omega) c]
  refine (h2.trans h3).trans ?_
  refine congrArg some ?_
  funext t
  rw [Finset.sum_congr rfl (fun r _ => by rw [congrFun (hsrc t) r])]
  have hmv : (∑ r, ((decMatrixOf enc (E.sort (· ≤ ·))).det⁻¹ •
      (decMatrixOf enc (E.sort (· ≤ ·))).adjugate) f r *
      (decMatrixOf enc (E.sort (· ≤ ·))).mulVec (fun c => data c t) r) =
      (((decMatrixOf enc (E.sort (· ≤ ·))).det⁻¹ •
        (decMatrixOf enc (E.sort (· ≤ ·))).adjugate).mulVec
        ((decMatrixOf enc (E.sort (· ≤ ·))).mulVec (fun c => data c t))) f := by
    simp [Matrix.mulVec, Matrix.dotProduct]
  rw [hmv, Matrix.mulVec_mulVec, hImul, Matrix.one_mulVec]

/-- C1: the parity law. With `nd` data drives and `1 ≤ np` parity levels,
`nd + np ≤ 256`, and any assignment of data blocks at one position:
`parity_update_position` writes exactly the `np` parity blocks obtained by
encoding the data with the parity rows of the cauchy1 matrix, and for
every erasure set `E` of at most `np` data drives, `parity_recover_block`
called for an erased drive `f ∈ E` — with the erased drives unreadable,
the others intact, and the written parity blocks readable — returns block
content identical to the pre-erasure data of drive `f`. -/
theorem c1_parity_law (nd np bs : Nat) (hnp : 0 < np) (hbytes : nd + np ≤ 256)
    (data : Fin nd → Fin bs → GF)
    (E : Finset (Fin nd)) (hE : E.card ≤ np) (f : Fin nd) (hf : f ∈ E) :
    (parity_update_position nd np bs (gf_gen_cauchy1_matrix (nd + np) nd)
        (fun d => BlockRead.content (data d))).writes =
      (List.finRange np).map (fun p => (p,
        ec_encode_data (parityRows (gf_gen_cauchy1_matrix (nd + np) nd)) data p)) ∧
    parity_recover_block nd np bs (gf_gen_cauchy1_matrix (nd + np) nd)
      (fun d => if d ∈ E then BlockRead.unreadable else BlockRead.content (data d))
      (fun p => some (ec_encode_data (parityRows (gf_gen_cauchy1_matrix (nd + np) nd)) data p))
      f = some (data f) := by
  constructor
  · unfold parity_update_position
    rw [if_neg (by omega)]
    rfl
  · exact parity_recover_correct GF.add_self gfOfByte gfOfByte_inj gfOfByte_add
      nd np bs hnp hbytes (gf_gen_cauchy1_matrix (nd + np) nd)
      (cauchy1_data_row nd np) (cauchy1_parity_row nd np) data E hE f hf
      (fun p => some (ec_encode_data (parityRows (gf_gen_cauchy1_matrix (nd + np) nd)) data p))
      (fun p => rfl)

theorem c1_parity_law_witness :
    0 < 1 ∧ 1 + 1 ≤ 256 ∧ ({0} : Finset (Fin 1)).card ≤ 1 ∧
    (0 : Fin 1) ∈ ({0} : Finset (Fin 1)) ∧
    ((parity_update_position 1 1 1 (gf_gen_cauchy1_matrix (1 + 1) 1)
        (fun d => BlockRead.content ((fun (_ : Fin 1) (_ : Fin 1) => (1 : GF)) d))).writes =
      (List.finRange 1).map (fun p => (p,
        ec_encode_data (parityRows (gf_gen_cauchy1_matrix (1 + 1) 1))
          (fun (_ : Fin 1) (_ : Fin 1) => (1 : GF)) p)) ∧
    parity_recover_block 1 1 1 (gf_gen_cauchy1_matrix (1 + 1) 1)
      (fun d => if d ∈ ({0} : Finset (Fin 1)) then BlockRead.unreadable
        else BlockRead.content ((fun (_ : Fin 1) (_ : Fin 1) => (1 : GF)) d))
      (fun p => some (ec_encode_data (parityRows (gf_gen_cauchy1_matrix (1 + 1) 1))
        (fun (_ : Fin 1) (_ : Fin 1) => (1 : GF)) p))
      0 = some ((fun (_ : Fin 1) (_ : Fin 1) => (1 : GF)) 0)) :=
  ⟨by decide, by decide, by decide, by decide,
    c1_parity_law 1 1 1 (by decide) (by decide) (fun _ _ => 1) {0} (by decide) 0 (by decide)⟩

end LiveRaid

namespace LiveRaid

/-! ## Drive selection (src/state.c, state_pick_drive) and the position
index (state_rebuild_pos_index / state_find_file_at_pos) -/

/-- Placement-policy constants from src/config.h. -/
def LR_PLACE_MOSTFREE : Nat := 0

def LR_PLACE_ROUNDROBIN : Nat := 1

/-- src/config.h: "least free space: fill fullest drive first". -/
def LR_PLACE_LFS : Nat := 2

/-- src/config.h: "probabilistic: weighted random by free space". -/
def LR_PLACE_PFRD : Nat := 3

/-- 2^64, the modulus of uint64_t arithmetic. -/
def U64 : Nat := 18446744073709551616

/-- The fields of `lr_state` read and written by `state_pick_drive`. -/
structure PickState where
  drive_count : Nat
  placement_policy : Nat
  rr_next : Nat
deriving DecidableEq, Repr

/-- `state_pick_drive` from src/state.c (lines 146-172). `statvfs` maps a
drive index to `(f_bavail, f_frsize)` of its backing filesystem, `none`
when the call fails. Zero drives returns UINT32_MAX; ROUNDROBIN returns
the counter modulo the count and bumps it; EVERY other policy runs the
MOSTFREE loop: best drive starts at 0 with best_free 0, a drive beats it
only with strictly more free bytes. -/
def state_pick_drive (s : PickState) (statvfs : Nat → Option (Nat × Nat)) :
    Nat × PickState :=
  if s.drive_count = 0 then (4294967295, s)
  else if s.placement_policy = LR_PLACE_ROUNDROBIN then
    (s.rr_next % s.drive_count, { s with rr_next := s.rr_next + 1 })
  else
    (((List.range s.drive_count).foldl
      (fun (acc : Nat × Nat) i =>
        match statvfs i with
        | some sv =>
          if sv.1 * sv.2 % U64 > acc.2 then (i, sv.1 * sv.2 % U64) else acc
        | none => acc) (0, 0)).1, s)

/-- Per-file record, after `lr_file` in src/state.h (paths as strings,
the C pointer identity replaced by the record itself). -/
structure lr_file where
  vpath : String
  real_path : String
  drive_idx : Nat
  size : Int
  block_count : Nat
  parity_pos_start : Nat
  mtime_sec : Int
  mtime_nsec : Int
  mode : Nat
  uid : Nat
  gid : Nat
  open_count : Int
deriving DecidableEq, Repr, Inhabited

/-- Position-index entry, after `lr_pos_entry` in src/state.h. -/
structure lr_pos_entry where
  pos_start : Nat
  block_count : Nat
  file : lr_file
deriving DecidableEq, Repr, Inhabited

/-- `state_rebuild_pos_index` from src/state.c (lines 187-226): collect
the drive's files from the file list, then sort by `pos_start` (qsort
with `pos_entry_cmp`, modelled by an insertion sort on the same key). -/
def state_rebuild_pos_index (file_list : List lr_file) (drive_idx : Nat) :
    List lr_pos_entry :=
  List.insertionSort (fun a b => a.pos_start ≤ b.pos_start)
    ((file_list.filter (fun f => decide (f.drive_idx = drive_idx))).map
      (fun f =>
        { pos_start := f.parity_pos_start, block_count := f.block_count,
          file := f }))

/-- The uint32 end position `e->pos_start + e->block_count` computed by
`state_find_file_at_pos`. -/
def entryEnd (e : lr_pos_entry) : Nat := (e.pos_start + e.block_count) % U32

/-- The binary-search loop of `state_find_file_at_pos` (lines 234-243 of
src/state.c), with `int lo, hi` and explicit fuel: the window shrinks
at every iteration, so `count + 1` iterations always terminate the C
loop, and the fuel is never exhausted when called with that bound. -/
def findLoop (arr : List lr_pos_entry) (pos : Nat) :
    Nat → Int → Int → Option lr_file
  | 0, _, _ => none
  | fuel+1, lo, hi =>
    if lo ≤ hi then
      let mid := lo + (hi - lo) / 2
      let e := arr.getD mid.toNat default
      if pos ≥ e.pos_start ∧ pos < entryEnd e then some e.file
      else if pos < e.pos_start then findLoop arr pos fuel lo (mid - 1)
      else findLoop arr pos fuel (mid + 1) hi
    else none

/-- `state_find_file_at_pos` from src/state.c (lines 228-245): binary
search of the sorted position index for an entry whose range
`[pos_start, pos_start + block_count)` contains `pos`. -/
def state_find_file_at_pos (arr : List lr_pos_entry) (pos : Nat) :
    Option lr_file :=
  findLoop arr pos (arr.length + 1) 0 ((arr.length : Int) - 1)

/-- C6: the configured LFS placement policy ("least free space" per
src/config.h and the spec) is not implemented: `state_pick_drive` has
branches only for a zero drive count and ROUNDROBIN, so LFS (and PFRD)
fall through to the MOSTFREE loop. With two drives holding 100 and 50
free bytes, LFS returns drive 0 — the MOST-free drive — where the spec
requires drive 1, the least-free one. -/
theorem c6_lfs_not_implemented (s : PickState) (statvfs : Nat → Option (Nat × Nat))
    (hpol : ¬ s.placement_policy = LR_PLACE_ROUNDROBIN) :
    (state_pick_drive s statvfs).1 =
      (state_pick_drive
        { drive_count := s.drive_count,
          placement_policy := LR_PLACE_MOSTFREE,
          rr_next := s.rr_next } statvfs).1 ∧
    (state_pick_drive { drive_count := 2, placement_policy := LR_PLACE_LFS, rr_next := 0 }
      (fun i => if i = 0 then some (100, 1) else some (50, 1))).1 = 0 ∧
    ((state_pick_drive { drive_count := 2, placement_policy := LR_PLACE_LFS, rr_next := 0 }
      (fun i => if i = 0 then some (100, 1) else some (50, 1))).1 = 1 → False) := by
  refine ⟨?_, by decide, by decide⟩
  simp only [LR_PLACE_ROUNDROBIN] at hpol
  by_cases h0 : s.drive_count = 0 <;>
    simp [state_pick_drive, hpol, LR_PLACE_MOSTFREE, LR_PLACE_ROUNDROBIN, h0]

theorem c6_lfs_not_implemented_witness :
    ¬ (({ drive_count := 2, placement_policy := LR_PLACE_LFS, rr_next := 0 } :
      PickState).placement_policy = LR_PLACE_ROUNDROBIN) ∧
    ((state_pick_drive { drive_count := 2, placement_policy := LR_PLACE_LFS, rr_next := 0 }
      (fun i => if i = 0 then some (100, 1) else some (50, 1))).1 =
      (state_pick_drive { drive_count := 2, placement_policy := LR_PLACE_MOSTFREE, rr_next := 0 }
        (fun i => if i = 0 then some (100, 1) else some (50, 1))).1) :=
  ⟨by decide,
    (c6_lfs_not_implemented { drive_count := 2, placement_policy := LR_PLACE_LFS, rr_next := 0 }
      (fun i => if i = 0 then some (100, 1) else some (50, 1)) (by decide)).1⟩

theorem start_le_entryEnd (arr : List lr_pos_entry)
    (hbound : ∀ e ∈ arr, e.pos_start + e.block_count < U32)
    (i : Nat) (hi : i < arr.length) :
    (arr.get ⟨i, hi⟩).pos_start ≤ entryEnd (arr.get ⟨i, hi⟩) := by
  have hb := hbound _ (List.get_mem arr i hi)
  unfold entryEnd
  rw [Nat.mod_eq_of_lt hb]
  omega

theorem entry_sep_get (arr : List lr_pos_entry)
    (hbound : ∀ e ∈ arr, e.pos_start + e.block_count < U32)
    (hsep : List.Chain' (fun a b => entryEnd a ≤ b.pos_start) arr) :
    ∀ (i j : Nat) (hij : i < j) (hj : j < arr.length),
      entryEnd (arr.get ⟨i, by omega⟩) ≤ (arr.get ⟨j, hj⟩).pos_start := by
  intro i j
  induction j with
  | zero => intro hij _; omega
  | succ j ihj =>
    intro hij hjlen
    by_cases hij2 : i = j
    · subst hij2
      exact List.chain'_iff_get.mp hsep i (by omega)
    · have h1 := ihj (by omega) (by omega)
      have h2 := List.chain'_iff_get.mp hsep j (by omega)
      have h3 := start_le_entryEnd arr hbound j (by omega)
      exact le_trans h1 (le_trans h3 h2)

theorem findLoop_none (arr : List lr_pos_entry) (pos : Nat)
    (hnone : ∀ e ∈ arr, ¬ (e.pos_start ≤ pos ∧ pos < entryEnd e)) :
    ∀ (fuel : Nat) (lo hi : Int), 0 ≤ lo → findLoop arr pos fuel lo hi = none := by
  intro fuel
  induction fuel with
  | zero => intro lo hi _; rfl
  | succ fuel ih =>
    intro lo hi hlo
    simp only [findLoop]
    by_cases hlh : lo ≤ hi
    · rw [if_pos hlh]
      have hne : ¬ (pos ≥ (arr.getD (lo + (hi - lo) / 2).toNat default).pos_start ∧
          pos < entryEnd (arr.getD (lo + (hi - lo) / 2).toNat default)) := by
        by_cases hidx : (lo + (hi - lo) / 2).toNat < arr.length
        · have hmem : arr.getD (lo + (hi - lo) / 2).toNat default ∈ arr := by
            rw [List.getD_eq_getElem?_getD, List.getElem?_eq_getElem hidx,
              Option.getD_some]
            exact List.getElem_mem hidx
          intro hcon
          exact hnone _ hmem ⟨hcon.1, hcon.2⟩
        · have hdef : arr.getD (lo + (hi - lo) / 2).toNat default = default := by
            rw [List.getD_eq_getElem?_getD, List.getElem?_eq_none (by omega)]
            rfl
          rw [hdef]
          intro hcon
          have h0 : entryEnd (default : lr_pos_entry) = 0 := rfl
          omega
      rw [if_neg hne]
      by_cases hpe : pos < (arr.getD (lo + (hi - lo) / 2).toNat default).pos_start
      · rw [if_pos hpe]
        exact ih lo _ hlo
      · rw [if_neg hpe]
        exact ih _ hi (by omega)
    · rw [if_neg hlh]

theorem findLoop_found (arr : List lr_pos_entry) (pos : Nat)
    (hbound : ∀ e ∈ arr, e.pos_start + e.block_count < U32)
    (hsep : List.Chain' (fun a b => entryEnd a ≤ b.pos_start) arr)
    (k : Nat) (hk : k < arr.length)
    (hcov1 : (arr.get ⟨k, hk⟩).pos_start ≤ pos)
    (hcov2 : pos < entryEnd (arr.get ⟨k, hk⟩)) :
    ∀ (fuel : Nat) (lo hi : Int), (hi + 1 - lo).toNat ≤ fuel → 0 ≤ lo →
      hi < (arr.length : Int) → lo ≤ (k : Int) → (k : Int) ≤ hi →
      findLoop arr pos fuel lo hi = some ((arr.get ⟨k, hk⟩).file) := by
  intro fuel
  induction fuel with
  | zero =>
    intro lo hi hn h0 hlen hlok hkhi
    exfalso
    omega
  | succ fuel ih =>
    intro lo hi hn h0 hlen hlok hkhi
    have hlh : lo ≤ hi := le_trans hlok hkhi
    simp only [findLoop]
    rw [if_pos hlh]
    have hmlen : (lo + (hi - lo) / 2).toNat < arr.length := by omega
    have hgetD : arr.getD (lo + (hi - lo) / 2).toNat default =
        arr.get ⟨(lo + (hi - lo) / 2).toNat, hmlen⟩ := by
      rw [List.getD_eq_getElem?_getD, List.getElem?_eq_getElem hmlen,
        Option.getD_some]
      rfl
    rw [hgetD]
    by_cases hcovm : pos ≥ (arr.get ⟨(lo + (hi - lo) / 2).toNat, hmlen⟩).pos_start ∧
        pos < entryEnd (arr.get ⟨(lo + (hi - lo) / 2).toNat, hmlen⟩)
    · rw [if_pos hcovm]
      have hkm : k = (lo + (hi - lo) / 2).toNat := by
        by_contra hne
        rcases Nat.lt_or_ge k (lo + (hi - lo) / 2).toNat with hlt | hge
        · have hs := entry_sep_get arr hbound hsep k (lo + (hi - lo) / 2).toNat hlt hmlen
          exact absurd (Nat.lt_of_lt_of_le hcov2 (le_trans hs hcovm.1)) (Nat.lt_irrefl pos)
        · have hlt2 : (lo + (hi - lo) / 2).toNat < k := by omega
          have hs := entry_sep_get arr hbound hsep (lo + (hi - lo) / 2).toNat k hlt2 hk
          exact absurd (Nat.lt_of_lt_of_le hcovm.2 (le_trans hs hcov1)) (Nat.lt_irrefl pos)
      refine congrArg (fun e => some e.file) (congrArg arr.get (Fin.ext ?_))
      exact hkm.symm
    · rw [if_neg hcovm]
      by_cases hpe : pos < (arr.get ⟨(lo + (hi - lo) / 2).toNat, hmlen⟩).pos_start
      · rw [if_pos hpe]
        have hkm : k < (lo + (hi - lo) / 2).toNat := by
          rcases Nat.lt_or_ge k (lo + (hi - lo) / 2).toNat with h | h
          · exact h
          · exfalso
            by_cases heq : k = (lo + (hi - lo) / 2).toNat
            · subst heq
              exact absurd (Nat.lt_of_lt_of_le hpe hcov1) (Nat.lt_irrefl pos)
            · have hlt2 : (lo + (hi - lo) / 2).toNat < k := by omega
              have hs := entry_sep_get arr hbound hsep (lo + (hi - lo) / 2).toNat k hlt2 hk
              have hb := start_le_entryEnd arr hbound (lo + (hi - lo) / 2).toNat hmlen
              exact Nat.lt_irrefl pos
                (Nat.lt_of_lt_of_le hpe (le_trans hb (le_trans hs hcov1)))
        exact ih lo (lo + (hi - lo) / 2 - 1) (by omega) h0 (by omega) hlok (by omega)
      · rw [if_neg hpe]
        have hsm : (arr.get ⟨(lo + (hi - lo) / 2).toNat, hmlen⟩).pos_start ≤ pos := by omega
        have hkm : (lo + (hi - lo) / 2).toNat < k := by
          rcases Nat.lt_or_ge (lo + (hi - lo) / 2).toNat k with h | h
          · exact h
          · exfalso
            by_cases heq : k = (lo + (hi - lo) / 2).toNat
            · subst heq
              exact hcovm ⟨hcov1, hcov2⟩
            · have hlt2 : k < (lo + (hi - lo) / 2).toNat := by omega
              have hs := entry_sep_get arr hbound hsep k (lo + (hi - lo) / 2).toNat hlt2 hmlen
              exact Nat.lt_irrefl pos (Nat.lt_of_lt_of_le hcov2 (le_trans hs hsm))
        exact ih (lo + (hi - lo) / 2 + 1) hi (by omega) (by omega) hlen (by omega) hkhi

theorem rebuild_pos_index_mem (file_list : List lr_file) (d : Nat) (e : lr_pos_entry) :
    e ∈ state_rebuild_pos_index file_list d ↔
      ∃ f ∈ file_list, f.drive_idx = d ∧
        e = { pos_start := f.parity_pos_start, block_count := f.block_count,
              file := f } := by
  unfold state_rebuild_pos_index
  rw [List.mem_insertionSort]
  constructor
  · intro h
    rcases List.mem_map.mp h with ⟨f, hf, hfe⟩
    rcases List.mem_filter.mp hf with ⟨hfl, hfd⟩
    exact ⟨f, hfl, by simpa using hfd, hfe.symm⟩
  · rintro ⟨f, hfl, hfd, rfl⟩
    exact List.mem_map.mpr ⟨f, List.mem_filter.mpr ⟨hfl, by simpa using hfd⟩, rfl⟩

/-- C5: the position-index law as stated — pairwise non-overlapping
ranges — is refuted by `c5_pos_index_counterexample` below (an empty
range sitting inside a covering range derails the binary search), and
holds in this amended form: if the rebuilt index is chain-separated
(each entry ends at or before the next begins — the invariant actual
allocator-produced states satisfy), `state_find_file_at_pos` returns
exactly the file whose range `[pos_start, pos_start + block_count)`
contains `pos`, and `none` when no file's range contains `pos`. -/
theorem c5_pos_index (file_list : List lr_file) (d : Nat) (pos : Nat)
    (hbound : ∀ f ∈ file_list, f.parity_pos_start + f.block_count < U32)
    (hsep : List.Chain' (fun a b => entryEnd a ≤ b.pos_start)
      (state_rebuild_pos_index file_list d)) :
    (∀ f ∈ file_list, f.drive_idx = d →
      f.parity_pos_start ≤ pos → pos < f.parity_pos_start + f.block_count →
      state_find_file_at_pos (state_rebuild_pos_index file_list d) pos = some f) ∧
    ((∀ f ∈ file_list, f.drive_idx = d →
        ¬ (f.parity_pos_start ≤ pos ∧ pos < f.parity_pos_start + f.block_count)) →
      state_find_file_at_pos (state_rebuild_pos_index file_list d) pos = none) := by
  have hboundArr : ∀ e ∈ state_rebuild_pos_index file_list d,
      e.pos_start + e.block_count < U32 := by
    intro e he
    rcases (rebuild_pos_index_mem file_list d e).mp he with ⟨f, hf, _, rfl⟩
    exact hbound f hf
  constructor
  · intro f hf hd h1 h2
    have he :
        ({ pos_start := f.parity_pos_start, block_count := f.block_count,
           file := f } : lr_pos_entry) ∈ state_rebuild_pos_index file_list d :=
      (rebuild_pos_index_mem file_list d _).mpr ⟨f, hf, hd, rfl⟩
    obtain ⟨⟨k, hk⟩, hgetk⟩ := List.mem_iff_get.mp he
    have hcov1 : ((state_rebuild_pos_index file_list d).get ⟨k, hk⟩).pos_start ≤ pos := by
      rw [hgetk]
      exact h1
    have hcov2 : pos < entryEnd ((state_rebuild_pos_index file_list d).get ⟨k, hk⟩) := by
      rw [hgetk]
      unfold entryEnd
      rw [Nat.mod_eq_of_lt (hbound f hf)]
      exact h2
    unfold state_find_file_at_pos
    rw [findLoop_found (state_rebuild_pos_index file_list d) pos hboundArr hsep k hk
      hcov1 hcov2 ((state_rebuild_pos_index file_list d).length + 1) 0
      (((state_rebuild_pos_index file_list d).length : Int) - 1)
      (by omega) (by omega) (by omega) (by omega) (by omega)]
    rw [hgetk]
  · intro hnone
    unfold state_find_file_at_pos
    refine findLoop_none (state_rebuild_pos_index file_list d) pos ?_ _ _ _ (by omega)
    intro e he
    rcases (rebuild_pos_index_mem file_list d e).mp he with ⟨f, hf, hd, rfl⟩
    intro hcon
    refine hnone f hf hd ⟨hcon.1, ?_⟩
    have := hcon.2
    unfold entryEnd at this
    rwa [Nat.mod_eq_of_lt (hbound f hf)] at this

def c5okA : lr_file :=
  { vpath := "/x", real_path := "/d0/x", drive_idx := 0, size := 8192,
    block_count := 2, parity_pos_start := 0, mtime_sec := 0, mtime_nsec := 0,
    mode := 33188, uid := 0, gid := 0, open_count := 0 }

def c5okB : lr_file :=
  { vpath := "/y", real_path := "/d0/y", drive_idx := 0, size := 12288,
    block_count := 3, parity_pos_start := 5, mtime_sec := 0, mtime_nsec := 0,
    mode := 33188, uid := 0, gid := 0, open_count := 0 }

theorem c5_pos_index_witness :
    (∀ f ∈ [c5okA, c5okB], f.parity_pos_start + f.block_count < U32) ∧
    List.Chain' (fun a b => entryEnd a ≤ b.pos_start)
      (state_rebuild_pos_index [c5okA, c5okB] 0) ∧
    ((∀ f ∈ [c5okA, c5okB], f.drive_idx = 0 →
      f.parity_pos_start ≤ 6 → 6 < f.parity_pos_start + f.block_count →
      state_find_file_at_pos (state_rebuild_pos_index [c5okA, c5okB] 0) 6 = some f) ∧
    ((∀ f ∈ [c5okA, c5okB], f.drive_idx = 0 →
        ¬ (f.parity_pos_start ≤ 6 ∧ 6 < f.parity_pos_start + f.block_count)) →
      state_find_file_at_pos (state_rebuild_pos_index [c5okA, c5okB] 0) 6 = none)) :=
  ⟨by decide, by
    rw [show state_rebuild_pos_index [c5okA, c5okB] 0 =
      [{ pos_start := 0, block_count := 2, file := c5okA },
       { pos_start := 5, block_count := 3, file := c5okB }] from by decide]
    simp only [List.chain'_cons, List.chain'_singleton, and_true]
    decide,
   c5_pos_index [c5okA, c5okB] 0 6 (by decide) (by
    rw [show state_rebuild_pos_index [c5okA, c5okB] 0 =
      [{ pos_start := 0, block_count := 2, file := c5okA },
       { pos_start := 5, block_count := 3, file := c5okB }] from by decide]
    simp only [List.chain'_cons, List.chain'_singleton, and_true]
    decide)⟩

def c5demoA : lr_file :=
  { vpath := "/a", real_path := "/d0/a", drive_idx := 0, size := 40960,
    block_count := 10, parity_pos_start := 0, mtime_sec := 0, mtime_nsec := 0,
    mode := 33188, uid := 0, gid := 0, open_count := 0 }

def c5demoB : lr_file :=
  { vpath := "/b", real_path := "/d0/b", drive_idx := 0, size := 0,
    block_count := 0, parity_pos_start := 4, mtime_sec := 0, mtime_nsec := 0,
    mode := 33188, uid := 0, gid := 0, open_count := 0 }

def c5demoC : lr_file :=
  { vpath := "/c", real_path := "/d0/c", drive_idx := 0, size := 12288,
    block_count := 3, parity_pos_start := 12, mtime_sec := 0, mtime_nsec := 0,
    mode := 33188, uid := 0, gid := 0, open_count := 0 }

/-- Counterexample to C5 as stated: the three files' position ranges are
pairwise non-overlapping (file `/b` is empty), `/a` covers position 6,
yet the binary search probes the empty entry `(4,0)` first, walks right,
and misses `/a`, returning `none`. -/
theorem c5_pos_index_counterexample :
    (∀ f ∈ [c5demoA, c5demoB, c5demoC], ∀ g ∈ [c5demoA, c5demoB, c5demoC],
      f ≠ g → f.block_count = 0 ∨ g.block_count = 0 ∨
      f.parity_pos_start + f.block_count ≤ g.parity_pos_start ∨
      g.parity_pos_start + g.block_count ≤ f.parity_pos_start) ∧
    c5demoA ∈ [c5demoA, c5demoB, c5demoC] ∧ c5demoA.drive_idx = 0 ∧
    c5demoA.parity_pos_start ≤ 6 ∧
    6 < c5demoA.parity_pos_start + c5demoA.block_count ∧
    state_find_file_at_pos
      (state_rebuild_pos_index [c5demoA, c5demoB, c5demoC] 0) 6 = none := by
  decide

end LiveRaid

namespace LiveRaid

/-! ## create (src/fuse_ops.c, lr_create) -/

/-- O_TRUNC and O_CREAT flag bits (Linux). -/
def O_TRUNC : Nat := 512

def O_CREAT : Nat := 64

/-- Externally visible calls `lr_create` makes, in order. -/
inductive CreateEv where
  | openReal (p : String) (flags : Nat) (mode : Nat)
  | journalMark (start count : Nat)
  | freePos (drive start count : Nat)
  | rebuildIndex (drive : Nat)
  | pickDrive
  | mkdirs (drive : Nat) (real : String)
  | insertRecord (vpath : String)
deriving DecidableEq, Repr

/-- The parts of `lr_state` that `lr_create` reads or writes. -/
structure CreateState where
  files : List lr_file
  drive_count : Nat
  placement_policy : Nat
  rr_next : Nat
  drive_dirs : Nat → String
  allocs : Nat → lr_pos_allocator
  has_journal : Bool
  journal_marks : List (Nat × Nat)
  pos_index : Nat → List lr_pos_entry

structure CreateResult where
  rc : Int
  st : CreateState
  evs : List CreateEv

/-- `state_find_file` from src/state.c: hash-table lookup by vpath,
modelled as the first record with that vpath. -/
def state_find_file (files : List lr_file) (path : String) : Option lr_file :=
  files.find? (fun f => decide (f.vpath = path))

/-- In-place mutation of the record a `state_find_file` pointer refers
to, modelled as updating every record with that vpath (the table holds
at most one). -/
def updateFile (files : List lr_file) (path : String) (g : lr_file → lr_file) :
    List lr_file :=
  files.map (fun f => if f.vpath = path then g f else f)

/-- `lr_create` from src/fuse_ops.c (lines 663-782). Oracles stand for
the host calls: `openRes` is the fd of a successful `open` (`none` on
failure, with `errnoOpen` the errno), `statvfs` backs `state_pick_drive`
in the new-file path, `fstatRes` is `(st_mode, st_uid, st_gid)` of a
successful `fstat` on the created fd, `nowSec` is `time(NULL)`, and
`callocOk`/`fhOk` are the two allocation sites. -/
def lr_create (st : CreateState) (path : String) (mode flags : Nat)
    (openRes : Option Nat) (errnoOpen : Int)
    (statvfs : Nat → Option (Nat × Nat))
    (fstatRes : Option (Nat × Nat × Nat)) (nowSec : Int)
    (fallbackUid fallbackGid : Nat)
    (callocOk fhOk : Bool) : CreateResult :=
  match state_find_file st.files path with
  | some f =>
    match openRes with
    | none =>
      { rc := -errnoOpen, st := st,
        evs := [CreateEv.openReal f.real_path flags mode] }
    | some _fd =>
      let doTrunc := flags &&& O_TRUNC ≠ 0 ∧ 0 < f.block_count
      let files1 :=
        if doTrunc then
          updateFile st.files path (fun g => { g with block_count := 0, size := 0 })
        else if flags &&& O_TRUNC ≠ 0 then
          updateFile st.files path (fun g => { g with size := 0 })
        else st.files
      let files2 := updateFile files1 path
        (fun g => { g with open_count := g.open_count + 1 })
      let allocs1 :=
        if doTrunc then
          (fun d => if d = f.drive_idx
            then free_positions (st.allocs f.drive_idx) f.parity_pos_start f.block_count
            else st.allocs d)
        else st.allocs
      let marks1 :=
        if doTrunc ∧ st.has_journal
        then st.journal_marks ++ [(f.parity_pos_start, f.block_count)]
        else st.journal_marks
      let pos1 :=
        if doTrunc then
          (fun d => if d = f.drive_idx
            then state_rebuild_pos_index files2 f.drive_idx
            else st.pos_index d)
        else st.pos_index
      let evs1 :=
        (if doTrunc ∧ st.has_journal
         then [CreateEv.journalMark f.parity_pos_start f.block_count] else []) ++
        (if doTrunc
         then [CreateEv.freePos f.drive_idx f.parity_pos_start f.block_count,
               CreateEv.rebuildIndex f.drive_idx]
         else [])
      let st2 :=
        { st with
            files := files2
            allocs := allocs1
            journal_marks := marks1
            pos_index := pos1 }
      if fhOk then
        { rc := 0, st := st2,
          evs := CreateEv.openReal f.real_path flags mode :: evs1 }
      else
        let files3 := updateFile files2 path
          (fun g => if 0 < g.open_count
            then { g with open_count := g.open_count - 1 } else g)
        { rc := -12, st := { st2 with files := files3 },
          evs := CreateEv.openReal f.real_path flags mode :: evs1 }
  | none =>
    let pick := state_pick_drive
      { drive_count := st.drive_count, placement_policy := st.placement_policy,
        rr_next := st.rr_next } statvfs
    let st0 := { st with rr_next := pick.2.rr_next }
    if pick.1 = 4294967295 then
      { rc := -28, st := st0, evs := [CreateEv.pickDrive] }
    else
      let drive_idx := pick.1
      let rel := if path.startsWith "/" then path.drop 1 else path
      let real := st.drive_dirs drive_idx ++ rel
      match openRes with
      | none =>
        { rc := -errnoOpen, st := st0,
          evs := [CreateEv.pickDrive, CreateEv.mkdirs drive_idx real,
                  CreateEv.openReal real (flags ||| O_CREAT) mode] }
      | some _fd =>
        let pos_start := (alloc_positions (st.allocs drive_idx) 0).1
        if callocOk then
          let frec : lr_file :=
            { vpath := path, real_path := real, drive_idx := drive_idx,
              size := 0, block_count := 0, parity_pos_start := pos_start,
              mtime_sec := nowSec, mtime_nsec := 0,
              mode := match fstatRes with
                      | some m => m.1
                      | none => 32768 + (mode % 512),
              uid := match fstatRes with
                     | some m => m.2.1
                     | none => fallbackUid,
              gid := match fstatRes with
                     | some m => m.2.2
                     | none => fallbackGid,
              open_count := 1 }
          let files1 := st.files ++ [frec]
          let pos1 := fun d => if d = drive_idx
            then state_rebuild_pos_index files1 drive_idx else st.pos_index d
          let st1 := { st0 with files := files1, pos_index := pos1 }
          let evs1 := [CreateEv.pickDrive, CreateEv.mkdirs drive_idx real,
                       CreateEv.openReal real (flags ||| O_CREAT) mode,
                       CreateEv.insertRecord path,
                       CreateEv.rebuildIndex drive_idx]
          if fhOk then { rc := 0, st := st1, evs := evs1 }
          else
            let files2 := updateFile files1 path
              (fun g => if 0 < g.open_count
                then { g with open_count := g.open_count - 1 } else g)
            { rc := -12, st := { st1 with files := files2 }, evs := evs1 }
        else
          { rc := -12, st := st0,
            evs := [CreateEv.pickDrive, CreateEv.mkdirs drive_idx real,
                    CreateEv.openReal real (flags ||| O_CREAT) mode] }

theorem find_updateFile (files : List lr_file) (path : String)
    (g : lr_file → lr_file) (hg : ∀ f, (g f).vpath = f.vpath) (f : lr_file)
    (hf : state_find_file files path = some f) :
    state_find_file (updateFile files path g) path = some (g f) := by
  induction files with
  | nil => simp [state_find_file] at hf
  | cons a l ih =>
    unfold state_find_file at hf
    unfold state_find_file updateFile
    by_cases hpa : a.vpath = path
    · rw [List.find?_cons_of_pos _ (by simp [hpa])] at hf
      rw [List.map_cons, if_pos hpa,
        List.find?_cons_of_pos _ (by simp [hg, hpa])]
      cases hf
      rfl
    · rw [List.find?_cons_of_neg _ (by simp [hpa])] at hf
      rw [List.map_cons, if_neg hpa,
        List.find?_cons_of_neg _ (by simp [hpa])]
      exact ih hf

/-- C10: `lr_create` on a vpath that already has a file record reuses it:
no new record is inserted and no drive is selected, the record's open
count rises by 1, and — when the flags include O_TRUNC and the file had
blocks — the old position range is first marked dirty in the journal,
then freed back to the drive's allocator, size and block_count are reset
to 0, and the drive's position index is rebuilt. -/
theorem c10_create_existing (st : CreateState) (path : String)
    (mode flags : Nat) (fd : Nat) (errnoOpen : Int)
    (statvfs : Nat → Option (Nat × Nat)) (fstatRes : Option (Nat × Nat × Nat))
    (nowSec : Int) (fuid fgid : Nat) (f : lr_file) (R : CreateResult)
    (hfind : state_find_file st.files path = some f)
    (hR : R = lr_create st path mode flags (some fd) errnoOpen statvfs
      fstatRes nowSec fuid fgid true true) :
    R.rc = 0 ∧
    R.st.files.length = st.files.length ∧
    CreateEv.pickDrive ∉ R.evs ∧
    (∀ v, CreateEv.insertRecord v ∉ R.evs) ∧
    state_find_file R.st.files path = some
      (if flags &&& O_TRUNC ≠ 0 ∧ 0 < f.block_count then
        { f with block_count := 0, size := 0, open_count := f.open_count + 1 }
       else if flags &&& O_TRUNC ≠ 0 then
        { f with size := 0, open_count := f.open_count + 1 }
       else { f with open_count := f.open_count + 1 }) ∧
    (flags &&& O_TRUNC ≠ 0 → 0 < f.block_count →
      R.st.allocs f.drive_idx =
        free_positions (st.allocs f.drive_idx) f.parity_pos_start f.block_count ∧
      R.st.pos_index f.drive_idx =
        state_rebuild_pos_index R.st.files f.drive_idx ∧
      (st.has_journal = true →
        R.st.journal_marks =
          st.journal_marks ++ [(f.parity_pos_start, f.block_count)] ∧
        R.evs = [CreateEv.openReal f.real_path flags mode,
                 CreateEv.journalMark f.parity_pos_start f.block_count,
                 CreateEv.freePos f.drive_idx f.parity_pos_start f.block_count,
                 CreateEv.rebuildIndex f.drive_idx])) := by
  subst hR
  refine ⟨?_, ?_, ?_, ?_, ?_, ?_⟩
  · simp [lr_create, hfind]
  · simp only [lr_create, hfind]
    split_ifs <;> simp [updateFile]
  · simp only [lr_create, hfind]
    split_ifs <;> simp
  · intro v
    simp only [lr_create, hfind]
    split_ifs <;> simp
  · by_cases h1 : flags &&& O_TRUNC ≠ 0
    · by_cases h2 : 0 < f.block_count
      · simp only [lr_create, hfind, h1, h2, and_self, if_true, ne_eq,
          not_false_iff]
        exact find_updateFile _ path
          (fun g => { g with open_count := g.open_count + 1 }) (fun _ => rfl) _
          (find_updateFile st.files path
            (fun g => { g with block_count := 0, size := 0 }) (fun _ => rfl) f hfind)
      · simp only [lr_create, hfind, h1, h2, and_false, if_false, if_true,
          ne_eq, not_false_iff, and_true, true_and]
        exact find_updateFile _ path
          (fun g => { g with open_count := g.open_count + 1 }) (fun _ => rfl) _
          (find_updateFile st.files path
            (fun g => { g with size := 0 }) (fun _ => rfl) f hfind)
    · simp only [lr_create, hfind, h1, false_and, if_false, ne_eq,
        not_false_iff, not_not]
      exact find_updateFile st.files path
        (fun g => { g with open_count := g.open_count + 1 }) (fun _ => rfl) f hfind
  · intro htr hbc
    refine ⟨?_, ?_, ?_⟩
    · simp [lr_create, hfind, htr, hbc]
    · simp [lr_create, hfind, htr, hbc]
    · intro hjj
      refine ⟨?_, ?_⟩
      · simp [lr_create, hfind, htr, hbc, hjj]
      · simp [lr_create, hfind, htr, hbc, hjj]

def c10file : lr_file :=
  { vpath := "/f", real_path := "/d0/f", drive_idx := 0, size := 12288,
    block_count := 3, parity_pos_start := 7, mtime_sec := 100, mtime_nsec := 5,
    mode := 33188, uid := 1000, gid := 1000, open_count := 0 }

def c10state : CreateState :=
  { files := [c10file], drive_count := 1, placement_policy := 0, rr_next := 0,
    drive_dirs := fun _ => "/d0/", allocs := fun _ => { next_free := 10, extents := [] },
    has_journal := true, journal_marks := [], pos_index := fun _ => [] }

def c10res : CreateResult :=
  lr_create c10state "/f" 420 512 (some 5) 2 (fun _ => none) none 0 0 0 true true

theorem c10_create_existing_witness :
    state_find_file c10state.files "/f" = some c10file ∧
    c10res = lr_create c10state "/f" 420 512 (some 5) 2 (fun _ => none) none 0
      0 0 true true ∧
    (c10res.rc = 0 ∧
     c10res.st.files.length = c10state.files.length ∧
     CreateEv.pickDrive ∉ c10res.evs ∧
     (∀ v, CreateEv.insertRecord v ∉ c10res.evs) ∧
     state_find_file c10res.st.files "/f" = some
       (if 512 &&& O_TRUNC ≠ 0 ∧ 0 < c10file.block_count then
         { c10file with block_count := 0, size := 0,
                        open_count := c10file.open_count + 1 }
        else if 512 &&& O_TRUNC ≠ 0 then
         { c10file with size := 0, open_count := c10file.open_count + 1 }
        else { c10file with open_count := c10file.open_count + 1 }) ∧
     (512 &&& O_TRUNC ≠ 0 → 0 < c10file.block_count →
       c10res.st.allocs c10file.drive_idx =
         free_positions (c10state.allocs c10file.drive_idx)
           c10file.parity_pos_start c10file.block_count ∧
       c10res.st.pos_index c10file.drive_idx =
         state_rebuild_pos_index c10res.st.files c10file.drive_idx ∧
       (c10state.has_journal = true →
         c10res.st.journal_marks = c10state.journal_marks ++
           [(c10file.parity_pos_start, c10file.block_count)] ∧
         c10res.evs = [CreateEv.openReal c10file.real_path 512 420,
                  CreateEv.journalMark c10file.parity_pos_start c10file.block_count,
                  CreateEv.freePos c10file.drive_idx c10file.parity_pos_start
                    c10file.block_count,
                  CreateEv.rebuildIndex c10file.drive_idx]))) :=
  ⟨by decide, rfl,
    c10_create_existing c10state "/f" 420 512 5 2 (fun _ => none) none 0 0 0
      c10file c10res (by decide) rfl⟩

end LiveRaid

namespace LiveRaid

/-! ## Live rebuild (src/ctrl.c, live_rebuild_one_file / live_do_rebuild) -/

/-- Externally visible calls of a live rebuild, in order: control-socket
lines, host filesystem calls, and parity recoveries. -/
inductive RebuildEv where
  | send (msg : String)
  | mkdirs (real : String)
  | openTrunc (real : String) (create_mode : Nat)
  | recoverBlock (drive pos : Nat)
  | writeBlock (real : String) (blk len : Nat)
  | unlinkFile (real : String)
  | chmodF (real : String) (mode : Nat)
  | lchownF (real : String) (uid gid : Nat)
  | utimensF (real : String) (sec nsec : Int)
deriving DecidableEq, Repr

/-- The state snapshot and host-call oracles a live rebuild runs
against: the file table, the configured block size, the drive-name
table, and the outcomes of `open`, `malloc`, `parity_recover_block`
(by position) and `pwrite` (by block index). -/
structure RebuildEnv where
  files : List lr_file
  block_size : Nat
  drive_names : List String
  openOk : String → Bool
  mallocOk : Bool
  recoverOk : Nat → Bool
  writeOk : Nat → Bool
  errnoStr : String

/-- The `write_len` of block `blk` (lines 136-141 of src/ctrl.c): the
final block of a file whose size is not block-aligned is written
short. -/
def writeLenOf (size : Int) (bs count blk : Nat) : Nat :=
  if blk = count - 1 ∧ 0 < size then
    (if (size % (bs : Int)).toNat ≠ 0 then (size % (bs : Int)).toNat else bs)
  else bs

/-- The block-recovery loop of `live_rebuild_one_file` (lines 122-150 of
src/ctrl.c), with explicit fuel (the loop runs at most `block_count`
iterations, so `block_count` fuel suffices from `blk = 0`): recover the
block at `pos_start + blk` under rdlock, write it, stop with a `fail`
line on the first parity or write error. Returns whether every block
was written. -/
def rebuildBlocks (env : RebuildEnv) (drive_idx : Nat) (vpath real : String)
    (pos_start block_count : Nat) (size : Int) :
    Nat → Nat → Bool × List RebuildEv
  | 0, _ => (true, [])
  | fuel+1, blk =>
    if blk < block_count then
      let pos := (pos_start + blk) % U32
      if env.recoverOk pos then
        if env.writeOk blk then
          let rest := rebuildBlocks env drive_idx vpath real pos_start
            block_count size fuel (blk + 1)
          (rest.1, RebuildEv.recoverBlock drive_idx pos ::
            RebuildEv.writeBlock real blk
              (writeLenOf size env.block_size block_count blk) :: rest.2)
        else
          (false, [RebuildEv.recoverBlock drive_idx pos,
            RebuildEv.send ("fail " ++ vpath ++ " write error at block " ++
              toString blk ++ ": " ++ env.errnoStr ++ "\n")])
      else
        (false, [RebuildEv.recoverBlock drive_idx pos,
          RebuildEv.send ("fail " ++ vpath ++ " parity error at block " ++
            toString blk ++ "\n")])
    else (true, [])

/-- `live_rebuild_one_file` from src/ctrl.c (lines 71-174): re-resolve
the vpath, skip silently when gone or moved, skip with a
`skip <vpath> busy` line when the open count is nonzero; otherwise
snapshot the metadata, create and truncate the backing file, recover
block-by-block, and on success restore mode (when its permission bits
are nonzero), uid/gid (when either is nonzero) and mtime (when the
seconds are nonzero), sending an `ok` line. Returns 0 rebuilt,
1 skipped, -1 failed. -/
def live_rebuild_one_file (env : RebuildEnv) (drive_idx : Nat)
    (vpath : String) : Int × List RebuildEv :=
  match state_find_file env.files vpath with
  | none => (1, [])
  | some f =>
    if ¬ f.drive_idx = drive_idx then (1, [])
    else if 0 < f.open_count then
      (1, [RebuildEv.send ("skip " ++ vpath ++ " busy\n")])
    else
      let real := f.real_path
      let create_mode := if f.mode % 4096 ≠ 0 then f.mode % 4096 else 420
      if ¬ env.openOk real then
        (-1, [RebuildEv.mkdirs real,
          RebuildEv.send ("fail " ++ vpath ++ " cannot create: " ++
            env.errnoStr ++ "\n")])
      else if ¬ env.mallocOk then
        (-1, [RebuildEv.mkdirs real, RebuildEv.openTrunc real create_mode,
          RebuildEv.unlinkFile real,
          RebuildEv.send ("fail " ++ vpath ++ " out of memory\n")])
      else
        let loop := rebuildBlocks env drive_idx vpath real f.parity_pos_start
          f.block_count f.size f.block_count 0
        if loop.1 then
          (0, RebuildEv.mkdirs real :: RebuildEv.openTrunc real create_mode ::
            loop.2 ++
            (if f.mode % 4096 ≠ 0 then [RebuildEv.chmodF real (f.mode % 4096)]
             else []) ++
            (if f.uid ≠ 0 ∨ f.gid ≠ 0 then [RebuildEv.lchownF real f.uid f.gid]
             else []) ++
            (if f.mtime_sec ≠ 0 then
              [RebuildEv.utimensF real f.mtime_sec f.mtime_nsec] else []) ++
            [RebuildEv.send ("ok " ++ vpath ++ "\n")])
        else
          (-1, RebuildEv.mkdirs real :: RebuildEv.openTrunc real create_mode ::
            loop.2 ++ [RebuildEv.unlinkFile real])

/-- The per-vpath loop of `live_do_rebuild` (lines 231-240 of
src/ctrl.c): a `progress` line, one rebuild, and the three counters:
rc 0 rebuilt, rc > 0 skipped, rc < 0 failed. -/
def doRebuildVpaths (env : RebuildEnv) (drive_idx total : Nat) :
    List String → Nat → Nat × Nat × Nat × List RebuildEv
  | [], _ => (0, 0, 0, [])
  | v :: rest, i =>
    let one := live_rebuild_one_file env drive_idx v
    let r := doRebuildVpaths env drive_idx total rest (i + 1)
    ((if one.1 = 0 then r.1 + 1 else r.1),
     (if one.1 < 0 then r.2.1 + 1 else r.2.1),
     (if 0 < one.1 then r.2.2.1 + 1 else r.2.2.1),
     (RebuildEv.send ("progress " ++ toString (i + 1) ++ " " ++ toString total
       ++ " " ++ v ++ "\n") :: one.2) ++ r.2.2.2)

/-- `live_do_rebuild` from src/ctrl.c (lines 179-245): resolve the drive
name, snapshot the vpaths of its files, rebuild each, and send the final
`done <rebuilt> <failed> skipped=<n>` line. Returns the three counters
and the event trace. -/
def live_do_rebuild (env : RebuildEnv) (drive_name : String) :
    Nat × Nat × Nat × List RebuildEv :=
  match env.drive_names.findIdx? (fun n => decide (n = drive_name)) with
  | none =>
    (0, 0, 0, [RebuildEv.send ("error drive '" ++ drive_name ++
      "' not found\n")])
  | some drive_idx =>
    let vpaths := (env.files.filter
      (fun f => decide (f.drive_idx = drive_idx))).map (fun f => f.vpath)
    let total := vpaths.length
    let r := doRebuildVpaths env drive_idx total vpaths 0
    (r.1, r.2.1, r.2.2.1,
      (RebuildEv.send ("progress 0 " ++ toString total ++ " (starting)\n") ::
        r.2.2.2) ++
      [RebuildEv.send ("done " ++ toString r.1 ++ " " ++ toString r.2.1 ++
        " skipped=" ++ toString r.2.2.1 ++ "\n")])

theorem rebuildBlocks_all_ok (env : RebuildEnv) (drive_idx : Nat)
    (vpath real : String) (pos_start block_count : Nat) (size : Int)
    (hrec : ∀ blk < block_count, env.recoverOk ((pos_start + blk) % U32) = true)
    (hwr : ∀ blk < block_count, env.writeOk blk = true) :
    ∀ (fuel blk : Nat), block_count ≤ blk + fuel →
    rebuildBlocks env drive_idx vpath real pos_start block_count size fuel blk =
      (true, ((List.range (block_count - blk)).map (fun j => blk + j)).flatMap
        (fun b => [RebuildEv.recoverBlock drive_idx ((pos_start + b) % U32),
          RebuildEv.writeBlock real b
            (writeLenOf size env.block_size block_count b)])) := by
  intro fuel
  induction fuel with
  | zero =>
    intro blk hle
    have : block_count - blk = 0 := by omega
    rw [this]
    rfl
  | succ fuel ih =>
    intro blk hle
    by_cases hblk : blk < block_count
    · simp only [rebuildBlocks, if_pos hblk, hrec blk hblk, hwr blk hblk,
        if_true, ih (blk + 1) (by omega)]
      have hcnt : block_count - blk = (block_count - (blk + 1)) + 1 := by omega
      rw [hcnt, List.range_succ_eq_map]
      have hfun : ((fun j => blk + j) ∘ Nat.succ) = (fun j => blk + 1 + j) := by
        funext j
        simp only [Function.comp_apply]
        omega
      simp only [List.map_cons, List.map_map, List.flatMap_cons, Nat.add_zero,
        List.cons_append, List.nil_append, List.singleton_append, hfun]
    · simp only [rebuildBlocks, if_neg hblk]
      have : block_count - blk = 0 := by omega
      rw [this]
      rfl

theorem doRebuildVpaths_counts (env : RebuildEnv) (drive_idx total : Nat) :
    ∀ (vs : List String) (i : Nat),
      (doRebuildVpaths env drive_idx total vs i).1 +
      (doRebuildVpaths env drive_idx total vs i).2.1 +
      (doRebuildVpaths env drive_idx total vs i).2.2.1 = vs.length := by
  intro vs
  induction vs with
  | nil => intro i; rfl
  | cons v rest ih =>
    intro i
    have h := ih (i + 1)
    simp only [doRebuildVpaths, List.length_cons]
    rcases Int.lt_trichotomy (live_rebuild_one_file env drive_idx v).1 0 with
      h1 | h1 | h1
    · rw [if_neg (by omega), if_pos h1, if_neg (by omega)]
      omega
    · rw [if_pos h1, if_neg (by omega), if_neg (by omega)]
      omega
    · rw [if_neg (by omega), if_neg (by omega), if_pos h1]
      omega

/-- C7: during a live rebuild, a vpath whose re-resolved record has a
nonzero open count yields exactly the control line `skip <vpath> busy`
and return code 1 (counted as skipped; its backing file is not
touched); a rebuildable file is reconstructed block-by-block through
`parity_recover_block` and its mode, uid/gid and mtime are restored;
every rebuild loop reports rebuilt + failed + skipped = snapshot size,
and `live_do_rebuild` ends with the
`done <rebuilt> <failed> skipped=<n>` line. -/
theorem c7_live_rebuild (env : RebuildEnv) (didx : Nat) (vpath : String)
    (f : lr_file)
    (hfind : state_find_file env.files vpath = some f)
    (hdrive : f.drive_idx = didx) :
    (0 < f.open_count →
      live_rebuild_one_file env didx vpath =
        (1, [RebuildEv.send ("skip " ++ vpath ++ " busy\n")])) ∧
    (¬ 0 < f.open_count → env.openOk f.real_path = true → env.mallocOk = true →
      (∀ blk < f.block_count,
        env.recoverOk ((f.parity_pos_start + blk) % U32) = true) →
      (∀ blk < f.block_count, env.writeOk blk = true) →
      f.mode % 4096 ≠ 0 → (f.uid ≠ 0 ∨ f.gid ≠ 0) → f.mtime_sec ≠ 0 →
      live_rebuild_one_file env didx vpath =
        (0, RebuildEv.mkdirs f.real_path ::
          RebuildEv.openTrunc f.real_path (f.mode % 4096) ::
          ((List.range f.block_count).flatMap (fun b =>
            [RebuildEv.recoverBlock didx ((f.parity_pos_start + b) % U32),
             RebuildEv.writeBlock f.real_path b
               (writeLenOf f.size env.block_size f.block_count b)])) ++
          [RebuildEv.chmodF f.real_path (f.mode % 4096),
           RebuildEv.lchownF f.real_path f.uid f.gid,
           RebuildEv.utimensF f.real_path f.mtime_sec f.mtime_nsec,
           RebuildEv.send ("ok " ++ vpath ++ "\n")])) ∧
    (∀ (vs : List String) (i total : Nat),
      (doRebuildVpaths env didx total vs i).1 +
      (doRebuildVpaths env didx total vs i).2.1 +
      (doRebuildVpaths env didx total vs i).2.2.1 = vs.length) ∧
    (∀ name, env.drive_names.findIdx? (fun n => decide (n = name)) = some didx →
      (live_do_rebuild env name).1 + (live_do_rebuild env name).2.1 +
        (live_do_rebuild env name).2.2.1 =
        (env.files.filter (fun g => decide (g.drive_idx = didx))).length ∧
      (live_do_rebuild env name).2.2.2.getLast? = some (RebuildEv.send
        ("done " ++ toString (live_do_rebuild env name).1 ++ " " ++
         toString (live_do_rebuild env name).2.1 ++ " skipped=" ++
         toString (live_do_rebuild env name).2.2.1 ++ "\n"))) := by
  refine ⟨?_, ?_, ?_, ?_⟩
  · intro hbusy
    simp [live_rebuild_one_file, hfind, hdrive, hbusy]
  · intro hno ho hm hrec hwr hmode hug hmt
    have hloop := rebuildBlocks_all_ok env didx vpath f.real_path
      f.parity_pos_start f.block_count f.size hrec hwr f.block_count 0
      (by omega)
    simp only [Nat.sub_zero, Nat.zero_add] at hloop
    rw [List.map_id'] at hloop
    simp only [live_rebuild_one_file, hfind]
    rw [hdrive]
    rw [if_neg (by simp), if_neg hno, if_neg (not_not_intro ho),
      if_neg (not_not_intro hm), hloop]
    simp [hmode, hug, hmt]
  · intro vs i total
    exact doRebuildVpaths_counts env didx total vs i
  · intro name hname
    refine ⟨?_, ?_⟩
    · simp only [live_do_rebuild, hname]
      rw [show (env.files.filter (fun g => decide (g.drive_idx = didx))).length
        = ((env.files.filter (fun g => decide (g.drive_idx = didx))).map
          (fun g => g.vpath)).length from (List.length_map _ _).symm]
      exact doRebuildVpaths_counts env didx _ _ 0
    · simp only [live_do_rebuild, hname]
      rw [List.getLast?_concat]

def c7file : lr_file :=
  { vpath := "/big.bin", real_path := "/d0/big.bin", drive_idx := 0,
    size := 4096, block_count := 1, parity_pos_start := 0, mtime_sec := 50,
    mtime_nsec := 1, mode := 33188, uid := 1000, gid := 1000, open_count := 2 }

def c7env : RebuildEnv :=
  { files := [c7file], block_size := 4096, drive_names := ["d0"],
    openOk := fun _ => true, mallocOk := true, recoverOk := fun _ => true,
    writeOk := fun _ => true, errnoStr := "E" }

theorem c7_live_rebuild_witness :
    state_find_file c7env.files "/big.bin" = some c7file ∧
    c7file.drive_idx = 0 ∧
    ((0 < c7file.open_count →
      live_rebuild_one_file c7env 0 "/big.bin" =
        (1, [RebuildEv.send ("skip " ++ "/big.bin" ++ " busy\n")])) ∧
    (¬ 0 < c7file.open_count → c7env.openOk c7file.real_path = true →
      c7env.mallocOk = true →
      (∀ blk < c7file.block_count,
        c7env.recoverOk ((c7file.parity_pos_start + blk) % U32) = true) →
      (∀ blk < c7file.block_count, c7env.writeOk blk = true) →
      c7file.mode % 4096 ≠ 0 → (c7file.uid ≠ 0 ∨ c7file.gid ≠ 0) →
      c7file.mtime_sec ≠ 0 →
      live_rebuild_one_file c7env 0 "/big.bin" =
        (0, RebuildEv.mkdirs c7file.real_path ::
          RebuildEv.openTrunc c7file.real_path (c7file.mode % 4096) ::
          ((List.range c7file.block_count).flatMap (fun b =>
            [RebuildEv.recoverBlock 0 ((c7file.parity_pos_start + b) % U32),
             RebuildEv.writeBlock c7file.real_path b
               (writeLenOf c7file.size c7env.block_size c7file.block_count b)])) ++
          [RebuildEv.chmodF c7file.real_path (c7file.mode % 4096),
           RebuildEv.lchownF c7file.real_path c7file.uid c7file.gid,
           RebuildEv.utimensF c7file.real_path c7file.mtime_sec c7file.mtime_nsec,
           RebuildEv.send ("ok " ++ "/big.bin" ++ "\n")])) ∧
    (∀ (vs : List String) (i total : Nat),
      (doRebuildVpaths c7env 0 total vs i).1 +
      (doRebuildVpaths c7env 0 total vs i).2.1 +
      (doRebuildVpaths c7env 0 total vs i).2.2.1 = vs.length) ∧
    (∀ name, c7env.drive_names.findIdx? (fun n => decide (n = name)) = some 0 →
      (live_do_rebuild c7env name).1 + (live_do_rebuild c7env name).2.1 +
        (live_do_rebuild c7env name).2.2.1 =
        (c7env.files.filter (fun g => decide (g.drive_idx = 0))).length ∧
      (live_do_rebuild c7env name).2.2.2.getLast? = some (RebuildEv.send
        ("done " ++ toString (live_do_rebuild c7env name).1 ++ " " ++
         toString (live_do_rebuild c7env name).2.1 ++ " skipped=" ++
         toString (live_do_rebuild c7env name).2.2.1 ++ "\n")))) :=
  ⟨by decide, rfl, c7_live_rebuild c7env 0 "/big.bin" c7file (by decide) rfl⟩

end LiveRaid

namespace LiveRaid

/-- Least-significant-first base-`base` digits of `n`, with explicit fuel so
the definition is structural (kernel-reducible for witnesses). With
`n < base ^ fuel` the fuel never runs out. -/
def digitsRev (base : Nat) : Nat → Nat → List Nat
  | 0, _ => []
  | fuel + 1, n => if n = 0 then [] else n % base :: digitsRev base fuel (n / base)

/-- The ASCII character for the digit `d` (valid for `d < 10`). -/
def digitChar (d : Nat) : Char := Char.ofNat (48 + d)

/-- Decimal/octal rendering of an unsigned value, as printf `%u` / `%o`
produce it: most significant digit first, `"0"` for zero. 64 digits of
fuel cover every value below `base ^ 64` (every `uint64_t` in particular). -/
def natToChars (base n : Nat) : List Char :=
  if n = 0 then ['0'] else (digitsRev base 64 n).reverse.map digitChar

/-- Rendering of a signed value, as printf `%lld` / `%ld` produce it. -/
def intToChars (i : Int) : List Char :=
  if i < 0 then '-' :: natToChars 10 i.natAbs else natToChars 10 i.toNat

/-- Whether `c` is a digit of base `base` (base at most 10). -/
def isDigitB (base : Nat) (c : Char) : Bool :=
  decide (48 ≤ c.toNat ∧ c.toNat < 48 + base)

/-- `strtoul(s, NULL, base)` on a string with no leading whitespace or sign:
read the longest digit run at the front, value 0 if there is none.
(Saturation on out-of-range input is not modelled; every numeral the
theorems feed in is in range.) -/
def parseNat (base : Nat) (l : List Char) : Nat :=
  (l.takeWhile (isDigitB base)).foldl (fun acc c => acc * base + (c.toNat - 48)) 0

/-- `strtoll(s, NULL, 10)` on a string with no leading whitespace: an
optional minus sign followed by a digit run. -/
def parseInt (l : List Char) : Int :=
  if l.head? = some '-' then -(parseNat 10 l.tail : Int) else (parseNat 10 l : Int)

/-- `tok = strchr(s, '|'); *tok++ = '\0'`: split at the first bar, `none`
when there is no bar. -/
def splitBar : List Char → Option (List Char × List Char)
  | [] => none
  | c :: rest =>
    if c = '|' then some ([], rest)
    else match splitBar rest with
      | none => none
      | some (a, b) => some (c :: a, b)

-- ===== numeral lemmas =====

theorem digitsRev_lt (base : Nat) (hb : 0 < base) :
    ∀ fuel n d, d ∈ digitsRev base fuel n → d < base := by
  intro fuel
  induction fuel with
  | zero => intro n d h; simp [digitsRev] at h
  | succ k ih =>
    intro n d h
    by_cases hn : n = 0
    · simp [digitsRev, hn] at h
    · simp only [digitsRev, if_neg hn, List.mem_cons] at h
      rcases h with h | h
      · exact h ▸ Nat.mod_lt _ hb
      · exact ih _ _ h

theorem digitsRev_val (base : Nat) (hb : 2 ≤ base) :
    ∀ fuel n, n < base ^ fuel →
      (digitsRev base fuel n).foldr (fun d acc => acc * base + d) 0 = n := by
  intro fuel
  induction fuel with
  | zero => intro n hn; simp at hn; simp [digitsRev, hn]
  | succ k ih =>
    intro n hn
    by_cases hzero : n = 0
    · simp [digitsRev, hzero]
    · have hdiv : n / base < base ^ k :=
        Nat.div_lt_of_lt_mul (by rw [mul_comm, ← pow_succ]; exact hn)
      simp only [digitsRev, if_neg hzero, List.foldr_cons, ih _ hdiv]
      rw [mul_comm]
      exact Nat.div_add_mod n base

theorem digitChar_toNat (d : Nat) (h : d < 10) : (digitChar d).toNat = 48 + d := by
  interval_cases d <;> rfl

theorem isDigitB_digitChar (base d : Nat) (hd : d < base) (hb : base ≤ 10) :
    isDigitB base (digitChar d) = true := by
  have := digitChar_toNat d (lt_of_lt_of_le hd hb)
  simp only [isDigitB, this, decide_eq_true_eq]
  omega

theorem natToChars_range (base n : Nat) (hb1 : 1 ≤ base) (hb : base ≤ 10) :
    ∀ c ∈ natToChars base n, 48 ≤ c.toNat ∧ c.toNat < 58 := by
  intro c hc
  by_cases hn : n = 0
  · simp [natToChars, hn] at hc
    subst hc; exact ⟨by decide, by decide⟩
  · simp only [natToChars, if_neg hn, List.mem_map, List.mem_reverse] at hc
    obtain ⟨d, hd, rfl⟩ := hc
    have hdb : d < base := digitsRev_lt base (by omega) _ _ _ hd
    have := digitChar_toNat d (by omega)
    omega

theorem natToChars_no_bar (base n : Nat) (hb1 : 1 ≤ base) (hb : base ≤ 10) :
    '|' ∉ natToChars base n := by
  intro hmem
  have := natToChars_range base n hb1 hb _ hmem
  simp at this

theorem intToChars_no_bar (i : Int) : '|' ∉ intToChars i := by
  intro hmem
  unfold intToChars at hmem
  by_cases hneg : i < 0
  · rw [if_pos hneg] at hmem
    rcases List.mem_cons.mp hmem with h | h
    · exact absurd h (by decide)
    · have := natToChars_range 10 i.natAbs (by norm_num) (by norm_num) _ h
      simp at this
  · rw [if_neg hneg] at hmem
    have := natToChars_range 10 i.toNat (by norm_num) (by norm_num) _ hmem
    simp at this

theorem takeWhile_all {α} (p : α → Bool) (l : List α)
    (h : ∀ a ∈ l, p a = true) : l.takeWhile p = l := by
  induction l with
  | nil => rfl
  | cons x xs ih =>
    rw [List.takeWhile_cons, h x (List.mem_cons_self x xs), if_pos rfl,
      ih (fun a ha => h a (List.mem_cons_of_mem x ha))]

theorem foldr_digitChar (base : Nat) (l : List Nat) (h : ∀ d ∈ l, d < 10) :
    l.foldr (fun d acc => acc * base + ((digitChar d).toNat - 48)) 0 =
    l.foldr (fun d acc => acc * base + d) 0 := by
  induction l with
  | nil => rfl
  | cons d ds ih =>
    simp only [List.foldr_cons, ih (fun x hx => h x (List.mem_cons_of_mem d hx)),
      digitChar_toNat d (h d (List.mem_cons_self d ds))]
    omega

theorem parseNat_natToChars (base n : Nat) (hb2 : 2 ≤ base) (hb10 : base ≤ 10)
    (hn : n < base ^ 64) : parseNat base (natToChars base n) = n := by
  by_cases hzero : n = 0
  · subst hzero
    have h0 : isDigitB base '0' = true := by
      simp only [isDigitB, decide_eq_true_eq]
      constructor
      · decide
      · show 48 < 48 + base; omega
    simp [parseNat, natToChars, List.takeWhile_cons, h0]
  · have hall : ∀ c ∈ natToChars base n, isDigitB base c = true := by
      intro c hc
      simp only [natToChars, if_neg hzero, List.mem_map, List.mem_reverse] at hc
      obtain ⟨d, hd, rfl⟩ := hc
      exact isDigitB_digitChar base d (digitsRev_lt base (by omega) _ _ _ hd) hb10
    unfold parseNat
    rw [takeWhile_all _ _ hall]
    simp only [natToChars, if_neg hzero]
    rw [List.foldl_map, List.foldl_reverse]
    have hpt := foldr_digitChar base (digitsRev base 64 n)
      (fun d hd => lt_of_lt_of_le (digitsRev_lt base (by omega) _ _ _ hd) hb10)
    exact hpt.trans (digitsRev_val base hb2 64 n hn)

theorem natToChars_head_digit (base n : Nat) (hb1 : 1 ≤ base) (hb : base ≤ 10) :
    (natToChars base n).head? ≠ some '-' := by
  intro h
  have hmem : '-' ∈ natToChars base n := by
    cases hx : natToChars base n with
    | nil => rw [hx] at h; simp at h
    | cons c cs =>
      rw [hx] at h
      simp only [List.head?_cons, Option.some.injEq] at h
      subst h
      exact List.mem_cons_self _ _
  have := natToChars_range base n hb1 hb _ hmem
  simp at this

theorem parseInt_intToChars (i : Int) (h : i.natAbs < 10 ^ 64) :
    parseInt (intToChars i) = i := by
  by_cases hneg : i < 0
  · have hchars : intToChars i = '-' :: natToChars 10 i.natAbs := by
      simp [intToChars, hneg]
    have hstep : parseInt ('-' :: natToChars 10 i.natAbs)
        = -(parseNat 10 (natToChars 10 i.natAbs) : Int) := by
      unfold parseInt
      rw [List.head?_cons, List.tail_cons, if_pos rfl]
    rw [hchars, hstep,
      parseNat_natToChars 10 i.natAbs (by norm_num) (by norm_num) h]
    omega
  · have hchars : intToChars i = natToChars 10 i.toNat := by
      simp [intToChars, hneg]
    rw [hchars]
    simp only [parseInt,
      if_neg (natToChars_head_digit 10 i.toNat (by norm_num) (by norm_num))]
    rw [parseNat_natToChars 10 i.toNat (by norm_num) (by norm_num) (by omega)]
    omega

-- ===== splitBar lemmas =====

theorem splitBar_append (pre post : List Char) (h : '|' ∉ pre) :
    splitBar (pre ++ '|' :: post) = some (pre, post) := by
  induction pre with
  | nil => simp [splitBar]
  | cons c cs ih =>
    have hc : ¬(c = '|') := fun hx => h (hx ▸ List.mem_cons_self c cs)
    have hcs : '|' ∉ cs := fun hx => h (List.mem_cons_of_mem c hx)
    simp only [List.cons_append, splitBar, if_neg hc]
    rw [List.append_eq, ih hcs]

theorem splitBar_none (l : List Char) (h : '|' ∉ l) : splitBar l = none := by
  induction l with
  | nil => rfl
  | cons c cs ih =>
    have hc : ¬(c = '|') := fun hx => h (hx ▸ List.mem_cons_self c cs)
    have hcs : '|' ∉ cs := fun hx => h (List.mem_cons_of_mem c hx)
    simp only [splitBar, if_neg hc, ih hcs]



-- ===== metadata record structures =====

/-- Directory record, after `lr_dir` in src/state.h. -/
structure lr_dir where
  vpath : String
  mode : Nat
  uid : Nat
  gid : Nat
  mtime_sec : Int
  mtime_nsec : Int
deriving DecidableEq, Repr, Inhabited

/-- Symlink record, after `lr_symlink` in src/state.h. -/
structure lr_symlink where
  vpath : String
  target : String
  mtime_sec : Int
  mtime_nsec : Int
  uid : Nat
  gid : Nat
deriving DecidableEq, Repr, Inhabited

/-- The metadata-relevant part of a drive (`lr_drive` in src/state.h):
its configured name and mount directory, and its position allocator. -/
structure lr_drive where
  name : String
  dir : String
  pos_alloc : lr_pos_allocator
deriving DecidableEq, Repr

/-- Placeholder drive for out-of-range `getD` reads (never reached: the
loader only indexes with a `findIdx?` result). -/
def dfltDrive : lr_drive := { name := "", dir := "", pos_alloc := alloc_init }

/-- The metadata-relevant projection of `lr_state`: block size, drive
table, and the three record lists (load inserts at the tail, so list
order is record order). -/
structure MetaState where
  block_size : Nat
  drives : List lr_drive
  files : List lr_file
  dirs : List lr_dir
  symlinks : List lr_symlink
deriving DecidableEq, Repr

/-- `blocks_for_size` from src/state.h (lines 145-149), with the final
`(uint32_t)` cast written out. -/
def blocks_for_size (size block_size : Nat) : Nat :=
  if size = 0 then 0
  else (size / block_size + (if size % block_size ≠ 0 then 1 else 0)) % U32

/-- The `(uint64_t)file->size` cast applied before `blocks_for_size`. -/
def asUInt64 (i : Int) : Nat := (i % (18446744073709551616 : Int)).toNat

/-- The loader's `snprintf(file->real_path, PATH_MAX, "%s%s", drives[idx].dir,
vpath[0] == '/' ? vpath + 1 : vpath)`: drive dir, then the vpath with a
leading slash dropped, truncated to PATH_MAX - 1 characters. -/
def load_real_path (drives : List lr_drive) (idx : Nat) (vpath : List Char) : String :=
  String.mk (((drives.getD idx dfltDrive).dir.toList ++
    (match vpath with | '/' :: t => t | _ => vpath)).take 4095)

-- ===== save: line renderers (write_to_path, src/metadata.c 347-452) =====

/-- The bar-separated fields of a file record line, after the `file|` tag. -/
def fileLinePayload (dname : List Char) (f : lr_file) : List Char :=
  dname ++ '|' :: (f.vpath.toList ++ '|' :: (intToChars f.size ++ '|' ::
    (natToChars 10 f.parity_pos_start ++ '|' :: (natToChars 10 f.block_count ++ '|' ::
      (intToChars f.mtime_sec ++ '|' :: (intToChars f.mtime_nsec ++ '|' ::
        (natToChars 8 f.mode ++ '|' :: (natToChars 10 f.uid ++ '|' ::
          natToChars 10 f.gid))))))))

/-- One `file|%s|%s|%lld|%u|%u|%lld|%ld|%o|%u|%u` record line. -/
def renderFileLine (dname : List Char) (f : lr_file) : List Char :=
  'f' :: 'i' :: 'l' :: 'e' :: '|' :: fileLinePayload dname f

/-- The bar-separated fields of a dir record line, after the `dir|` tag. -/
def dirLinePayload (d : lr_dir) : List Char :=
  d.vpath.toList ++ '|' :: (natToChars 8 d.mode ++ '|' ::
    (natToChars 10 d.uid ++ '|' :: (natToChars 10 d.gid ++ '|' ::
      (intToChars d.mtime_sec ++ '|' :: intToChars d.mtime_nsec))))

/-- One `dir|%s|%o|%u|%u|%lld|%ld` record line. -/
def renderDirLine (d : lr_dir) : List Char :=
  'd' :: 'i' :: 'r' :: '|' :: dirLinePayload d

/-- The bar-separated fields of a symlink record line, after the
`symlink|` tag. -/
def symlinkLinePayload (sl : lr_symlink) : List Char :=
  sl.vpath.toList ++ '|' :: (sl.target.toList ++ '|' ::
    (intToChars sl.mtime_sec ++ '|' :: (intToChars sl.mtime_nsec ++ '|' ::
      (natToChars 10 sl.uid ++ '|' :: natToChars 10 sl.gid))))

/-- One `symlink|%s|%s|%lld|%ld|%u|%u` record line. -/
def renderSymlinkLine (sl : lr_symlink) : List Char :=
  's' :: 'y' :: 'm' :: 'l' :: 'i' :: 'n' :: 'k' :: '|' :: symlinkLinePayload sl

/-- A drive's `# drive_next_free:` line followed by one
`# drive_free_extent:` line per free extent. -/
def drive_header_lines (d : lr_drive) : List (List Char) :=
  ("# drive_next_free: ".toList ++ d.name.toList ++ ' ' ::
      natToChars 10 d.pos_alloc.next_free) ::
    d.pos_alloc.extents.map (fun e =>
      "# drive_free_extent: ".toList ++ d.name.toList ++ ' ' ::
        (natToChars 10 e.start ++ ' ' :: natToChars 10 e.count))

/-- The full line sequence `write_to_path` produces: three header lines,
the per-drive allocator directives, file records, dir records, symlink
records, and the CRC footer. The CRC hex digits are kept abstract
(`crcHex`): the loader stops at the footer whatever value is stored
(a mismatch only prints a warning). -/
def write_to_path_lines (st : MetaState) (crcHex : List Char) : List (List Char) :=
  "# liveraid content".toList ::
  "# version: 1".toList ::
  ("# blocksize: ".toList ++ natToChars 10 st.block_size) ::
  (st.drives.flatMap drive_header_lines ++
    (st.files.map (fun f =>
        renderFileLine (st.drives.getD f.drive_idx dfltDrive).name.toList f) ++
      (st.dirs.map renderDirLine ++
        (st.symlinks.map renderSymlinkLine ++
          [("# crc32: ".toList ++ crcHex)]))))

-- ===== load: record parsers (metadata_load, src/metadata.c 48-341) =====

/-- Parser for the payload of a `dir|` line (src/metadata.c 134-172). -/
def parseDirRec (l : List Char) : Option lr_dir :=
  match splitBar l with
  | none => none
  | some (vpath, r1) =>
  match splitBar r1 with
  | none => none
  | some (mode_s, r2) =>
  match splitBar r2 with
  | none => none
  | some (uid_s, r3) =>
  match splitBar r3 with
  | none => none
  | some (gid_s, r4) =>
  match splitBar r4 with
  | none => none
  | some (mtime_s, mtime_ns_s) =>
  if 4096 ≤ vpath.length then none
  else
    let mode := parseNat 8 mode_s % U32
    some { vpath := String.mk vpath,
           mode := if mode = 0 then 16877 else mode,
           uid := parseNat 10 uid_s % U32,
           gid := parseNat 10 gid_s % U32,
           mtime_sec := parseInt mtime_s,
           mtime_nsec := parseInt mtime_ns_s }

/-- Parser for the payload of a `symlink|` line (src/metadata.c 175-210). -/
def parseSymlinkRec (l : List Char) : Option lr_symlink :=
  match splitBar l with
  | none => none
  | some (vpath, r1) =>
  match splitBar r1 with
  | none => none
  | some (target, r2) =>
  match splitBar r2 with
  | none => none
  | some (mtime_s, r3) =>
  match splitBar r3 with
  | none => none
  | some (mtime_ns_s, r4) =>
  match splitBar r4 with
  | none => none
  | some (uid_s, gid_s) =>
  if 4096 ≤ vpath.length ∨ 4096 ≤ target.length then none
  else
    some { vpath := String.mk vpath,
           target := String.mk target,
           mtime_sec := parseInt mtime_s,
           mtime_nsec := parseInt mtime_ns_s,
           uid := parseNat 10 uid_s % U32,
           gid := parseNat 10 gid_s % U32 }

/-- Parser for the payload of a `file|` line (src/metadata.c 216-311):
six mandatory bar-separated fields, drive lookup by name, vpath length
guard, the optional v2 `|MODE|UID|GID` tail (zeros when absent or
incomplete), the `mode = 0` default, and the `block_count` validation
against `blocks_for_size`. -/
def parseFileRec (drives : List lr_drive) (bs : Nat) (l : List Char) : Option lr_file :=
  match splitBar l with
  | none => none
  | some (drive_name, r1) =>
  match splitBar r1 with
  | none => none
  | some (vpath, r2) =>
  match splitBar r2 with
  | none => none
  | some (size_s, r3) =>
  match splitBar r3 with
  | none => none
  | some (pos_s, r4) =>
  match splitBar r4 with
  | none => none
  | some (cnt_s, r5) =>
  match splitBar r5 with
  | none => none
  | some (mtime_s, mtime_ns_s) =>
  match drives.findIdx? (fun d => decide (d.name.toList = drive_name)) with
  | none => none
  | some drive_idx =>
  if 4096 ≤ vpath.length then none
  else
    let size : Int := parseInt size_s
    let mug : List Char × Nat × Nat × Nat :=
      match splitBar mtime_ns_s with
      | none => (mtime_ns_s, 0, 0, 0)
      | some (ns1, r7) =>
        match splitBar r7 with
        | none => (ns1, 0, 0, 0)
        | some (mode_s, r8) =>
          match splitBar r8 with
          | none => (ns1, 0, 0, 0)
          | some (uid_s, gid_s) =>
            (ns1, parseNat 8 mode_s % U32, parseNat 10 uid_s % U32,
              parseNat 10 gid_s % U32)
    let stored := parseNat 10 cnt_s % U32
    let expected := blocks_for_size (asUInt64 size) bs
    some { vpath := String.mk vpath,
           real_path := load_real_path drives drive_idx vpath,
           drive_idx := drive_idx,
           size := size,
           block_count := if stored = expected then stored else expected,
           parity_pos_start := parseNat 10 pos_s % U32,
           mtime_sec := parseInt mtime_s,
           mtime_nsec := parseInt mug.1,
           mode := if mug.2.1 = 0 then 33188 else mug.2.1,
           uid := mug.2.2.1,
           gid := mug.2.2.2,
           open_count := 0 }

/-- `p[0] == '#' || p[0] == '\0'`: comment or empty line. -/
def isSkipLine (l : List Char) : Bool :=
  match l with
  | [] => true
  | c :: _ => c == '#'

/-- The record-extracting part of `metadata_load`, over the content file
as a list of newline-stripped lines: stop at the `# crc32:` footer, skip
comments, directives and empty lines, collect the dir, symlink and file
records that parse (lines whose parse fails are skipped). Allocator
directive lines only mutate the drives' allocators, which this claim
does not touch; for record extraction they behave as comments.

`metadata_load` reads through a `PATH_MAX + 256 = 4352`-byte `fgets`
buffer (src/metadata.c line 51), so a physical line reaches the parser
whole only when its content plus the newline fits in 4351 bytes; a longer
line is delivered in chunks and its record is lost. This definition takes
the content as logical lines and is therefore faithful exactly for
content whose lines are shorter than 4351 characters; the round-trip
theorem's hypotheses bound every rendered line (and, via the 63-character
drive-name bound matching the loader's `char dname[64]` buffers, every
directive line) below that. -/
def metadata_load_lines (drives : List lr_drive) (bs : Nat) :
    List (List Char) → List lr_file × List lr_dir × List lr_symlink
  | [] => ([], [], [])
  | l :: rest =>
    if ("# crc32:".toList).isPrefixOf l then ([], [], [])
    else if isSkipLine l then metadata_load_lines drives bs rest
    else if ("dir|".toList).isPrefixOf l then
      match parseDirRec (l.drop 4) with
      | some d =>
        let r := metadata_load_lines drives bs rest
        (r.1, d :: r.2.1, r.2.2)
      | none => metadata_load_lines drives bs rest
    else if ("symlink|".toList).isPrefixOf l then
      match parseSymlinkRec (l.drop 8) with
      | some sl =>
        let r := metadata_load_lines drives bs rest
        (r.1, r.2.1, sl :: r.2.2)
      | none => metadata_load_lines drives bs rest
    else if ("file|".toList).isPrefixOf l then
      match parseFileRec drives bs (l.drop 5) with
      | some fl =>
        let r := metadata_load_lines drives bs rest
        (fl :: r.1, r.2.1, r.2.2)
      | none => metadata_load_lines drives bs rest
    else metadata_load_lines drives bs rest

-- ===== drive lookup =====

theorem toList_inj {s t : String} (h : s.toList = t.toList) : s = t :=
  String.ext h

theorem findIdx_name (nm : List Char) :
    ∀ (l : List lr_drive) (i s : Nat) (hi : i < l.length),
      (l.map (fun d => d.name)).Nodup →
      (l.get ⟨i, hi⟩).name.toList = nm →
      l.findIdx? (fun d => decide (d.name.toList = nm)) s = some (s + i) := by
  intro l
  induction l with
  | nil => intro i s hi; simp at hi
  | cons d tl ih =>
    intro i s hi hnodup hget
    simp only [List.map_cons, List.nodup_cons] at hnodup
    cases i with
    | zero =>
      have hget0 : d.name.toList = nm := hget
      rw [List.findIdx?_cons, if_pos (decide_eq_true hget0)]
      simp
    | succ j =>
      have hj : j < tl.length := by
        simp only [List.length_cons] at hi; omega
      have hget2 : (tl.get ⟨j, hj⟩).name.toList = nm := hget
      have hd_ne : ¬(d.name.toList = nm) := by
        intro he
        have h1 : d.name = (tl.get ⟨j, hj⟩).name := toList_inj (he.trans hget2.symm)
        exact hnodup.1 (h1 ▸ List.mem_map.mpr
          ⟨tl.get ⟨j, hj⟩, List.get_mem tl j hj, rfl⟩)
      rw [List.findIdx?_cons, if_neg (by simpa using hd_ne),
        ih j (s + 1) hj hnodup.2 hget2]
      congr 1
      omega

-- ===== loader step lemmas =====

theorem load_cons_skip (drives : List lr_drive) (bs : Nat) (l : List Char)
    (rest : List (List Char))
    (hcrc : ("# crc32:".toList).isPrefixOf l = false)
    (hskip : isSkipLine l = true) :
    metadata_load_lines drives bs (l :: rest) = metadata_load_lines drives bs rest := by
  simp only [metadata_load_lines, hcrc, hskip]
  simp

theorem load_cons_skips (drives : List lr_drive) (bs : Nat)
    (ls rest : List (List Char))
    (h : ∀ l ∈ ls, ("# crc32:".toList).isPrefixOf l = false ∧ isSkipLine l = true) :
    metadata_load_lines drives bs (ls ++ rest) = metadata_load_lines drives bs rest := by
  induction ls with
  | nil => rfl
  | cons l tl ih =>
    have h1 := h l (List.mem_cons_self l tl)
    rw [List.cons_append, load_cons_skip drives bs l _ h1.1 h1.2,
      ih (fun x hx => h x (List.mem_cons_of_mem l hx))]

theorem load_cons_file (drives : List lr_drive) (bs : Nat) (payload : List Char)
    (rest : List (List Char)) (fl : lr_file)
    (hparse : parseFileRec drives bs payload = some fl) :
    metadata_load_lines drives bs
        (('f' :: 'i' :: 'l' :: 'e' :: '|' :: payload) :: rest) =
      ((fl :: (metadata_load_lines drives bs rest).1,
        (metadata_load_lines drives bs rest).2.1,
        (metadata_load_lines drives bs rest).2.2)) := by
  have hcrc : ("# crc32:".toList).isPrefixOf
      ('f' :: 'i' :: 'l' :: 'e' :: '|' :: payload) = false := rfl
  have hskip : isSkipLine ('f' :: 'i' :: 'l' :: 'e' :: '|' :: payload) = false := rfl
  have hdir : ("dir|".toList).isPrefixOf
      ('f' :: 'i' :: 'l' :: 'e' :: '|' :: payload) = false := rfl
  have hsym : ("symlink|".toList).isPrefixOf
      ('f' :: 'i' :: 'l' :: 'e' :: '|' :: payload) = false := rfl
  have hfile : ("file|".toList).isPrefixOf
      ('f' :: 'i' :: 'l' :: 'e' :: '|' :: payload) = true := by
    show (List.isPrefixOf ('f' :: 'i' :: 'l' :: 'e' :: '|' :: []) _) = true
    simp [List.isPrefixOf]
  have hdrop : List.drop 5 ('f' :: 'i' :: 'l' :: 'e' :: '|' :: payload) = payload := rfl
  simp only [metadata_load_lines, hcrc, hskip, hdir, hsym, hfile, hdrop, hparse]
  simp

theorem load_cons_dir (drives : List lr_drive) (bs : Nat) (payload : List Char)
    (rest : List (List Char)) (d : lr_dir)
    (hparse : parseDirRec payload = some d) :
    metadata_load_lines drives bs (('d' :: 'i' :: 'r' :: '|' :: payload) :: rest) =
      (((metadata_load_lines drives bs rest).1,
        d :: (metadata_load_lines drives bs rest).2.1,
        (metadata_load_lines drives bs rest).2.2)) := by
  have hcrc : ("# crc32:".toList).isPrefixOf
      ('d' :: 'i' :: 'r' :: '|' :: payload) = false := rfl
  have hskip : isSkipLine ('d' :: 'i' :: 'r' :: '|' :: payload) = false := rfl
  have hdir : ("dir|".toList).isPrefixOf ('d' :: 'i' :: 'r' :: '|' :: payload) = true := by
    show (List.isPrefixOf ('d' :: 'i' :: 'r' :: '|' :: []) _) = true
    simp [List.isPrefixOf]
  have hdrop : List.drop 4 ('d' :: 'i' :: 'r' :: '|' :: payload) = payload := rfl
  simp only [metadata_load_lines, hcrc, hskip, hdir, hdrop, hparse]
  simp

theorem load_cons_symlink (drives : List lr_drive) (bs : Nat) (payload : List Char)
    (rest : List (List Char)) (sl : lr_symlink)
    (hparse : parseSymlinkRec payload = some sl) :
    metadata_load_lines drives bs
        (('s' :: 'y' :: 'm' :: 'l' :: 'i' :: 'n' :: 'k' :: '|' :: payload) :: rest) =
      (((metadata_load_lines drives bs rest).1,
        (metadata_load_lines drives bs rest).2.1,
        sl :: (metadata_load_lines drives bs rest).2.2)) := by
  have hcrc : ("# crc32:".toList).isPrefixOf
      ('s' :: 'y' :: 'm' :: 'l' :: 'i' :: 'n' :: 'k' :: '|' :: payload) = false := rfl
  have hskip : isSkipLine
      ('s' :: 'y' :: 'm' :: 'l' :: 'i' :: 'n' :: 'k' :: '|' :: payload) = false := rfl
  have hdir : ("dir|".toList).isPrefixOf
      ('s' :: 'y' :: 'm' :: 'l' :: 'i' :: 'n' :: 'k' :: '|' :: payload) = false := rfl
  have hsym : ("symlink|".toList).isPrefixOf
      ('s' :: 'y' :: 'm' :: 'l' :: 'i' :: 'n' :: 'k' :: '|' :: payload) = true := by
    show (List.isPrefixOf
      ('s' :: 'y' :: 'm' :: 'l' :: 'i' :: 'n' :: 'k' :: '|' :: []) _) = true
    simp [List.isPrefixOf]
  have hdrop : List.drop 8
      ('s' :: 'y' :: 'm' :: 'l' :: 'i' :: 'n' :: 'k' :: '|' :: payload) = payload := rfl
  simp only [metadata_load_lines, hcrc, hskip, hdir, hsym, hdrop, hparse]
  simp

theorem load_footer (drives : List lr_drive) (bs : Nat) (crcHex : List Char)
    (rest : List (List Char)) :
    metadata_load_lines drives bs (("# crc32: ".toList ++ crcHex) :: rest) =
      ([], [], []) := by
  have hcrc : ("# crc32:".toList).isPrefixOf ("# crc32: ".toList ++ crcHex) = true := by
    show (List.isPrefixOf _ ('#' :: ' ' :: 'c' :: 'r' :: 'c' :: '3' :: '2' :: ':' :: ' ' :: crcHex)) = true
    simp [List.isPrefixOf]
  simp only [metadata_load_lines, hcrc]
  simp

-- ===== record round-trip lemmas =====

theorem blocks_for_size_lt (a b : Nat) : blocks_for_size a b < U32 := by
  unfold blocks_for_size
  by_cases h : a = 0
  · rw [if_pos h]; decide
  · rw [if_neg h]
    exact Nat.mod_lt _ (by decide)

theorem U32_lt_pow64 : U32 < 10 ^ 64 := by norm_num [U32]

theorem parseDirRec_round (d : lr_dir)
    (hvp : '|' ∉ d.vpath.toList) (hvplen : d.vpath.toList.length < 4096)
    (hmode0 : d.mode ≠ 0) (hmode : d.mode < U32)
    (huid : d.uid < U32) (hgid : d.gid < U32)
    (hmts : d.mtime_sec.natAbs < 10 ^ 64) (hmtn : d.mtime_nsec.natAbs < 10 ^ 64) :
    parseDirRec (dirLinePayload d) = some d := by
  have emode : parseNat 8 (natToChars 8 d.mode) = d.mode :=
    parseNat_natToChars 8 _ (by norm_num) (by norm_num)
      (lt_trans hmode (by norm_num [U32]))
  have euid : parseNat 10 (natToChars 10 d.uid) = d.uid :=
    parseNat_natToChars 10 _ (by norm_num) (by norm_num)
      (lt_trans huid (by norm_num [U32]))
  have egid : parseNat 10 (natToChars 10 d.gid) = d.gid :=
    parseNat_natToChars 10 _ (by norm_num) (by norm_num)
      (lt_trans hgid (by norm_num [U32]))
  have emts : parseInt (intToChars d.mtime_sec) = d.mtime_sec :=
    parseInt_intToChars _ hmts
  have emtn : parseInt (intToChars d.mtime_nsec) = d.mtime_nsec :=
    parseInt_intToChars _ hmtn
  simp only [dirLinePayload, parseDirRec,
    splitBar_append _ _ hvp,
    splitBar_append _ _ (natToChars_no_bar 8 d.mode (by norm_num) (by norm_num)),
    splitBar_append _ _ (natToChars_no_bar 10 d.uid (by norm_num) (by norm_num)),
    splitBar_append _ _ (natToChars_no_bar 10 d.gid (by norm_num) (by norm_num)),
    splitBar_append _ _ (intToChars_no_bar d.mtime_sec)]
  rw [if_neg (by omega)]
  rw [emode, euid, egid, emts, emtn,
    Nat.mod_eq_of_lt hmode, Nat.mod_eq_of_lt huid, Nat.mod_eq_of_lt hgid,
    if_neg hmode0]
  rfl

theorem parseSymlinkRec_round (sl : lr_symlink)
    (hvp : '|' ∉ sl.vpath.toList) (hvplen : sl.vpath.toList.length < 4096)
    (htg : '|' ∉ sl.target.toList) (htglen : sl.target.toList.length < 4096)
    (huid : sl.uid < U32) (hgid : sl.gid < U32)
    (hmts : sl.mtime_sec.natAbs < 10 ^ 64) (hmtn : sl.mtime_nsec.natAbs < 10 ^ 64) :
    parseSymlinkRec (symlinkLinePayload sl) = some sl := by
  have euid : parseNat 10 (natToChars 10 sl.uid) = sl.uid :=
    parseNat_natToChars 10 _ (by norm_num) (by norm_num)
      (lt_trans huid (by norm_num [U32]))
  have egid : parseNat 10 (natToChars 10 sl.gid) = sl.gid :=
    parseNat_natToChars 10 _ (by norm_num) (by norm_num)
      (lt_trans hgid (by norm_num [U32]))
  have emts : parseInt (intToChars sl.mtime_sec) = sl.mtime_sec :=
    parseInt_intToChars _ hmts
  have emtn : parseInt (intToChars sl.mtime_nsec) = sl.mtime_nsec :=
    parseInt_intToChars _ hmtn
  simp only [symlinkLinePayload, parseSymlinkRec,
    splitBar_append _ _ hvp,
    splitBar_append _ _ htg,
    splitBar_append _ _ (intToChars_no_bar sl.mtime_sec),
    splitBar_append _ _ (intToChars_no_bar sl.mtime_nsec),
    splitBar_append _ _ (natToChars_no_bar 10 sl.uid (by norm_num) (by norm_num))]
  rw [if_neg (by omega)]
  rw [euid, egid, emts, emtn, Nat.mod_eq_of_lt huid, Nat.mod_eq_of_lt hgid]
  rfl

theorem parseFileRec_round (drives : List lr_drive) (bs : Nat) (f : lr_file)
    (hnodup : (drives.map (fun d => d.name)).Nodup)
    (hidx : f.drive_idx < drives.length)
    (hnames : ∀ d ∈ drives, '|' ∉ d.name.toList)
    (hvp : '|' ∉ f.vpath.toList)
    (hvplen : f.vpath.toList.length < 4096)
    (hsize : f.size.natAbs < 10 ^ 64)
    (hpos : f.parity_pos_start < U32)
    (hcnt : f.block_count = blocks_for_size (asUInt64 f.size) bs)
    (hmts : f.mtime_sec.natAbs < 10 ^ 64)
    (hmtn : f.mtime_nsec.natAbs < 10 ^ 64)
    (hmode0 : f.mode ≠ 0) (hmode : f.mode < U32)
    (huid : f.uid < U32) (hgid : f.gid < U32)
    (hreal : f.real_path = load_real_path drives f.drive_idx f.vpath.toList)
    (hoc : f.open_count = 0) :
    parseFileRec drives bs
      (fileLinePayload (drives.getD f.drive_idx dfltDrive).name.toList f) = some f := by
  have hgetd : drives.getD f.drive_idx dfltDrive = drives.get ⟨f.drive_idx, hidx⟩ := by
    rw [List.getD_eq_getElem?_getD, List.getElem?_eq_getElem hidx]
    rfl
  have hmemd : drives.getD f.drive_idx dfltDrive ∈ drives := by
    rw [hgetd]; exact List.get_mem drives f.drive_idx hidx
  have hdnbar : '|' ∉ (drives.getD f.drive_idx dfltDrive).name.toList := hnames _ hmemd
  have hfind : drives.findIdx?
      (fun d => decide (d.name.toList =
        (drives.getD f.drive_idx dfltDrive).name.toList)) = some f.drive_idx := by
    have := findIdx_name ((drives.getD f.drive_idx dfltDrive).name.toList) drives
      f.drive_idx 0 hidx hnodup (by rw [← hgetd])
    simpa using this
  have hbclt : f.block_count < U32 := hcnt ▸ blocks_for_size_lt _ _
  have e1 : parseInt (intToChars f.size) = f.size := parseInt_intToChars _ hsize
  have epos : parseNat 10 (natToChars 10 f.parity_pos_start) = f.parity_pos_start :=
    parseNat_natToChars 10 _ (by norm_num) (by norm_num)
      (lt_trans hpos (by norm_num [U32]))
  have ecnt : parseNat 10 (natToChars 10 f.block_count) = f.block_count :=
    parseNat_natToChars 10 _ (by norm_num) (by norm_num)
      (lt_trans hbclt (by norm_num [U32]))
  have emts : parseInt (intToChars f.mtime_sec) = f.mtime_sec :=
    parseInt_intToChars _ hmts
  have emtn : parseInt (intToChars f.mtime_nsec) = f.mtime_nsec :=
    parseInt_intToChars _ hmtn
  have emode : parseNat 8 (natToChars 8 f.mode) = f.mode :=
    parseNat_natToChars 8 _ (by norm_num) (by norm_num)
      (lt_trans hmode (by norm_num [U32]))
  have euid : parseNat 10 (natToChars 10 f.uid) = f.uid :=
    parseNat_natToChars 10 _ (by norm_num) (by norm_num)
      (lt_trans huid (by norm_num [U32]))
  have egid : parseNat 10 (natToChars 10 f.gid) = f.gid :=
    parseNat_natToChars 10 _ (by norm_num) (by norm_num)
      (lt_trans hgid (by norm_num [U32]))
  simp only [fileLinePayload, parseFileRec,
    splitBar_append _ _ hdnbar,
    splitBar_append _ _ hvp,
    splitBar_append _ _ (intToChars_no_bar f.size),
    splitBar_append _ _ (natToChars_no_bar 10 f.parity_pos_start (by norm_num) (by norm_num)),
    splitBar_append _ _ (natToChars_no_bar 10 f.block_count (by norm_num) (by norm_num)),
    splitBar_append _ _ (intToChars_no_bar f.mtime_sec),
    splitBar_append _ _ (intToChars_no_bar f.mtime_nsec),
    splitBar_append _ _ (natToChars_no_bar 8 f.mode (by norm_num) (by norm_num)),
    splitBar_append _ _ (natToChars_no_bar 10 f.uid (by norm_num) (by norm_num)),
    hfind]
  rw [if_neg (by omega)]
  rw [e1, ecnt, epos, emts, emtn, emode, euid, egid,
    Nat.mod_eq_of_lt hbclt, Nat.mod_eq_of_lt hpos, Nat.mod_eq_of_lt hmode,
    Nat.mod_eq_of_lt huid, Nat.mod_eq_of_lt hgid,
    ← hcnt, if_pos rfl, if_neg hmode0, ← hreal, ← hoc]
  rfl

-- ===== assembling the full round trip =====

theorem drive_hdr_class (d : lr_drive) :
    ∀ l ∈ drive_header_lines d,
      ("# crc32:".toList).isPrefixOf l = false ∧ isSkipLine l = true := by
  intro l hl
  simp only [drive_header_lines, List.mem_cons, List.mem_map] at hl
  rcases hl with rfl | ⟨e, he, rfl⟩
  · exact ⟨rfl, rfl⟩
  · exact ⟨rfl, rfl⟩

theorem load_files_section (drives : List lr_drive) (bs : Nat)
    (files : List lr_file) (R : List (List Char))
    (h : ∀ f ∈ files, parseFileRec drives bs
      (fileLinePayload (drives.getD f.drive_idx dfltDrive).name.toList f) = some f) :
    metadata_load_lines drives bs
        (files.map (fun f =>
          renderFileLine (drives.getD f.drive_idx dfltDrive).name.toList f) ++ R) =
      (files ++ (metadata_load_lines drives bs R).1,
       (metadata_load_lines drives bs R).2.1,
       (metadata_load_lines drives bs R).2.2) := by
  induction files with
  | nil => simp
  | cons f tl ih =>
    rw [List.map_cons, List.cons_append]
    have hline : renderFileLine (drives.getD f.drive_idx dfltDrive).name.toList f =
        'f' :: 'i' :: 'l' :: 'e' :: '|' ::
          fileLinePayload (drives.getD f.drive_idx dfltDrive).name.toList f := rfl
    rw [hline, load_cons_file drives bs _ _ f (h f (List.mem_cons_self f tl)),
      ih (fun x hx => h x (List.mem_cons_of_mem f hx))]
    simp

theorem load_dirs_section (drives : List lr_drive) (bs : Nat)
    (dirs : List lr_dir) (R : List (List Char))
    (h : ∀ d ∈ dirs, parseDirRec (dirLinePayload d) = some d) :
    metadata_load_lines drives bs (dirs.map renderDirLine ++ R) =
      ((metadata_load_lines drives bs R).1,
       dirs ++ (metadata_load_lines drives bs R).2.1,
       (metadata_load_lines drives bs R).2.2) := by
  induction dirs with
  | nil => simp
  | cons d tl ih =>
    rw [List.map_cons, List.cons_append]
    have hline : renderDirLine d = 'd' :: 'i' :: 'r' :: '|' :: dirLinePayload d := rfl
    rw [hline, load_cons_dir drives bs _ _ d (h d (List.mem_cons_self d tl)),
      ih (fun x hx => h x (List.mem_cons_of_mem d hx))]
    simp

theorem load_syms_section (drives : List lr_drive) (bs : Nat)
    (syms : List lr_symlink) (R : List (List Char))
    (h : ∀ sl ∈ syms, parseSymlinkRec (symlinkLinePayload sl) = some sl) :
    metadata_load_lines drives bs (syms.map renderSymlinkLine ++ R) =
      ((metadata_load_lines drives bs R).1,
       (metadata_load_lines drives bs R).2.1,
       syms ++ (metadata_load_lines drives bs R).2.2) := by
  induction syms with
  | nil => simp
  | cons sl tl ih =>
    rw [List.map_cons, List.cons_append]
    have hline : renderSymlinkLine sl =
        's' :: 'y' :: 'm' :: 'l' :: 'i' :: 'n' :: 'k' :: '|' ::
          symlinkLinePayload sl := rfl
    rw [hline, load_cons_symlink drives bs _ _ sl (h sl (List.mem_cons_self sl tl)),
      ih (fun x hx => h x (List.mem_cons_of_mem sl hx))]
    simp

-- ===== the old 8-field format =====

theorem parseFileRec_oldformat (drives : List lr_drive) (bs : Nat)
    (hnodup : (drives.map (fun d => d.name)).Nodup)
    (hnames : ∀ d ∈ drives, '|' ∉ d.name.toList)
    (vp : List Char) (idx pos cnt : Nat) (size mts mtn : Int)
    (hidx : idx < drives.length) (hvp : '|' ∉ vp) (hvplen : vp.length < 4096)
    (hsize : size.natAbs < 10 ^ 64) (hpos : pos < U32)
    (hmts : mts.natAbs < 10 ^ 64) (hmtn : mtn.natAbs < 10 ^ 64) :
    parseFileRec drives bs
      ((drives.getD idx dfltDrive).name.toList ++ '|' :: (vp ++ '|' ::
        (intToChars size ++ '|' :: (natToChars 10 pos ++ '|' ::
          (natToChars 10 cnt ++ '|' :: (intToChars mts ++ '|' ::
            intToChars mtn)))))) =
      some { vpath := String.mk vp,
             real_path := load_real_path drives idx vp,
             drive_idx := idx,
             size := size,
             block_count := blocks_for_size (asUInt64 size) bs,
             parity_pos_start := pos,
             mtime_sec := mts,
             mtime_nsec := mtn,
             mode := 33188,
             uid := 0,
             gid := 0,
             open_count := 0 } := by
  have hgetd : drives.getD idx dfltDrive = drives.get ⟨idx, hidx⟩ := by
    rw [List.getD_eq_getElem?_getD, List.getElem?_eq_getElem hidx]
    rfl
  have hmemd : drives.getD idx dfltDrive ∈ drives := by
    rw [hgetd]; exact List.get_mem drives idx hidx
  have hdnbar : '|' ∉ (drives.getD idx dfltDrive).name.toList := hnames _ hmemd
  have hfind : drives.findIdx?
      (fun d => decide (d.name.toList =
        (drives.getD idx dfltDrive).name.toList)) = some idx := by
    have := findIdx_name ((drives.getD idx dfltDrive).name.toList) drives
      idx 0 hidx hnodup (by rw [← hgetd])
    simpa using this
  have e1 : parseInt (intToChars size) = size := parseInt_intToChars _ hsize
  have epos : parseNat 10 (natToChars 10 pos) = pos :=
    parseNat_natToChars 10 _ (by norm_num) (by norm_num)
      (lt_trans hpos (by norm_num [U32]))
  have emts : parseInt (intToChars mts) = mts := parseInt_intToChars _ hmts
  have emtn : parseInt (intToChars mtn) = mtn := parseInt_intToChars _ hmtn
  simp only [parseFileRec,
    splitBar_append _ _ hdnbar,
    splitBar_append _ _ hvp,
    splitBar_append _ _ (intToChars_no_bar size),
    splitBar_append _ _ (natToChars_no_bar 10 pos (by norm_num) (by norm_num)),
    splitBar_append _ _ (natToChars_no_bar 10 cnt (by norm_num) (by norm_num)),
    splitBar_append _ _ (intToChars_no_bar mts),
    splitBar_none _ (intToChars_no_bar mtn),
    hfind]
  rw [if_neg (by omega)]
  rw [e1, epos, emts, emtn, Nat.mod_eq_of_lt hpos]
  have hifcnt : ∀ a b : Nat, (if a = b then a else b) = b := by
    intro a b
    by_cases h : a = b
    · rw [if_pos h, h]
    · rw [if_neg h]
  rw [hifcnt]
  rfl

-- ===== well-formedness of records (the amended hypotheses) =====

/-- A file record the codec round-trips: a valid drive index, a vpath free
of the field separator and of newlines and shorter than PATH_MAX, numerals
in the ranges of their C types (int64 for size and mtimes, uint32 for the
rest), the `block_count` invariant the code maintains, the loader-shaped
`real_path`, a closed file, and a rendered record line that fits the
loader's 4352-byte `fgets` buffer together with its newline. -/
def goodFileRec (drives : List lr_drive) (bs : Nat) (f : lr_file) : Prop :=
  f.drive_idx < drives.length ∧
  '|' ∉ f.vpath.toList ∧ '\n' ∉ f.vpath.toList ∧ f.vpath.toList.length < 4096 ∧
  f.size.natAbs ≤ 2 ^ 63 ∧ f.parity_pos_start < U32 ∧
  f.block_count = blocks_for_size (asUInt64 f.size) bs ∧
  f.mtime_sec.natAbs ≤ 2 ^ 63 ∧ f.mtime_nsec.natAbs ≤ 2 ^ 63 ∧
  f.mode ≠ 0 ∧ f.mode < U32 ∧ f.uid < U32 ∧ f.gid < U32 ∧
  f.real_path = load_real_path drives f.drive_idx f.vpath.toList ∧
  f.open_count = 0 ∧
  (renderFileLine (drives.getD f.drive_idx dfltDrive).name.toList f).length < 4351

instance (drives : List lr_drive) (bs : Nat) (f : lr_file) :
    Decidable (goodFileRec drives bs f) := by
  unfold goodFileRec; infer_instance

/-- A dir record the codec round-trips; the final conjunct keeps the
rendered line inside the loader's 4352-byte `fgets` buffer. -/
def goodDirRec (d : lr_dir) : Prop :=
  '|' ∉ d.vpath.toList ∧ '\n' ∉ d.vpath.toList ∧ d.vpath.toList.length < 4096 ∧
  d.mode ≠ 0 ∧ d.mode < U32 ∧ d.uid < U32 ∧ d.gid < U32 ∧
  d.mtime_sec.natAbs ≤ 2 ^ 63 ∧ d.mtime_nsec.natAbs ≤ 2 ^ 63 ∧
  (renderDirLine d).length < 4351

instance (d : lr_dir) : Decidable (goodDirRec d) := by
  unfold goodDirRec; infer_instance

/-- A symlink record the codec round-trips. Per-field PATH_MAX bounds are
not enough here: a symlink line carries two path fields, and with both
near PATH_MAX the rendered line overflows the loader's 4352-byte `fgets`
buffer and is delivered in chunks, losing the record; the final conjunct
rules exactly that out. -/
def goodSymlinkRec (sl : lr_symlink) : Prop :=
  '|' ∉ sl.vpath.toList ∧ '\n' ∉ sl.vpath.toList ∧ sl.vpath.toList.length < 4096 ∧
  '|' ∉ sl.target.toList ∧ '\n' ∉ sl.target.toList ∧
  sl.target.toList.length < 4096 ∧
  sl.uid < U32 ∧ sl.gid < U32 ∧
  sl.mtime_sec.natAbs ≤ 2 ^ 63 ∧ sl.mtime_nsec.natAbs ≤ 2 ^ 63 ∧
  (renderSymlinkLine sl).length < 4351

instance (sl : lr_symlink) : Decidable (goodSymlinkRec sl) := by
  unfold goodSymlinkRec; infer_instance

/-- C2: for every in-memory state whose drive names are distinct,
separator-free and at most 63 characters (the loader's `char dname[64]`
buffers), and whose records are well formed (vpaths and targets free of
`|` and newline and shorter than PATH_MAX, numeric fields in the range
of their C types, `block_count` equal to `blocks_for_size(size, bs)`,
`real_path` as the loader derives it, `open_count = 0`, every rendered
record line short enough to fit the loader's 4352-byte `fgets` buffer),
metadata save followed by metadata load reproduces every file, dir and
symlink record field-for-field; and every old-format 8-field file record
(no mode, uid, gid fields) parses successfully with
`mode = S_IFREG | 0644 = 33188` and uid and gid defaulted to 0. -/
theorem c2_metadata_roundtrip (st : MetaState) (crcHex : List Char)
    (hnodup : (st.drives.map (fun d => d.name)).Nodup)
    (hnames : ∀ d ∈ st.drives, '|' ∉ d.name.toList ∧ '\n' ∉ d.name.toList ∧
      d.name.toList.length ≤ 63)
    (hfiles : ∀ f ∈ st.files, goodFileRec st.drives st.block_size f)
    (hdirs : ∀ d ∈ st.dirs, goodDirRec d)
    (hsyms : ∀ sl ∈ st.symlinks, goodSymlinkRec sl) :
    metadata_load_lines st.drives st.block_size (write_to_path_lines st crcHex) =
      (st.files, st.dirs, st.symlinks) ∧
    (∀ (vp : List Char) (idx pos cnt : Nat) (size mts mtn : Int),
      idx < st.drives.length → '|' ∉ vp → vp.length < 4096 →
      size.natAbs ≤ 2 ^ 63 → pos < U32 → cnt < U32 →
      mts.natAbs ≤ 2 ^ 63 → mtn.natAbs ≤ 2 ^ 63 →
      parseFileRec st.drives st.block_size
        ((st.drives.getD idx dfltDrive).name.toList ++ '|' :: (vp ++ '|' ::
          (intToChars size ++ '|' :: (natToChars 10 pos ++ '|' ::
            (natToChars 10 cnt ++ '|' :: (intToChars mts ++ '|' ::
              intToChars mtn)))))) =
        some { vpath := String.mk vp,
               real_path := load_real_path st.drives idx vp,
               drive_idx := idx,
               size := size,
               block_count := blocks_for_size (asUInt64 size) st.block_size,
               parity_pos_start := pos,
               mtime_sec := mts,
               mtime_nsec := mtn,
               mode := 33188,
               uid := 0,
               gid := 0,
               open_count := 0 }) := by
  constructor
  · have hdrcls : ∀ l ∈ st.drives.flatMap drive_header_lines,
        ("# crc32:".toList).isPrefixOf l = false ∧ isSkipLine l = true := by
      intro l hl
      rw [List.mem_flatMap] at hl
      obtain ⟨d, hd, hl⟩ := hl
      exact drive_hdr_class d l hl
    have hfparse : ∀ f ∈ st.files, parseFileRec st.drives st.block_size
        (fileLinePayload (st.drives.getD f.drive_idx dfltDrive).name.toList f) =
        some f := by
      intro f hf
      obtain ⟨h1, h2, hnl, h3, h4, h5, h6, h7, h8, h9, h10, h11, h12, h13, h14,
        hln⟩ := hfiles f hf
      exact parseFileRec_round st.drives st.block_size f hnodup h1
        (fun d hd => (hnames d hd).1) h2 h3
        (lt_of_le_of_lt h4 (by norm_num)) h5 h6
        (lt_of_le_of_lt h7 (by norm_num)) (lt_of_le_of_lt h8 (by norm_num))
        h9 h10 h11 h12 h13 h14
    have hdparse : ∀ d ∈ st.dirs, parseDirRec (dirLinePayload d) = some d := by
      intro d hd
      obtain ⟨h1, hnl, h2, h3, h4, h5, h6, h7, h8, hln⟩ := hdirs d hd
      exact parseDirRec_round d h1 h2 h3 h4 h5 h6
        (lt_of_le_of_lt h7 (by norm_num)) (lt_of_le_of_lt h8 (by norm_num))
    have hsparse : ∀ sl ∈ st.symlinks,
        parseSymlinkRec (symlinkLinePayload sl) = some sl := by
      intro sl hsl
      obtain ⟨h1, hn1, h2, h3, hn2, h4, h5, h6, h7, h8, hln⟩ := hsyms sl hsl
      exact parseSymlinkRec_round sl h1 h2 h3 h4 h5 h6
        (lt_of_le_of_lt h7 (by norm_num)) (lt_of_le_of_lt h8 (by norm_num))
    simp only [write_to_path_lines]
    rw [load_cons_skip st.drives st.block_size ("# liveraid content".toList) _ rfl rfl,
      load_cons_skip st.drives st.block_size ("# version: 1".toList) _ rfl rfl,
      load_cons_skip st.drives st.block_size
        ("# blocksize: ".toList ++ natToChars 10 st.block_size) _ rfl rfl,
      load_cons_skips _ _ _ _ hdrcls,
      load_files_section _ _ _ _ hfparse,
      load_dirs_section _ _ _ _ hdparse,
      load_syms_section _ _ _ _ hsparse,
      load_footer]
    simp
  · intro vp idx pos cnt size mts mtn h1 h2 h3 h4 h5 hcnt h6 h7
    exact parseFileRec_oldformat st.drives st.block_size hnodup
      (fun d hd => (hnames d hd).1) vp idx pos cnt size mts mtn h1 h2 h3
      (lt_of_le_of_lt h4 (by norm_num)) h5
      (lt_of_le_of_lt h6 (by norm_num)) (lt_of_le_of_lt h7 (by norm_num))

/-- Drive used by the C2 witness and counterexample states. -/
def c2drv : lr_drive :=
  { name := "d0", dir := "/mnt/d0/",
    pos_alloc := { next_free := 3, extents := [{ start := 1, count := 2 }] } }

/-- A well-formed file record for the C2 witness. -/
def c2file : lr_file :=
  { vpath := "/a.txt", real_path := "/mnt/d0/a.txt", drive_idx := 0,
    size := 5, block_count := 1, parity_pos_start := 0,
    mtime_sec := 100, mtime_nsec := 7, mode := 33188,
    uid := 1000, gid := 100, open_count := 0 }

/-- A well-formed dir record for the C2 witness. -/
def c2dirrec : lr_dir :=
  { vpath := "/sub", mode := 16877, uid := 1000, gid := 100,
    mtime_sec := 50, mtime_nsec := 1 }

/-- A well-formed symlink record for the C2 witness. -/
def c2sym : lr_symlink :=
  { vpath := "/l", target := "/a.txt", mtime_sec := 60, mtime_nsec := 2,
    uid := 5, gid := 6 }

/-- Concrete state for the C2 witness. -/
def c2state : MetaState :=
  { block_size := 4096, drives := [c2drv], files := [c2file],
    dirs := [c2dirrec], symlinks := [c2sym] }

theorem c2_metadata_roundtrip_witness :
    ((c2state.drives.map (fun d => d.name)).Nodup ∧
      (∀ f ∈ c2state.files, goodFileRec c2state.drives c2state.block_size f) ∧
      (∀ d ∈ c2state.dirs, goodDirRec d) ∧
      (∀ sl ∈ c2state.symlinks, goodSymlinkRec sl)) ∧
    metadata_load_lines c2state.drives c2state.block_size
        (write_to_path_lines c2state ("00000000".toList)) =
      (c2state.files, c2state.dirs, c2state.symlinks) :=
  ⟨⟨by decide, by decide, by decide, by decide⟩,
    (c2_metadata_roundtrip c2state ("00000000".toList) (by decide) (by decide)
      (by decide) (by decide) (by decide)).1⟩

/-- A file whose vpath contains the field separator `|`. -/
def c2badfile : lr_file :=
  { vpath := "/a|b", real_path := "/mnt/d0/a|b", drive_idx := 0,
    size := 5, block_count := 1, parity_pos_start := 0,
    mtime_sec := 100, mtime_nsec := 7, mode := 33188,
    uid := 1000, gid := 100, open_count := 0 }

/-- State for the C2 counterexample: identical to the witness state except
that the single file's vpath contains a `|`. -/
def c2badState : MetaState :=
  { block_size := 4096, drives := [c2drv], files := [c2badfile],
    dirs := [], symlinks := [] }

/-- C2 counterexample: the unqualified claim (round trip for EVERY
in-memory state) fails. A vpath containing the field separator `|` garbles
the record on save: the loader splits `/a|b` at the bar, reads `/a` as the
vpath and `b` as the size field, so the loaded record differs. -/
theorem c2_metadata_roundtrip_counterexample :
    metadata_load_lines c2badState.drives c2badState.block_size
        (write_to_path_lines c2badState ("00000000".toList)) ≠
      (c2badState.files, c2badState.dirs, c2badState.symlinks) := by
  decide

end LiveRaid
